import Mathlib

/-!
# UltrasoundVisualGallery: Laplace approximation and Gauss-Hermite quadrature

A shallow embedding of

* `src/inference/laplace.hpp` (`usvg::laplace_approximation`), and
* `src/misc/quadrature.hpp` (`usdg::gauss_hermite`),

in exact arithmetic, where `double` is read as an arbitrary linearly ordered field `R`
(instantiated at `ℚ` for evaluation and at `ℝ` for the analytic statements), and, for
`gauss_hermite`, also in IEEE 754 binary64 arithmetic (`round_double`,
`gauss_hermite_double`), where every operation is rounded and the result depends on the
order of the additions.

Blaze vectors of the problem dimension are `Fin n → R`, Blaze matrices are
`Matrix (Fin n) (Fin n) R`.  The Blaze and `misc/lu.hpp` routines the code calls
(`usvg::lu`, `usvg::solve`, `blaze::norm`) are not part of the translated sources and are
taken as parameters (`Lib`).

The multivariate normal of `misc/mvnormal.hpp`, which is exercised by
`test/mvnormal.cpp` but is not among the sources, is modelled from the specification
(`MvNormalDense`, `MvNormalLaplace`).  The physicists' Hermite polynomials, against which
the node table of `gauss_hermite` is checked, are given by their three-term recurrence
(`hermite_H`).

To count the calls `laplace_approximation` makes to its oracle and to `usvg::lu`, the loop
is also given with a call record threaded through (`body_traced`, `loop_traced`,
`laplace_traced`); erasing the record gives back `body`, `loop` and `laplace_run`.

Layout: all definitions first (data model, `laplace_approximation`, concrete instances,
`gauss_hermite`, `gauss_hermite` on doubles, Hermite recurrence, multivariate normal, call
record), then the lemmas and theorems.
-/

open Matrix

namespace usvg

/-! ## Data model -/

/-- A `blaze::DynamicMatrix<double>`: a dense matrix that carries its own dimensions.
The default-constructed object is the empty `0 × 0` matrix. -/
structure DynamicMatrix (R : Type) where
  rows : ℕ
  columns : ℕ
  data : Matrix (Fin rows) (Fin columns) R

/-- The value of `blaze::DynamicMatrix<double>()`. -/
def DynamicMatrix.empty {R : Type} [Zero R] : DynamicMatrix R :=
  ⟨0, 0, fun _ _ => 0⟩

/-- An evaluated `n × n` matrix stored into a `DynamicMatrix`. -/
def DynamicMatrix.ofMatrix {R : Type} {n : ℕ} (M : Matrix (Fin n) (Fin n) R) :
    DynamicMatrix R :=
  ⟨n, n, M⟩

/-- The members of `usvg::Cholesky<CholType>` that `laplace_approximation` and the tests read:
`A` (the dense matrix), `L` (its lower factor) and `_A` (read at `laplace.hpp:56`).  The
class itself is declared in `misc/cholesky.hpp`. -/
structure Cholesky (R : Type) (n : ℕ) where
  A : Matrix (Fin n) (Fin n) R
  L : Matrix (Fin n) (Fin n) R
  _A : Matrix (Fin n) (Fin n) R

/-- The library routines used by `laplace_approximation`, for a factorisation type `LU`:
`LU0` is the default-constructed `LU()`, `lu` is `usvg::lu`, `solve` is `usvg::solve`
and `norm` is `blaze::norm`. -/
structure Lib (R : Type) (n : ℕ) (LU : Type) where
  LU0 : LU
  lu : Matrix (Fin n) (Fin n) R → LU
  solve : LU → (Fin n → R) → (Fin n → R)
  norm : (Fin n → R) → R

/-- Exceptions that leave `laplace_approximation`. -/
inductive Error where
  | singular_inversion
  deriving DecidableEq, Repr

/-- In exact arithmetic `blaze::invert` replaces a matrix by its inverse and throws
`std::runtime_error` when the matrix is singular. -/
def invert {R : Type} [Field R] [DecidableEq R] {n : ℕ} (A : Matrix (Fin n) (Fin n) R) :
    Option (Matrix (Fin n) (Fin n) R) :=
  if A.det = 0 then none else some ((A.det)⁻¹ • A.adjugate)

/-- The mutable variables of `laplace_approximation` that live across iterations
(`f`, `WK`, `Blu`), together with the lines written to `std::cout`
(`out`: the pairs `(iter, norm)` in the order printed). -/
structure LoopState (R : Type) (n : ℕ) (LU : Type) where
  f : Fin n → R
  WK : DynamicMatrix R
  Blu : LU
  out : List (ℕ × R)

/-- How the `for` loop was left: by `break` (line 86) or by `i < max_iter` failing. -/
inductive Exit where
  | Converged
  | MaxIterExhausted
  deriving DecidableEq, Repr

/-- The oracle `loglike_grad_neghess`: a point to (gradient, negative Hessian). -/
abbrev Oracle (R : Type) (n : ℕ) : Type :=
  (Fin n → R) → (Fin n → R) × Matrix (Fin n) (Fin n) R

/-! ## `laplace_approximation` -/

section Laplace

variable {R : Type} [LinearOrderedField R] {n : ℕ} {LU : Type}

/-- One pass through the loop body (lines 67-83) at loop index `i`; the second component
is the value of `blaze::norm(delta_f)` that line 84 compares with `1e-3`.

`b`, `WKb`, `a`, `f_next` and `delta_f` are declared with `auto` from Blaze arithmetic:
they are expression objects that refer to the variable `f` and are evaluated where they are
consumed.  They are therefore functions of the value `f` holds at that moment.  `WK` is an
assignment to a `DynamicMatrix` and `BinvWKb` is the result of a function call, so both
are evaluated on the spot (with `f` still the incoming point).  Line 79 stores the
value of `f_next` into `f` (through a temporary, since `f_next` aliases `f`); lines 82 and
84 evaluate `delta_f` after that. -/
def body (lib : Lib R n LU) (K_chol : Cholesky R n) (loglike_grad_neghess : Oracle R n)
    (i : ℕ) (s : LoopState R n LU) : LoopState R n LU × R :=
  let gradT := (loglike_grad_neghess s.f).1
  let W := (loglike_grad_neghess s.f).2
  let b : (Fin n → R) → (Fin n → R) := fun f => W *ᵥ f + gradT
  let WK : Matrix (Fin n) (Fin n) R := W * K_chol.A
  let B : Matrix (Fin n) (Fin n) R := 1 + WK
  let Blu := lib.lu B
  let WKb : (Fin n → R) → (Fin n → R) := fun f => WK *ᵥ b f
  let BinvWKb := lib.solve Blu (WKb s.f)
  let a : (Fin n → R) → (Fin n → R) := fun f => b f - BinvWKb
  let f_next : (Fin n → R) → (Fin n → R) := fun f => K_chol.A *ᵥ a f
  let delta_f : (Fin n → R) → (Fin n → R) := fun f => f - f_next f
  let f' := f_next s.f
  let nrm := lib.norm (delta_f f')
  (⟨f', DynamicMatrix.ofMatrix WK, Blu, s.out ++ [(i, nrm)]⟩, nrm)

/-- The loop `for (size_t i = 0; i < max_iter; ++i)` of lines 65-88, entered at index `i`
with `remaining = max_iter - i` iterations still allowed. -/
def loop (lib : Lib R n LU) (K_chol : Cholesky R n) (loglike_grad_neghess : Oracle R n) :
    (remaining : ℕ) → (i : ℕ) → LoopState R n LU → LoopState R n LU × Exit
  | 0, _, s => (s, Exit.MaxIterExhausted)
  | k + 1, i, s =>
    let r := body lib K_chol loglike_grad_neghess i s
    if r.2 < 1e-3 then (r.1, Exit.Converged)
    else loop lib K_chol loglike_grad_neghess k (i + 1) r.1

/-- The whole run of `laplace_approximation`: the inversion of lines 56-57 (whose result
`Kinv` is never read, but which throws on a singular matrix), the initialisation of
lines 59-64 and the loop.  Returns the final variables, the printed lines and the way the
loop was left. -/
def laplace_run (lib : Lib R n LU) (K_chol : Cholesky R n) (f0 : Fin n → R)
    (loglike_grad_neghess : Oracle R n) (max_iter : ℕ := 20) :
    Except Error (LoopState R n LU × Exit) :=
  match invert K_chol._A with
  | none => Except.error Error.singular_inversion
  | some _ =>
    Except.ok (loop lib K_chol loglike_grad_neghess max_iter 0
      ⟨f0, DynamicMatrix.empty, lib.LU0, []⟩)

/-- The function `usvg::laplace_approximation`: what line 89 returns to the caller, the
tuple `(f, WK, Blu)`. -/
def laplace_approximation (lib : Lib R n LU) (K_chol : Cholesky R n) (f0 : Fin n → R)
    (loglike_grad_neghess : Oracle R n) (max_iter : ℕ := 20) :
    Except Error ((Fin n → R) × DynamicMatrix R × LU) :=
  match laplace_run lib K_chol f0 loglike_grad_neghess max_iter with
  | Except.error e => Except.error e
  | Except.ok r => Except.ok (r.1.f, r.1.WK, r.1.Blu)

/-- The Newton step as the specification lists it (steps 1-7 of section 4.4):
`b = W·f + gradient`, `WK = W·K`, `B = I + WK`, `B_lu = lu(B)`,
`BinvWKb = solve(B_lu, WK·b)`, `a = b - BinvWKb`, `f_next = K·a`. -/
def spec_step (lib : Lib R n LU) (K : Matrix (Fin n) (Fin n) R)
    (loglike_grad_neghess : Oracle R n) (f : Fin n → R) : Fin n → R :=
  let gradient := (loglike_grad_neghess f).1
  let W := (loglike_grad_neghess f).2
  let b := W *ᵥ f + gradient
  let WK := W * K
  let B := 1 + WK
  let B_lu := lib.lu B
  let BinvWKb := lib.solve B_lu (WK *ᵥ b)
  let a := b - BinvWKb
  K *ᵥ a

/-- The quantity that line 84 compares with `1e-3` in an iteration entered at the point
`f`: the second component of `body`. -/
def tested_norm (lib : Lib R n LU) (K_chol : Cholesky R n)
    (loglike_grad_neghess : Oracle R n) (f : Fin n → R) : R :=
  (body lib K_chol loglike_grad_neghess 0 ⟨f, DynamicMatrix.empty, lib.LU0, []⟩).2

end Laplace

/-- An exact LU routine over `ℚ` for evaluation: the factorisation object stores the matrix
and `solve` multiplies by the exact inverse `det⁻¹ • adjugate`; `norm` is supplied. -/
def exactLib {n : ℕ} (norm : (Fin n → ℚ) → ℚ) : Lib ℚ n (Matrix (Fin n) (Fin n) ℚ) where
  LU0 := 0
  lu := fun B => B
  solve := fun B v => ((B.det)⁻¹ • B.adjugate) *ᵥ v
  norm := norm

/-- The instance of `exactLib` in dimension one, where the Euclidean norm is the absolute
value. -/
def exactLib1 : Lib ℚ 1 (Matrix (Fin 1) (Fin 1) ℚ) :=
  exactLib (fun v => |v 0|)

/-- The `1 × 1` prior `K = (1)`, whose Cholesky factor is `(1)`. -/
def unit_prior : Cholesky ℚ 1 := ⟨1, 1, 1⟩

/-- Gradient and negative Hessian of the log-likelihood `-(f - 1)^4 / 4`. -/
def quartic_oracle : Oracle ℚ 1 :=
  fun f => (fun _ => -(f 0 - 1) ^ 3, fun _ _ => 3 * (f 0 - 1) ^ 2)

/-- Gradient and negative Hessian of the quadratic log-likelihood `2 f - f^2 / 2`. -/
def quadratic_oracle : Oracle ℚ 1 :=
  fun f => (fun _ => 2 - f 0, fun _ _ => 1)

/-- Gradient and negative Hessian of the quadratic log-likelihood `f / 2 - 500 f^2`. -/
def stiff_oracle : Oracle ℚ 1 :=
  fun f => (fun _ => 1 / 2 - 1000 * f 0, fun _ _ => 1000)

/-- A `2 × 2` prior `K = [[2, 1], [1, 2]]` (the factor `L` is not used by the loop). -/
def prior2 : Cholesky ℚ 2 := ⟨!![2, 1; 1, 2], 1, !![2, 1; 1, 2]⟩

/-- An oracle in dimension two with a dense, non-diagonal negative Hessian. -/
def oracle2 : Oracle ℚ 2 :=
  fun f => (fun i => 1 - f i, !![1, 1; 1, 3])

/-- The library instance used in dimension two; the max-norm stands in for `blaze::norm`
where the norm plays no role. -/
def exactLib2 : Lib ℚ 2 (Matrix (Fin 2) (Fin 2) ℚ) :=
  exactLib (fun v => max |v 0| |v 1|)
end usvg

namespace usdg

/-- The node table `x` of `gauss_hermite` (quadrature.hpp, lines 18-35), as the exact
decimal values written in the source. -/
def gauss_hermite.x : List ℚ := [
  -7.125813909830727, -6.40949814926966,
  -5.8122259495159145, -5.27555098651588,
  -4.777164503502596, -4.305547953351199,
  -3.8537554854714444, -3.4171674928185705,
  -2.992490825002374, -2.577249537732317,
  -2.1694991836061117, -1.7676541094632017,
  -1.3703764109528718, -0.9765004635896828,
  -0.5849787654359324, -0.19484074156939934,
  0.19484074156939934, 0.5849787654359324,
  0.9765004635896828, 1.3703764109528718,
  1.7676541094632017, 2.1694991836061117,
  2.577249537732317, 2.992490825002374,
  3.4171674928185705, 3.8537554854714444,
  4.305547953351199, 4.777164503502596,
  5.27555098651588, 5.8122259495159145,
  6.40949814926966, 7.125813909830727]

/-- The weight table `w` of `gauss_hermite` (quadrature.hpp, lines 36-53). -/
def gauss_hermite.w : List ℚ := [
  7.310676396298276e-23, 9.231736536518246e-19,
  1.1973440170928282e-15, 4.2150102113264933e-13,
  5.933291463396681e-11, 4.098832164770859e-9,
  1.5741677925455921e-7, 3.6505851295623934e-6,
  5.416584061819992e-5, 0.0005362683655279712,
  0.0036548903266544488, 0.01755342883157343,
  0.06045813095591266, 0.15126973407664218,
  0.2774581423025294, 0.3752383525928031,
  0.3752383525928031, 0.2774581423025294,
  0.15126973407664218, 0.06045813095591266,
  0.01755342883157343, 0.0036548903266544488,
  0.0005362683655279712, 5.416584061819992e-5,
  3.6505851295623934e-6, 1.5741677925455921e-7,
  4.098832164770859e-9, 5.933291463396681e-11,
  4.2150102113264933e-13, 1.1973440170928282e-15,
  9.231736536518246e-19, 7.310676396298276e-23]

/-- The value of `blaze::map(v, f)`: `f` applied to every element. -/
def map {R : Type} (v : List R) (f : R → R) : List R :=
  v.map f

/-- The value of `blaze::dot(a, b)`: the sum of the elementwise products; Blaze throws
`std::invalid_argument` when the sizes differ (`none`). -/
def dot {R : Type} [Add R] [Mul R] [Zero R] (a b : List R) : Option R :=
  if a.length = b.length then some (List.zipWith (fun s t => s * t) a b).sum else none

/-- The function `usdg::gauss_hermite` over a field `R` of characteristic zero into which the
decimal tables are read. -/
def gauss_hermite {R : Type} [Field R] (f : R → R) : Option R :=
  let x : List R := gauss_hermite.x.map (fun q : ℚ => (q : R))
  let w : List R := gauss_hermite.w.map (fun q : ℚ => (q : R))
  dot (map x f) w

/-! ## `gauss_hermite` in double arithmetic

The C++ function computes on `double`.  The definitions of this section follow it operation
by operation: every literal, product, sum and quotient is rounded to IEEE 754 binary64
(round to nearest, ties to even, gradual underflow).  A finite double is the rational
number it stands for; an operation whose rounded result exceeds the largest finite double
gives `none`, which stands for every run in which an infinity or a NaN arises.  The order
in which `blaze::dot` adds the 32 products is fixed by Blaze, whose source is not among the
files above, so the order is a parameter (`SumTree`); `sequential_order` and
`unrolled_order` are the two orders of a scalar loop.  Contraction of a product and a sum
into one fused operation is not modelled. -/

/-- Rounding of an exact value to the nearest integer, ties to the even one. -/
def round_half_even (m : ℚ) : ℤ :=
  if m - ⌊m⌋ < 1 / 2 then ⌊m⌋
  else if 1 / 2 < m - ⌊m⌋ then ⌊m⌋ + 1
  else if ⌊m⌋ % 2 = 0 then ⌊m⌋ else ⌊m⌋ + 1

/-- The number of binary digits of `n`, counted off 64, 16, 4 or 1 at a time, with
`fuel ≥ n` steps allowed. -/
def bit_length : ℕ → ℕ → ℕ
  | 0, _ => 0
  | fuel + 1, n =>
    if n = 0 then 0
    else if 2 ^ 64 ≤ n then bit_length fuel (n / 2 ^ 64) + 64
    else if 2 ^ 16 ≤ n then bit_length fuel (n / 2 ^ 16) + 16
    else if 2 ^ 4 ≤ n then bit_length fuel (n / 2 ^ 4) + 4
    else bit_length fuel (n / 2) + 1

/-- The power `2^e` for an integer `e`, from a power of two in `ℕ`. -/
def two_pow (e : ℤ) : ℚ :=
  if 0 ≤ e then ((2 ^ e.toNat : ℕ) : ℚ) else 1 / ((2 ^ (-e).toNat : ℕ) : ℚ)

/-- The exponent `e` of the binade `[2^e, 2^(e+1))` that holds `|q|`, for `q ≠ 0`: the
difference of the bit lengths of numerator and denominator, lowered by one when `2^e`
would exceed `|q|`. -/
def binade (q : ℚ) : ℤ :=
  if two_pow ((bit_length q.num.natAbs q.num.natAbs : ℤ) - (bit_length q.den q.den : ℤ))
      ≤ |q|
  then (bit_length q.num.natAbs q.num.natAbs : ℤ) - (bit_length q.den q.den : ℤ)
  else (bit_length q.num.natAbs q.num.natAbs : ℤ) - (bit_length q.den q.den : ℤ) - 1

/-- The exponent that fixes the spacing of the doubles around `q`: the binade of `q`, and
`-1022` below the smallest normal number (subnormal range). -/
def exponent (q : ℚ) : ℤ :=
  max (binade q) (-1022)

/-- The nearest point to `q`, ties to even, of the binary64 grid continued upwards without
bound: multiples of `2^(e-52)` in the binade `e`, multiples of `2^-1074` below `2^-1022`. -/
def round_nearest (q : ℚ) : ℚ :=
  if q = 0 then 0
  else if 0 < q then
    round_half_even (q / two_pow (exponent q - 52)) * two_pow (exponent q - 52)
  else -(round_half_even (-q / two_pow (exponent q - 52)) * two_pow (exponent q - 52))

/-- The value of a C++ `double` operation whose exact result is `q`: the nearest double,
or `none` when rounding passes the largest finite double (the operation overflows). -/
def round_double (q : ℚ) : Option ℚ :=
  if |round_nearest q| < ((2 ^ 1024 : ℕ) : ℚ) then some (round_nearest q) else none

/-- An order in which the terms of a sum are added: `leaf i` is the `i`-th term, `add l r`
adds the two partial sums. -/
inductive SumTree where
  | leaf : ℕ → SumTree
  | add : SumTree → SumTree → SumTree

/-- The indices of the terms a summation order adds, left to right. -/
def SumTree.leaves : SumTree → List ℕ
  | SumTree.leaf i => [i]
  | SumTree.add l r => l.leaves ++ r.leaves

/-- The sum of the terms `t` in the given order, every addition rounded by `fl`. -/
def SumTree.eval (fl : ℚ → Option ℚ) (t : ℕ → Option ℚ) : SumTree → Option ℚ
  | SumTree.leaf i => t i
  | SumTree.add l r =>
    (l.eval fl t).bind fun a => (r.eval fl t).bind fun b => fl (a + b)

/-- The left-to-right order `((t_0 + t_1) + t_2) + ... + t_n`. -/
def sequential_order : ℕ → SumTree
  | 0 => SumTree.leaf 0
  | n + 1 => SumTree.add (sequential_order n) (SumTree.leaf (n + 1))

/-- The order of a scalar inner-product loop unrolled four times on 32 terms:
`sp = t_0`, then `sp += ((t_i + t_{i+1}) + t_{i+2}) + t_{i+3}` for `i = 1, 5, ..., 25`,
then `sp += t_29 + t_30`, then `sp += t_31`. -/
def unrolled_order : SumTree :=
  SumTree.add
    (SumTree.add
      ([1, 5, 9, 13, 17, 21, 25].foldl
        (fun sp i => SumTree.add sp
          (SumTree.add (SumTree.add (SumTree.add (SumTree.leaf i) (SumTree.leaf (i + 1)))
            (SumTree.leaf (i + 2))) (SumTree.leaf (i + 3))))
        (SumTree.leaf 0))
      (SumTree.add (SumTree.leaf 29) (SumTree.leaf 30)))
    (SumTree.leaf 31)

/-- The vector `x` of `gauss_hermite` as stored: every decimal literal of lines 18-35 is
converted to the nearest double. -/
def gauss_hermite.x_double : List ℚ :=
  gauss_hermite.x.map round_nearest

/-- The vector `w` of `gauss_hermite` as stored (lines 36-53). -/
def gauss_hermite.w_double : List ℚ :=
  gauss_hermite.w.map round_nearest

/-- The 32 products `f(x_i) * w_i` that `blaze::dot(blaze::map(x, f), w)` adds (line 54),
each one rounded; `f` is a function on doubles whose value may fail to be finite. -/
def gauss_hermite_terms (f : ℚ → Option ℚ) : List (Option ℚ) :=
  List.zipWith (fun a b => a.bind fun y => round_double (y * b))
    (gauss_hermite.x_double.map f) gauss_hermite.w_double

/-- The function `usdg::gauss_hermite` on doubles, the 32 products added in the given
order. -/
def gauss_hermite_double (order : SumTree) (f : ℚ → Option ℚ) : Option ℚ :=
  order.eval round_double (fun i => (gauss_hermite_terms f).getD i none)

/-- The double `sqrt(2)`, the nearest double to `√2`. -/
def sqrt2_double : ℚ := 6369051672525773 / 4503599627370496

/-- The double `std::numbers::pi`, the nearest double to `π`. -/
def pi_double : ℚ := 884279719003555 / 281474976710656

/-- The double `sqrt(std::numbers::pi)`, the nearest double to the square root of
`pi_double`. -/
def sqrt_pi_double : ℚ := 3991211251234741 / 2251799813685248

/-- The three-term recurrence of the physicists' Hermite polynomials,
`H_0 = 1`, `H_1 = 2t`, `H_{k+2} = 2t·H_{k+1} − 2(k+1)·H_k`, run `m` more steps from the
pair `(a, b) = (H_k(t), H_{k+1}(t))`; the result is `H_{k+m}(t)`. -/
def hermite_loop {R : Type} [CommRing R] (t : R) : ℕ → ℕ → R → R → R
  | 0, _, a, _ => a
  | m + 1, k, a, b => hermite_loop t m (k + 1) b (2 * t * b - 2 * ((k + 1 : ℕ) : R) * a)

/-- The physicists' Hermite polynomial `H_n` evaluated at `t`. -/
def hermite_H {R : Type} [CommRing R] (n : ℕ) (t : R) : R :=
  hermite_loop t n 0 1 (2 * t)

/-- The same recurrence cleared of denominators: for `t = p / q` it computes
`q^(k+m)·H_{k+m}(p / q)` from `(q^k·H_k, q^(k+1)·H_{k+1})` in integer arithmetic. -/
def hermite_scaled_loop (p q : ℤ) : ℕ → ℕ → ℤ → ℤ → ℤ
  | 0, _, a, _ => a
  | m + 1, k, a, b =>
    hermite_scaled_loop p q m (k + 1) b (2 * p * b - 2 * ((k + 1 : ℕ) : ℤ) * (q * q) * a)

/-- The integer `q^n·H_n(p / q)`. -/
def hermite_scaled (p q : ℤ) (n : ℕ) : ℤ :=
  hermite_scaled_loop p q n 0 1 (2 * p)

/-- The node table in units of `1e-17`. -/
def gauss_hermite.x_scaled : List ℤ := [
  -712581390983072700, -640949814926966000,
  -581222594951591450, -527555098651588000,
  -477716450350259600, -430554795335119900,
  -385375548547144440, -341716749281857050,
  -299249082500237400, -257724953773231700,
  -216949918360611170, -176765410946320170,
  -137037641095287180, -97650046358968280,
  -58497876543593240, -19484074156939934,
  19484074156939934, 58497876543593240,
  97650046358968280, 137037641095287180,
  176765410946320170, 216949918360611170,
  257724953773231700, 299249082500237400,
  341716749281857050, 385375548547144440,
  430554795335119900, 477716450350259600,
  527555098651588000, 581222594951591450,
  640949814926966000, 712581390983072700]

end usdg

namespace usvg

/-- Modelled from the spec: `misc/mvnormal.hpp` is not among the sources (only its test
`test/mvnormal.cpp` is).  A multivariate normal in the direct-factorisation mode of the
spec (section 3): a mean and the lower Cholesky factor `L` of its covariance, as built by
`MvNormal<DenseChol>{mean, cov_chol}`. -/
structure MvNormalDense (n : ℕ) where
  mean : Fin n → ℝ
  L : Matrix (Fin n) (Fin n) ℝ

/-- Modelled from the spec: the "Laplace" mode of the multivariate normal (section 3),
holding the mean and two triangular factors, the prior's Cholesky factor `L_prior` and the
factor `B_factor` of `I + LᵗWL`, as built by
`MvNormal<LaplaceNormal>{mean, K_chol.L, IpUBL_chol.L}`. -/
structure MvNormalLaplace (n : ℕ) where
  mean : Fin n → ℝ
  L_prior : Matrix (Fin n) (Fin n) ℝ
  B_factor : Matrix (Fin n) (Fin n) ℝ

/-- Modelled from the spec: `unwhiten(z)` for a direct factorisation, `mean + L·z`
(section 4.3). -/
def MvNormalDense.unwhiten {n : ℕ} (d : MvNormalDense n) (z : Fin n → ℝ) : Fin n → ℝ :=
  d.mean + d.L *ᵥ z

/-- Modelled from the spec: `whiten(x)`, `L⁻¹(x - mean)` (section 4.3). -/
noncomputable def MvNormalDense.whiten {n : ℕ} (d : MvNormalDense n) (x : Fin n → ℝ) :
    Fin n → ℝ :=
  d.L⁻¹ *ᵥ (x - d.mean)

/-- Modelled from the spec: the log-density
`-½·‖L⁻¹(x-mean)‖² - Σlog(diag(L)) - (n/2)log(2π)` (section 4.3). -/
noncomputable def MvNormalDense.logpdf {n : ℕ} (d : MvNormalDense n) (x : Fin n → ℝ) : ℝ :=
  -(1 / 2) * (d.whiten x ⬝ᵥ d.whiten x) - ∑ i, Real.log (d.L i i)
    - (n : ℝ) / 2 * Real.log (2 * Real.pi)

/-- Modelled from the spec: `unwhiten(z)` for the Laplace pair,
`mean + L_prior·(B_factor⁻ᵗ·z)` (section 4.3). -/
noncomputable def MvNormalLaplace.unwhiten {n : ℕ} (d : MvNormalLaplace n)
    (z : Fin n → ℝ) : Fin n → ℝ :=
  d.mean + d.L_prior *ᵥ ((d.B_factor⁻¹)ᵀ *ᵥ z)

/-- Modelled from the spec: the whitening transform of the Laplace pair, the inverse of its
unwhitening map (glossary, "whitening/unwhitening"): `B_factorᵗ·(L_prior⁻¹·(x - mean))`. -/
noncomputable def MvNormalLaplace.whiten {n : ℕ} (d : MvNormalLaplace n)
    (x : Fin n → ℝ) : Fin n → ℝ :=
  d.B_factorᵀ *ᵥ (d.L_prior⁻¹ *ᵥ (x - d.mean))

/-- Modelled from the spec: the covariance of the Laplace pair, that of the image of a
standard normal under the unwhitening map `z ↦ mean + L_prior·(B_factor⁻ᵗ·z)`, namely
`(L_prior·B_factor⁻ᵗ)·(L_prior·B_factor⁻ᵗ)ᵗ`. -/
noncomputable def MvNormalLaplace.covariance {n : ℕ} (d : MvNormalLaplace n) :
    Matrix (Fin n) (Fin n) ℝ :=
  (d.L_prior * (d.B_factor⁻¹)ᵀ) * (d.L_prior * (d.B_factor⁻¹)ᵀ)ᵀ

/-- Modelled from the spec: the log-density of the Laplace pair, the log form of section 4.3
for the factor `L_prior·B_factor⁻ᵗ` of the unwhitening map: the whitened point is
`B_factorᵗ·L_prior⁻¹·(x - mean)` and the log-determinant term of the factor is
`Σlog(diag(L_prior)) - Σlog(diag(B_factor))`. -/
noncomputable def MvNormalLaplace.logpdf {n : ℕ} (d : MvNormalLaplace n)
    (x : Fin n → ℝ) : ℝ :=
  -(1 / 2) * (d.whiten x ⬝ᵥ d.whiten x)
    - (∑ i, Real.log (d.L_prior i i) - ∑ i, Real.log (d.B_factor i i))
    - (n : ℝ) / 2 * Real.log (2 * Real.pi)

/-- A prior factor used for evaluation: `L = [[2, 0], [2, 1]]`, so `K = [[4, 4], [4, 5]]`. -/
def example_L : Matrix (Fin 2) (Fin 2) ℝ := !![2, 0; 2, 1]

/-- The prior covariance `K = L·Lᵗ` of `example_L`. -/
def example_K : Matrix (Fin 2) (Fin 2) ℝ := !![4, 4; 4, 5]

/-- A symmetric weight matrix used for evaluation. -/
noncomputable def example_W : Matrix (Fin 2) (Fin 2) ℝ := !![3 / 4, 0; 0, 0]

/-- The lower Cholesky factor of `I + Lᵗ·W·L = [[4, 0], [0, 1]]`. -/
def example_C : Matrix (Fin 2) (Fin 2) ℝ := !![2, 0; 0, 1]

/-- The lower Cholesky factor of `(K⁻¹ + W)⁻¹ = [[1, 1], [1, 2]]`. -/
def example_L' : Matrix (Fin 2) (Fin 2) ℝ := !![1, 0; 1, 1]

/-- The calls `laplace_approximation` has made so far to the callables it is given:
`oracle` lists the arguments of the calls of `loglike_grad_neghess` (line 67) and `lu` the
arguments of the calls of `usvg::lu` (line 72), both in call order. -/
structure Calls (R : Type) (n : ℕ) where
  oracle : List (Fin n → R)
  lu : List (Matrix (Fin n) (Fin n) R)

section LaplaceTraced

variable {R : Type} [LinearOrderedField R] {n : ℕ} {LU : Type}

/-- The loop body of `body`, line by line, with the call record threaded through: line 67
appends the current `f` to `oracle`, line 72 appends `B` to `lu`. -/
def body_traced (lib : Lib R n LU) (K_chol : Cholesky R n) (loglike_grad_neghess : Oracle R n)
    (i : ℕ) (s : LoopState R n LU) (c : Calls R n) : (LoopState R n LU × R) × Calls R n :=
  let r := loglike_grad_neghess s.f
  let c1 : Calls R n := ⟨c.oracle ++ [s.f], c.lu⟩
  let gradT := r.1
  let W := r.2
  let b : (Fin n → R) → (Fin n → R) := fun f => W *ᵥ f + gradT
  let WK : Matrix (Fin n) (Fin n) R := W * K_chol.A
  let B : Matrix (Fin n) (Fin n) R := 1 + WK
  let Blu := lib.lu B
  let c2 : Calls R n := ⟨c1.oracle, c1.lu ++ [B]⟩
  let WKb : (Fin n → R) → (Fin n → R) := fun f => WK *ᵥ b f
  let BinvWKb := lib.solve Blu (WKb s.f)
  let a : (Fin n → R) → (Fin n → R) := fun f => b f - BinvWKb
  let f_next : (Fin n → R) → (Fin n → R) := fun f => K_chol.A *ᵥ a f
  let delta_f : (Fin n → R) → (Fin n → R) := fun f => f - f_next f
  let f' := f_next s.f
  let nrm := lib.norm (delta_f f')
  ((⟨f', DynamicMatrix.ofMatrix WK, Blu, s.out ++ [(i, nrm)]⟩, nrm), c2)

/-- The loop of `loop` with the call record threaded through. -/
def loop_traced (lib : Lib R n LU) (K_chol : Cholesky R n)
    (loglike_grad_neghess : Oracle R n) :
    (remaining : ℕ) → (i : ℕ) → LoopState R n LU → Calls R n →
      (LoopState R n LU × Exit) × Calls R n
  | 0, _, s, c => ((s, Exit.MaxIterExhausted), c)
  | k + 1, i, s, c =>
    let r := body_traced lib K_chol loglike_grad_neghess i s c
    if r.1.2 < 1e-3 then ((r.1.1, Exit.Converged), r.2)
    else loop_traced lib K_chol loglike_grad_neghess k (i + 1) r.1.1 r.2

/-- The run of `laplace_run` together with the record of the calls it made; no call has
been made when the inversion of lines 56-57 throws. -/
def laplace_traced (lib : Lib R n LU) (K_chol : Cholesky R n) (f0 : Fin n → R)
    (loglike_grad_neghess : Oracle R n) (max_iter : ℕ := 20) :
    Except Error (LoopState R n LU × Exit) × Calls R n :=
  match invert K_chol._A with
  | none => (Except.error Error.singular_inversion, ⟨[], []⟩)
  | some _ =>
    let r := loop_traced lib K_chol loglike_grad_neghess max_iter 0
      ⟨f0, DynamicMatrix.empty, lib.LU0, []⟩ ⟨[], []⟩
    (Except.ok r.1, r.2)

end LaplaceTraced

end usvg

/-! ## Theorems -/

namespace usvg

/-! ### The loop of `laplace_approximation` -/

section LaplaceLemmas

variable {R : Type} [LinearOrderedField R] {n : ℕ} {LU : Type}
variable (lib : Lib R n LU) (K_chol : Cholesky R n) (o : Oracle R n)

theorem body_f (i : ℕ) (s : LoopState R n LU) :
    (body lib K_chol o i s).1.f = spec_step lib K_chol.A o s.f := rfl

theorem body_WK (i : ℕ) (s : LoopState R n LU) :
    (body lib K_chol o i s).1.WK = DynamicMatrix.ofMatrix ((o s.f).2 * K_chol.A) := rfl

theorem body_Blu (i : ℕ) (s : LoopState R n LU) :
    (body lib K_chol o i s).1.Blu = lib.lu (1 + (o s.f).2 * K_chol.A) := rfl

theorem body_norm (i : ℕ) (s : LoopState R n LU) :
    (body lib K_chol o i s).2 = tested_norm lib K_chol o s.f := rfl

theorem body_out (i : ℕ) (s : LoopState R n LU) :
    (body lib K_chol o i s).1.out = s.out ++ [(i, tested_norm lib K_chol o s.f)] := rfl

theorem loop_zero (i : ℕ) (s : LoopState R n LU) :
    loop lib K_chol o 0 i s = (s, Exit.MaxIterExhausted) := rfl

theorem loop_succ_of_lt (k i : ℕ) (s : LoopState R n LU)
    (h : tested_norm lib K_chol o s.f < 1e-3) :
    loop lib K_chol o (k + 1) i s = ((body lib K_chol o i s).1, Exit.Converged) := by
  have h' : (body lib K_chol o i s).2 < 1e-3 := h
  simp only [loop, h', if_true]

theorem loop_succ_of_not_lt (k i : ℕ) (s : LoopState R n LU)
    (h : ¬ tested_norm lib K_chol o s.f < 1e-3) :
    loop lib K_chol o (k + 1) i s
      = loop lib K_chol o k (i + 1) (body lib K_chol o i s).1 := by
  have h' : ¬ (body lib K_chol o i s).2 < 1e-3 := h
  simp only [loop, h', if_false]

/-- The loop, entered at index `i` in state `s` with `k` iterations allowed, executes some
number `m ≤ k` of iterations; everything it leaves behind is described by `m`. -/
theorem loop_spec (k i : ℕ) (s : LoopState R n LU) :
    ∃ m, m ≤ k ∧ (1 ≤ k → 1 ≤ m) ∧
      (loop lib K_chol o k i s).1.f = (spec_step lib K_chol.A o)^[m] s.f ∧
      (loop lib K_chol o k i s).1.out = s.out ++ (List.range m).map (fun j =>
          (i + j, tested_norm lib K_chol o ((spec_step lib K_chol.A o)^[j] s.f))) ∧
      (∀ j, j + 1 < m →
          ¬ tested_norm lib K_chol o ((spec_step lib K_chol.A o)^[j] s.f) < 1e-3) ∧
      ((loop lib K_chol o k i s).2 = Exit.Converged ↔ 1 ≤ m ∧
          tested_norm lib K_chol o ((spec_step lib K_chol.A o)^[m - 1] s.f) < 1e-3) ∧
      ((loop lib K_chol o k i s).2 = Exit.MaxIterExhausted ↔ m = k ∧
          ∀ j, j < k →
            ¬ tested_norm lib K_chol o ((spec_step lib K_chol.A o)^[j] s.f) < 1e-3) ∧
      (m = 0 → (loop lib K_chol o k i s).1 = s) ∧
      (1 ≤ m →
        (loop lib K_chol o k i s).1.WK = DynamicMatrix.ofMatrix
            ((o ((spec_step lib K_chol.A o)^[m - 1] s.f)).2 * K_chol.A) ∧
        (loop lib K_chol o k i s).1.Blu = lib.lu
            (1 + (o ((spec_step lib K_chol.A o)^[m - 1] s.f)).2 * K_chol.A)) := by
  induction k generalizing i s with
  | zero =>
    refine ⟨0, le_refl _, by simp, rfl, by simp [loop_zero], by simp, by simp [loop_zero],
      by simp [loop_zero], fun _ => rfl, by simp⟩
  | succ k ih =>
    by_cases h : tested_norm lib K_chol o s.f < 1e-3
    · rw [loop_succ_of_lt lib K_chol o k i s h]
      refine ⟨1, by omega, by simp, rfl, by simp [body_out, List.range_succ], by simp, by simpa using h, ?_, by simp, ?_⟩
      · simp only [reduceCtorEq, false_iff, not_and]
        intro _ hall
        exact (hall 0 (by omega) h).elim
      · intro _
        exact ⟨rfl, rfl⟩
    · rw [loop_succ_of_not_lt lib K_chol o k i s h]
      obtain ⟨m, hm, _, hf, hout, hbefore, hconv, hexh, _, hlast⟩ :=
        ih (i + 1) (body lib K_chol o i s).1
      rw [body_f] at hf hout hbefore hconv hexh hlast
      refine ⟨m + 1, by omega, by omega, ?_, ?_, ?_, ?_, ?_, by omega, ?_⟩
      · rw [hf, Function.iterate_succ_apply]
      · rw [hout, body_out, List.range_succ_eq_map, List.map_cons, List.map_map,
          List.append_assoc]
        simp only [List.singleton_append, Function.iterate_zero, id_eq, add_zero,
          List.cons.injEq, true_and, List.append_cancel_left_eq]
        apply List.map_congr_left
        intro j _
        simp only [Function.comp_apply, Function.iterate_succ_apply, Prod.mk.injEq, and_true]
        omega
      · intro j hj
        cases j with
        | zero => simpa using h
        | succ j =>
          rw [Function.iterate_succ_apply]
          exact hbefore j (by omega)
      · rw [hconv]
        constructor
        · rintro ⟨h1, h2⟩
          refine ⟨by omega, ?_⟩
          obtain ⟨m', rfl⟩ : ∃ m', m = m' + 1 := ⟨m - 1, by omega⟩
          simpa [Function.iterate_succ_apply] using h2
        · rintro ⟨_, h2⟩
          cases m with
          | zero => exact (h (by simpa using h2)).elim
          | succ m' =>
            refine ⟨by omega, ?_⟩
            simpa [Function.iterate_succ_apply] using h2
      · rw [hexh]
        constructor
        · rintro ⟨h1, h2⟩
          refine ⟨by omega, ?_⟩
          intro j hj
          cases j with
          | zero => simpa using h
          | succ j =>
            rw [Function.iterate_succ_apply]
            exact h2 j (by omega)
        · rintro ⟨h1, h2⟩
          refine ⟨by omega, ?_⟩
          intro j hj
          have := h2 (j + 1) (by omega)
          rwa [Function.iterate_succ_apply] at this
      · intro _
        cases m with
        | zero =>
          have hs := ‹0 = 0 → _› rfl
          rw [hs]
          exact ⟨rfl, rfl⟩
        | succ m' =>
          have := hlast (by omega)
          simpa [Function.iterate_succ_apply] using this

end LaplaceLemmas

section More
variable {R : Type} [LinearOrderedField R] {n : ℕ} {LU : Type}
variable (lib : Lib R n LU) (K_chol : Cholesky R n) (o : Oracle R n)

theorem invert_eq_some_of_det_ne_zero (A : Matrix (Fin n) (Fin n) R) (h : A.det ≠ 0) :
    invert A = some ((A.det)⁻¹ • A.adjugate) := by
  simp [invert, h]

theorem laplace_run_eq_ok (f0 : Fin n → R) (max_iter : ℕ) (h : K_chol._A.det ≠ 0) :
    laplace_run lib K_chol f0 o max_iter
      = Except.ok (loop lib K_chol o max_iter 0 ⟨f0, DynamicMatrix.empty, lib.LU0, []⟩) := by
  simp [laplace_run, invert, h]

theorem laplace_run_ok_iff (f0 : Fin n → R) (max_iter : ℕ) (r : LoopState R n LU × Exit) :
    laplace_run lib K_chol f0 o max_iter = Except.ok r ↔
      K_chol._A.det ≠ 0 ∧
        loop lib K_chol o max_iter 0 ⟨f0, DynamicMatrix.empty, lib.LU0, []⟩ = r := by
  by_cases h : K_chol._A.det = 0
  · simp [laplace_run, invert, h]
  · simp [laplace_run, invert, h]

theorem laplace_approximation_ok_iff (f0 : Fin n → R) (max_iter : ℕ)
    (t : (Fin n → R) × DynamicMatrix R × LU) :
    laplace_approximation lib K_chol f0 o max_iter = Except.ok t ↔
      K_chol._A.det ≠ 0 ∧
        (let r := loop lib K_chol o max_iter 0 ⟨f0, DynamicMatrix.empty, lib.LU0, []⟩
         (r.1.f, r.1.WK, r.1.Blu) = t) := by
  by_cases h : K_chol._A.det = 0
  · simp [laplace_approximation, laplace_run, invert, h]
  · simp [laplace_approximation, laplace_run, invert, h]

/-- Woodbury: `K (I - (I + W K)⁻¹ W K) = (K⁻¹ + W)⁻¹`. -/
theorem woodbury_matrix (K W : Matrix (Fin n) (Fin n) R) (hK : IsUnit K.det)
    (hB : IsUnit (1 + W * K).det) :
    IsUnit (K⁻¹ + W).det ∧ K * (1 - (1 + W * K)⁻¹ * (W * K)) = (K⁻¹ + W)⁻¹ := by
  have h1 : (1 : Matrix (Fin n) (Fin n) R) - (1 + W * K)⁻¹ * (W * K) = (1 + W * K)⁻¹ := by
    have h := Matrix.nonsing_inv_mul (1 + W * K) hB
    rw [Matrix.mul_add, Matrix.mul_one] at h
    exact sub_eq_of_eq_add h.symm
  have h2 : (K⁻¹ + W) * (K * (1 + W * K)⁻¹) = 1 := by
    rw [← Matrix.mul_assoc, Matrix.add_mul, Matrix.nonsing_inv_mul K hK,
      Matrix.mul_nonsing_inv _ hB]
  refine ⟨Matrix.isUnit_det_of_right_inverse h2, ?_⟩
  rw [h1]
  exact (Matrix.inv_eq_right_inv h2).symm

theorem spec_step_eq_newton (K : Matrix (Fin n) (Fin n) R) (f : Fin n → R)
    (hK : IsUnit K.det) (hB : IsUnit (1 + (o f).2 * K).det)
    (hsolve : ∀ v, lib.solve (lib.lu (1 + (o f).2 * K)) v = (1 + (o f).2 * K)⁻¹ *ᵥ v) :
    IsUnit (K⁻¹ + (o f).2).det ∧
      spec_step lib K o f = (K⁻¹ + (o f).2)⁻¹ *ᵥ ((o f).2 *ᵥ f + (o f).1) := by
  obtain ⟨hu, hw⟩ := woodbury_matrix K (o f).2 hK hB
  refine ⟨hu, ?_⟩
  rw [← hw]
  simp only [spec_step, hsolve]
  rw [Matrix.mul_sub, Matrix.sub_mulVec, Matrix.mul_one, Matrix.mulVec_sub,
    Matrix.mulVec_mulVec, Matrix.mulVec_mulVec, Matrix.mul_assoc]

end More

theorem spec_step_one (K : Cholesky ℚ 1) (o : Oracle ℚ 1) (f : Fin 1 → ℚ) :
    spec_step exactLib1 K.A o f = fun _ =>
      K.A 0 0 * (((o f).2 0 0 * f 0 + (o f).1 0)
        - (1 + (o f).2 0 0 * K.A 0 0)⁻¹ * ((o f).2 0 0 * K.A 0 0 * ((o f).2 0 0 * f 0 + (o f).1 0))) := by
  funext i
  simp only [Fin.fin_one_eq_zero i]
  simp only [spec_step, exactLib1, exactLib, Matrix.mulVec, Matrix.dotProduct, Matrix.det_fin_one,
    Matrix.adjugate_fin_one, Matrix.mul_apply, Finset.univ_unique, Finset.sum_singleton,
    Fin.default_eq_zero, Matrix.smul_apply, Matrix.one_apply_eq, Matrix.add_apply,
    Pi.add_apply, Pi.sub_apply, smul_eq_mul, mul_one]

theorem tested_norm_one (K : Cholesky ℚ 1) (o : Oracle ℚ 1) (f : Fin 1 → ℚ) :
    tested_norm exactLib1 K o f =
      |spec_step exactLib1 K.A o f 0 - K.A 0 0 * (((o f).2 0 0 * spec_step exactLib1 K.A o f 0 + (o f).1 0)
        - (1 + (o f).2 0 0 * K.A 0 0)⁻¹ * ((o f).2 0 0 * K.A 0 0 * ((o f).2 0 0 * f 0 + (o f).1 0)))| := by
  simp only [tested_norm, body, spec_step, exactLib1, exactLib, Matrix.mulVec, Matrix.dotProduct,
    Matrix.det_fin_one, Matrix.adjugate_fin_one, Matrix.mul_apply, Finset.univ_unique,
    Finset.sum_singleton, Fin.default_eq_zero, Matrix.smul_apply, Matrix.one_apply_eq,
    Matrix.add_apply, Pi.add_apply, Pi.sub_apply, smul_eq_mul, mul_one]

theorem spec_step_quartic_one :
    spec_step exactLib1 unit_prior.A quartic_oracle (fun _ => 1) = fun _ => 0 := by
  rw [spec_step_one]; funext i; simp [unit_prior, quartic_oracle]

theorem tested_norm_quartic_one :
    tested_norm exactLib1 unit_prior quartic_oracle (fun _ => 1) = 0 := by
  rw [tested_norm_one, spec_step_one]; simp [unit_prior, quartic_oracle]

theorem spec_step_quadratic (f : Fin 1 → ℚ) :
    spec_step exactLib1 unit_prior.A quadratic_oracle f = fun _ => 1 := by
  rw [spec_step_one]; funext i; simp [unit_prior, quadratic_oracle]; norm_num

theorem tested_norm_quadratic (f : Fin 1 → ℚ) :
    tested_norm exactLib1 unit_prior quadratic_oracle f = |f 0 - 1| := by
  rw [tested_norm_one, spec_step_one]; simp [unit_prior, quadratic_oracle]; congr 1; ring

theorem spec_step_stiff (f : Fin 1 → ℚ) :
    spec_step exactLib1 unit_prior.A stiff_oracle f = fun _ => 1 / 2002 := by
  rw [spec_step_one]; funext i; simp [unit_prior, stiff_oracle]; norm_num

theorem tested_norm_stiff (f : Fin 1 → ℚ) :
    tested_norm exactLib1 unit_prior stiff_oracle f = |1000 * (f 0 - 1 / 2002)| := by
  rw [tested_norm_one, spec_step_one]; simp [unit_prior, stiff_oracle]; congr 1; ring

theorem unit_prior_det : unit_prior._A.det ≠ 0 := by
  simp [unit_prior]

section Claims
variable {R : Type} [LinearOrderedField R] {n : ℕ} {LU : Type}

/-- C1: every executed iteration replaces the current point `f`, at which the oracle
returned `(g, W)`, by `K·(b − solve(lu(I + W·K), (W·K)·b))` with `b = W·f + g`, with no
damping or step-size factor; hence the point the loop leaves in `f` is this map applied to
the starting point once per executed iteration (one printed line each). -/
theorem laplace_iteration_is_newton_step (lib : Lib R n LU) (K_chol : Cholesky R n)
    (o : Oracle R n) (k i : ℕ) (s : LoopState R n LU) :
    (body lib K_chol o i s).1.f =
        K_chol.A *ᵥ (((o s.f).2 *ᵥ s.f + (o s.f).1) -
          lib.solve (lib.lu (1 + (o s.f).2 * K_chol.A))
            (((o s.f).2 * K_chol.A) *ᵥ ((o s.f).2 *ᵥ s.f + (o s.f).1))) ∧
      (loop lib K_chol o k i s).1.f =
        (fun f => K_chol.A *ᵥ (((o f).2 *ᵥ f + (o f).1) -
          lib.solve (lib.lu (1 + (o f).2 * K_chol.A))
            (((o f).2 * K_chol.A) *ᵥ ((o f).2 *ᵥ f + (o f).1))))^[
          (loop lib K_chol o k i s).1.out.length - s.out.length] s.f := by
  refine ⟨rfl, ?_⟩
  obtain ⟨m, _, _, hf, hout, _⟩ := loop_spec lib K_chol o k i s
  have hlen : (loop lib K_chol o k i s).1.out.length - s.out.length = m := by
    rw [hout]; simp
  rw [hlen, hf]
  rfl

/-- C2: Woodbury equivalence of the Newton step.  For invertible `K`, with `I + W·K`
invertible and `solve(lu(B), v) = B⁻¹·v`, the matrix `K⁻¹ + W` is invertible and the point
stored by an iteration entered at `f` with oracle output `(g, W)` is
`(K⁻¹ + W)⁻¹·(W·f + g)`. -/
theorem laplace_step_woodbury (lib : Lib R n LU) (K_chol : Cholesky R n)
    (o : Oracle R n) (i : ℕ) (s : LoopState R n LU)
    (hK : IsUnit K_chol.A.det) (hB : IsUnit (1 + (o s.f).2 * K_chol.A).det)
    (hsolve : ∀ v, lib.solve (lib.lu (1 + (o s.f).2 * K_chol.A)) v
      = (1 + (o s.f).2 * K_chol.A)⁻¹ *ᵥ v) :
    IsUnit (K_chol.A⁻¹ + (o s.f).2).det ∧
      K_chol.A *ᵥ (((o s.f).2 *ᵥ s.f + (o s.f).1) -
          (1 + (o s.f).2 * K_chol.A)⁻¹ *ᵥ
            (((o s.f).2 * K_chol.A) *ᵥ ((o s.f).2 *ᵥ s.f + (o s.f).1)))
        = (K_chol.A⁻¹ + (o s.f).2)⁻¹ *ᵥ ((o s.f).2 *ᵥ s.f + (o s.f).1) ∧
      (body lib K_chol o i s).1.f
        = (K_chol.A⁻¹ + (o s.f).2)⁻¹ *ᵥ ((o s.f).2 *ᵥ s.f + (o s.f).1) := by
  obtain ⟨hu, hstep⟩ := spec_step_eq_newton lib o K_chol.A s.f hK hB hsolve
  refine ⟨hu, ?_, ?_⟩
  · rw [← hstep]
    simp only [spec_step, hsolve]
  · rw [body_f]
    exact hstep

/-- C4: both terminal states return the last computed point.  If iteration `k` (counted
from 0) is the first whose test succeeds, the loop is left by `break` and the returned
`f` is that iteration's `f_next`, the `(k+1)`-th iterate; if no iteration among the
first `max_iter` succeeds, the function still returns normally, with `f` the
`max_iter`-th iterate. -/
theorem laplace_returns_last_point (lib : Lib R n LU) (K_chol : Cholesky R n)
    (f0 : Fin n → R) (o : Oracle R n) (max_iter : ℕ) (h : K_chol._A.det ≠ 0) :
    (∀ k, k < max_iter →
        tested_norm lib K_chol o ((spec_step lib K_chol.A o)^[k] f0) < 1e-3 →
        (∀ j, j < k → ¬ tested_norm lib K_chol o ((spec_step lib K_chol.A o)^[j] f0) < 1e-3) →
        ∃ s, laplace_run lib K_chol f0 o max_iter = Except.ok (s, Exit.Converged) ∧
          s.f = (spec_step lib K_chol.A o)^[k + 1] f0 ∧
          laplace_approximation lib K_chol f0 o max_iter = Except.ok (s.f, s.WK, s.Blu)) ∧
      ((∀ j, j < max_iter →
          ¬ tested_norm lib K_chol o ((spec_step lib K_chol.A o)^[j] f0) < 1e-3) →
        ∃ s, laplace_run lib K_chol f0 o max_iter = Except.ok (s, Exit.MaxIterExhausted) ∧
          s.f = (spec_step lib K_chol.A o)^[max_iter] f0 ∧
          laplace_approximation lib K_chol f0 o max_iter = Except.ok (s.f, s.WK, s.Blu)) := by
  have hrun := laplace_run_eq_ok lib K_chol o f0 max_iter h
  have happ : laplace_approximation lib K_chol f0 o max_iter = Except.ok
      ((loop lib K_chol o max_iter 0 ⟨f0, DynamicMatrix.empty, lib.LU0, []⟩).1.f,
       (loop lib K_chol o max_iter 0 ⟨f0, DynamicMatrix.empty, lib.LU0, []⟩).1.WK,
       (loop lib K_chol o max_iter 0 ⟨f0, DynamicMatrix.empty, lib.LU0, []⟩).1.Blu) := by
    simp only [laplace_approximation, hrun]
  obtain ⟨m, hm, _, hf, _, hbefore, hconv, hexh, _, _⟩ :=
    loop_spec lib K_chol o max_iter 0 ⟨f0, DynamicMatrix.empty, lib.LU0, []⟩
  simp only at hf hbefore hconv hexh
  constructor
  · intro k hk hmeet hfirst
    have hnot : ¬ (loop lib K_chol o max_iter 0
        ⟨f0, DynamicMatrix.empty, lib.LU0, []⟩).2 = Exit.MaxIterExhausted := by
      rw [hexh]
      rintro ⟨_, hall⟩
      exact hall k hk hmeet
    have hc : (loop lib K_chol o max_iter 0
        ⟨f0, DynamicMatrix.empty, lib.LU0, []⟩).2 = Exit.Converged := by
      cases he : (loop lib K_chol o max_iter 0 ⟨f0, DynamicMatrix.empty, lib.LU0, []⟩).2 with
      | Converged => rfl
      | MaxIterExhausted => exact (hnot he).elim
    obtain ⟨h1, hlast⟩ := hconv.mp hc
    have hkm : k + 1 = m := by
      rcases Nat.lt_trichotomy (k + 1) m with hlt | heq | hgt
      · exact (hbefore k hlt hmeet).elim
      · exact heq
      · exact (hfirst (m - 1) (by omega) hlast).elim
    refine ⟨(loop lib K_chol o max_iter 0 ⟨f0, DynamicMatrix.empty, lib.LU0, []⟩).1, ?_, ?_,
      happ⟩
    · rw [hrun, ← hc]
    · rw [hf, hkm]
  · intro hall
    have he : (loop lib K_chol o max_iter 0
        ⟨f0, DynamicMatrix.empty, lib.LU0, []⟩).2 = Exit.MaxIterExhausted := by
      cases hc : (loop lib K_chol o max_iter 0 ⟨f0, DynamicMatrix.empty, lib.LU0, []⟩).2 with
      | MaxIterExhausted => rfl
      | Converged =>
        obtain ⟨h1, hlast⟩ := hconv.mp hc
        exact (hall (m - 1) (by omega) hlast).elim
    obtain ⟨hmk, _⟩ := hexh.mp he
    refine ⟨(loop lib K_chol o max_iter 0 ⟨f0, DynamicMatrix.empty, lib.LU0, []⟩).1, ?_, ?_,
      happ⟩
    · rw [hrun, ← he]
    · rw [hf, hmk]

end Claims

theorem exactLib_solve {n : ℕ} (norm : (Fin n → ℚ) → ℚ) (B : Matrix (Fin n) (Fin n) ℚ)
    (v : Fin n → ℚ) :
    (exactLib norm).solve ((exactLib norm).lu B) v = B⁻¹ *ᵥ v := by
  simp only [exactLib, Matrix.inv_def, Ring.inverse_eq_inv']

theorem laplace_step_woodbury_witness :
    IsUnit (prior2.A⁻¹ + (oracle2 (fun _ => 0)).2).det ∧
      (body exactLib2 prior2 oracle2 0
          ⟨fun _ => 0, DynamicMatrix.empty, exactLib2.LU0, []⟩).1.f
        = (prior2.A⁻¹ + (oracle2 (fun _ => 0)).2)⁻¹ *ᵥ
            ((oracle2 (fun _ => 0)).2 *ᵥ (fun _ => 0) + (oracle2 (fun _ => 0)).1) :=
  have h := laplace_step_woodbury exactLib2 prior2 oracle2 0
    ⟨fun _ => 0, DynamicMatrix.empty, exactLib2.LU0, []⟩
    (by simp [prior2, Matrix.det_fin_two]; norm_num)
    (by simp [prior2, oracle2, Matrix.det_fin_two]; norm_num)
    (fun v => exactLib_solve _ _ v)
  ⟨h.1, h.2.2⟩

theorem laplace_returns_last_point_witness :
    ∃ s, laplace_run exactLib1 unit_prior (fun _ => 0) quadratic_oracle 1
          = Except.ok (s, Exit.MaxIterExhausted) ∧
      s.f = (spec_step exactLib1 unit_prior.A quadratic_oracle)^[1] (fun _ => 0) ∧
      laplace_approximation exactLib1 unit_prior (fun _ => 0) quadratic_oracle 1
          = Except.ok (s.f, s.WK, s.Blu) :=
  (laplace_returns_last_point exactLib1 unit_prior (fun _ => 0) quadratic_oracle 1
    unit_prior_det).2 (by
      intro j hj
      obtain rfl : j = 0 := by omega
      rw [Function.iterate_zero, id_eq, tested_norm_quadratic]
      norm_num)

section RunLemmas
variable {R : Type} [LinearOrderedField R] {n : ℕ} {LU : Type}
variable (lib : Lib R n LU) (K_chol : Cholesky R n) (o : Oracle R n)

/-- A run whose first test succeeds: one iteration, left by `break`. -/
theorem laplace_run_first_stop (f0 : Fin n → R) (k : ℕ) (hdet : K_chol._A.det ≠ 0)
    (h : tested_norm lib K_chol o f0 < 1e-3) :
    laplace_run lib K_chol f0 o (k + 1) = Except.ok
      (⟨spec_step lib K_chol.A o f0, DynamicMatrix.ofMatrix ((o f0).2 * K_chol.A),
        lib.lu (1 + (o f0).2 * K_chol.A), [(0, tested_norm lib K_chol o f0)]⟩,
       Exit.Converged) := by
  rw [laplace_run_eq_ok lib K_chol o f0 (k + 1) hdet,
    loop_succ_of_lt lib K_chol o k 0 ⟨f0, DynamicMatrix.empty, lib.LU0, []⟩ h]
  rfl

/-- A run with `max_iter = 1` whose only test fails: one iteration, left by exhaustion. -/
theorem laplace_run_one_exhausted (f0 : Fin n → R) (hdet : K_chol._A.det ≠ 0)
    (h : ¬ tested_norm lib K_chol o f0 < 1e-3) :
    laplace_run lib K_chol f0 o 1 = Except.ok
      (⟨spec_step lib K_chol.A o f0, DynamicMatrix.ofMatrix ((o f0).2 * K_chol.A),
        lib.lu (1 + (o f0).2 * K_chol.A), [(0, tested_norm lib K_chol o f0)]⟩,
       Exit.MaxIterExhausted) := by
  rw [laplace_run_eq_ok lib K_chol o f0 1 hdet,
    loop_succ_of_not_lt lib K_chol o 0 0 ⟨f0, DynamicMatrix.empty, lib.LU0, []⟩ h]
  rfl

/-- A run whose first test fails and whose second test succeeds. -/
theorem laplace_run_second_stop (f0 : Fin n → R) (k : ℕ) (hdet : K_chol._A.det ≠ 0)
    (h0 : ¬ tested_norm lib K_chol o f0 < 1e-3)
    (h1 : tested_norm lib K_chol o (spec_step lib K_chol.A o f0) < 1e-3) :
    laplace_run lib K_chol f0 o (k + 2) = Except.ok
      (⟨spec_step lib K_chol.A o (spec_step lib K_chol.A o f0),
        DynamicMatrix.ofMatrix ((o (spec_step lib K_chol.A o f0)).2 * K_chol.A),
        lib.lu (1 + (o (spec_step lib K_chol.A o f0)).2 * K_chol.A),
        [(0, tested_norm lib K_chol o f0),
         (1, tested_norm lib K_chol o (spec_step lib K_chol.A o f0))]⟩,
       Exit.Converged) := by
  rw [laplace_run_eq_ok lib K_chol o f0 (k + 2) hdet,
    loop_succ_of_not_lt lib K_chol o (k + 1) 0 ⟨f0, DynamicMatrix.empty, lib.LU0, []⟩ h0,
    loop_succ_of_lt lib K_chol o k 1
      (body lib K_chol o 0 ⟨f0, DynamicMatrix.empty, lib.LU0, []⟩).1 h1]
  rfl

theorem laplace_approximation_of_run (f0 : Fin n → R) (max_iter : ℕ)
    (s : LoopState R n LU) (e : Exit)
    (h : laplace_run lib K_chol f0 o max_iter = Except.ok (s, e)) :
    laplace_approximation lib K_chol f0 o max_iter = Except.ok (s.f, s.WK, s.Blu) := by
  simp only [laplace_approximation, h]

end RunLemmas

/-- C3 (the code at the failing input): with prior `K = (1)`, log-likelihood
`-(f - 1)^4 / 4` and start `f0 = 1`, the first iteration moves the point from `1` to `0`,
so `‖f − f_next‖ = 1` is not below `1e-3`, yet the loop prints norm `0` and stops there
(Converged) with `f = 0`.  Conversely, with log-likelihood `f / 2 − 500 f^2` and start
`0`, the first step has length `1/2002 < 1e-3`, yet the loop prints `500/1001` and runs a
second iteration. -/
theorem laplace_stop_test_not_step_length :
    (¬ exactLib1.norm ((fun _ => (1 : ℚ))
          - spec_step exactLib1 unit_prior.A quartic_oracle (fun _ => 1)) < 1e-3) ∧
      (laplace_run exactLib1 unit_prior (fun _ => 1) quartic_oracle 20).map
          (fun r => (r.1.f 0, r.1.out, r.2))
        = Except.ok (0, [(0, 0)], Exit.Converged) ∧
      exactLib1.norm ((fun _ => (0 : ℚ))
          - spec_step exactLib1 unit_prior.A stiff_oracle (fun _ => 0)) < 1e-3 ∧
      (laplace_run exactLib1 unit_prior (fun _ => 0) stiff_oracle 20).map
          (fun r => (r.1.f 0, r.1.out, r.2))
        = Except.ok (1 / 2002, [(0, 500 / 1001), (1, 0)], Exit.Converged) := by
  refine ⟨?_, ?_, ?_, ?_⟩
  · rw [spec_step_quartic_one]
    simp [exactLib1, exactLib]
    norm_num
  · rw [laplace_run_first_stop exactLib1 unit_prior quartic_oracle (fun _ => 1) 19
      unit_prior_det (by rw [tested_norm_quartic_one]; norm_num)]
    simp only [Except.map, spec_step_quartic_one, tested_norm_quartic_one]
  · rw [spec_step_stiff]
    simp [exactLib1, exactLib]
    rw [abs_of_nonneg (by norm_num)]
    norm_num
  · have h0 : ¬ tested_norm exactLib1 unit_prior stiff_oracle (fun _ => 0) < 1e-3 := by
      rw [tested_norm_stiff]
      norm_num [abs_of_nonneg]
    have h1 : tested_norm exactLib1 unit_prior stiff_oracle
        (spec_step exactLib1 unit_prior.A stiff_oracle (fun _ => 0)) < 1e-3 := by
      rw [tested_norm_stiff, spec_step_stiff]
      norm_num
    rw [laplace_run_second_stop exactLib1 unit_prior stiff_oracle (fun _ => 0) 18
      unit_prior_det h0 h1]
    simp only [Except.map, spec_step_stiff, tested_norm_stiff]
    norm_num [abs_of_nonneg]

/-- C5 (counterexample): two runs of `laplace_approximation` with the same prior, oracle
and `max_iter = 1`, one started at `1` and left by `break`, one started at `0` and left by
exhausting `max_iter` with the test failing, return the same tuple. -/
theorem laplace_result_hides_exit :
    laplace_approximation exactLib1 unit_prior (fun _ => 1) quadratic_oracle 1
        = laplace_approximation exactLib1 unit_prior (fun _ => 0) quadratic_oracle 1 ∧
      (laplace_run exactLib1 unit_prior (fun _ => 1) quadratic_oracle 1).map Prod.snd
        = Except.ok Exit.Converged ∧
      (laplace_run exactLib1 unit_prior (fun _ => 0) quadratic_oracle 1).map Prod.snd
        = Except.ok Exit.MaxIterExhausted := by
  have hA : tested_norm exactLib1 unit_prior quadratic_oracle (fun _ => 1) < 1e-3 := by
    rw [tested_norm_quadratic]; norm_num
  have hB : ¬ tested_norm exactLib1 unit_prior quadratic_oracle (fun _ => 0) < 1e-3 := by
    rw [tested_norm_quadratic]; norm_num
  have rA := laplace_run_first_stop exactLib1 unit_prior quadratic_oracle (fun _ => 1) 0
    unit_prior_det hA
  have rB := laplace_run_one_exhausted exactLib1 unit_prior quadratic_oracle (fun _ => 0)
    unit_prior_det hB
  refine ⟨?_, ?_, ?_⟩
  · rw [laplace_approximation_of_run _ _ _ _ _ _ _ rA,
      laplace_approximation_of_run _ _ _ _ _ _ _ rB]
    simp only [spec_step_quadratic]
    rfl
  · rw [rA]; rfl
  · rw [rB]; rfl

section Claims2
variable {R : Type} [LinearOrderedField R] {n : ℕ} {LU : Type}

theorem getLast?_map_range {α : Type} (g : ℕ → α) (m : ℕ) :
    ((List.range (m + 1)).map g).getLast? = some (g m) := by
  rw [List.range_succ, List.map_append, List.map_singleton, List.getLast?_append]
  simp

/-- C5 (amended): the value `laplace_approximation` returns is the tuple `(f, WK, Blu)` of
the loop variables at exit and nothing else: it has no iteration count and no status flag,
and it does not depend on how the loop was left.  Two runs whose final `f`, `WK` and `Blu`
agree return equal values, whether they were left by `break` or by exhausting `max_iter`,
and whatever they printed. -/
theorem laplace_result_is_final_variables (lib : Lib R n LU) (K_chol : Cholesky R n)
    (f0 f0' : Fin n → R) (o o' : Oracle R n) (max_iter max_iter' : ℕ)
    (s s' : LoopState R n LU) (e e' : Exit)
    (h : laplace_run lib K_chol f0 o max_iter = Except.ok (s, e))
    (h' : laplace_run lib K_chol f0' o' max_iter' = Except.ok (s', e'))
    (hf : s'.f = s.f) (hWK : s'.WK = s.WK) (hBlu : s'.Blu = s.Blu) :
    laplace_approximation lib K_chol f0 o max_iter = Except.ok (s.f, s.WK, s.Blu) ∧
      laplace_approximation lib K_chol f0' o' max_iter'
        = laplace_approximation lib K_chol f0 o max_iter := by
  rw [laplace_approximation_of_run lib K_chol o f0 max_iter s e h,
    laplace_approximation_of_run lib K_chol o' f0' max_iter' s' e' h', hf, hWK, hBlu]
  exact ⟨rfl, rfl⟩

/-- C9: whenever at least one iteration is allowed (`max_iter ≥ 1`) and the function
returns, the returned `WK` is an `n × n` matrix `M` and the returned LU object is
`lu(I + M)` for that same `M`. -/
theorem laplace_returned_pair_consistent (lib : Lib R n LU) (K_chol : Cholesky R n)
    (f0 : Fin n → R) (o : Oracle R n) (max_iter : ℕ) (f : Fin n → R)
    (WK : DynamicMatrix R) (Blu : LU) (hmax : 1 ≤ max_iter)
    (h : laplace_approximation lib K_chol f0 o max_iter = Except.ok (f, WK, Blu)) :
    ∃ M : Matrix (Fin n) (Fin n) R,
      WK = DynamicMatrix.ofMatrix M ∧ Blu = lib.lu (1 + M) := by
  obtain ⟨_, hloop⟩ := (laplace_approximation_ok_iff lib K_chol o f0 max_iter _).mp h
  simp only [Prod.mk.injEq] at hloop
  obtain ⟨_, hWK, hBlu⟩ := hloop
  obtain ⟨m, _, h1, _, _, _, _, _, _, hlast⟩ :=
    loop_spec lib K_chol o max_iter 0 ⟨f0, DynamicMatrix.empty, lib.LU0, []⟩
  obtain ⟨hw, hb⟩ := hlast (h1 hmax)
  exact ⟨_, by rw [← hWK, hw], by rw [← hBlu, hb]⟩

end Claims2

theorem laplace_result_is_final_variables_witness :
    laplace_approximation exactLib1 unit_prior (fun _ => 1) quadratic_oracle 1
        = Except.ok (spec_step exactLib1 unit_prior.A quadratic_oracle (fun _ => 1),
            DynamicMatrix.ofMatrix ((quadratic_oracle (fun _ => 1)).2 * unit_prior.A),
            exactLib1.lu (1 + (quadratic_oracle (fun _ => 1)).2 * unit_prior.A)) ∧
      laplace_approximation exactLib1 unit_prior (fun _ => 0) quadratic_oracle 1
        = laplace_approximation exactLib1 unit_prior (fun _ => 1) quadratic_oracle 1 :=
  laplace_result_is_final_variables exactLib1 unit_prior (fun _ => 1) (fun _ => 0)
    quadratic_oracle quadratic_oracle 1 1
    ⟨spec_step exactLib1 unit_prior.A quadratic_oracle (fun _ => 1),
      DynamicMatrix.ofMatrix ((quadratic_oracle (fun _ => 1)).2 * unit_prior.A),
      exactLib1.lu (1 + (quadratic_oracle (fun _ => 1)).2 * unit_prior.A),
      [(0, tested_norm exactLib1 unit_prior quadratic_oracle (fun _ => 1))]⟩
    ⟨spec_step exactLib1 unit_prior.A quadratic_oracle (fun _ => 0),
      DynamicMatrix.ofMatrix ((quadratic_oracle (fun _ => 0)).2 * unit_prior.A),
      exactLib1.lu (1 + (quadratic_oracle (fun _ => 0)).2 * unit_prior.A),
      [(0, tested_norm exactLib1 unit_prior quadratic_oracle (fun _ => 0))]⟩
    Exit.Converged Exit.MaxIterExhausted
    (laplace_run_first_stop exactLib1 unit_prior quadratic_oracle (fun _ => 1) 0
      unit_prior_det (by rw [tested_norm_quadratic]; norm_num))
    (laplace_run_one_exhausted exactLib1 unit_prior quadratic_oracle (fun _ => 0)
      unit_prior_det (by rw [tested_norm_quadratic]; norm_num))
    (by simp only [spec_step_quadratic]) rfl rfl

theorem laplace_returned_pair_consistent_witness :
    ∃ M : Matrix (Fin 1) (Fin 1) ℚ,
      DynamicMatrix.ofMatrix ((quadratic_oracle (fun _ => 1)).2 * unit_prior.A)
          = DynamicMatrix.ofMatrix M ∧
        exactLib1.lu (1 + (quadratic_oracle (fun _ => 1)).2 * unit_prior.A)
          = exactLib1.lu (1 + M) :=
  laplace_returned_pair_consistent exactLib1 unit_prior (fun _ => 1) quadratic_oracle 20
    (spec_step exactLib1 unit_prior.A quadratic_oracle (fun _ => 1)) _ _ (by norm_num)
    (laplace_approximation_of_run _ _ _ _ _ _ _
      (laplace_run_first_stop exactLib1 unit_prior quadratic_oracle (fun _ => 1) 19
        unit_prior_det (by rw [tested_norm_quadratic]; norm_num)))

end usvg

namespace usdg
open Finset

/-! ### `gauss_hermite` -/

theorem x_length : gauss_hermite.x.length = 32 := rfl

theorem w_length : gauss_hermite.w.length = 32 := rfl

theorem zipWith_mul_sum {R : Type} [Semiring R] (a b : List R) (h : a.length = b.length) :
    (List.zipWith (fun s t => s * t) a b).sum
      = ∑ i ∈ range a.length, a.getD i 0 * b.getD i 0 := by
  induction a generalizing b with
  | nil => simp
  | cons s a ih =>
    cases b with
    | nil => simp at h
    | cons t b =>
      have h' : a.length = b.length := by simpa using h
      rw [List.zipWith_cons_cons, List.sum_cons, ih b h', List.length_cons,
        Finset.sum_range_succ']
      simp [add_comm]

theorem getD_map_zero {α β : Type} [Zero α] [Zero β] (g : α → β) (hg : g 0 = 0) (l : List α)
    (i : ℕ) : (l.map g).getD i 0 = g (l.getD i 0) := by
  induction l generalizing i with
  | nil => simp [hg]
  | cons a l ih =>
    cases i with
    | zero => simp
    | succ i => simpa using ih i

theorem getD_map_of_lt {α β : Type} (g : α → β) (l : List α) (a : α) (b : β)
    (i : ℕ) (hi : i < l.length) : (l.map g).getD i b = g (l.getD i a) := by
  induction l generalizing i with
  | nil => simp at hi
  | cons c l ih =>
    cases i with
    | zero => simp
    | succ i => simpa using ih i (by simpa using hi)

theorem gauss_hermite_eq_sum {R : Type} [Field R] (f : R → R) :
    gauss_hermite f = some (∑ i ∈ range 32,
      ((gauss_hermite.w.getD i 0 : ℚ) : R) * f ((gauss_hermite.x.getD i 0 : ℚ) : R)) := by
  have hlen : (map (gauss_hermite.x.map (fun q : ℚ => (q : R))) f).length
      = (gauss_hermite.w.map (fun q : ℚ => (q : R))).length := by
    simp [map, x_length, w_length]
  have hx : (map (gauss_hermite.x.map (fun q : ℚ => (q : R))) f).length = 32 := by
    simp [map, x_length]
  simp only [gauss_hermite, dot, hlen, if_true, Option.some.injEq]
  rw [zipWith_mul_sum _ _ hlen, hx]
  apply Finset.sum_congr rfl
  intro i hi
  have hi' : i < 32 := Finset.mem_range.mp hi
  rw [getD_map_zero (fun q : ℚ => (q : R)) (by simp) gauss_hermite.w i, map,
    List.map_map, getD_map_of_lt _ gauss_hermite.x 0 0 i (by rw [x_length]; exact hi')]
  simp [mul_comm]

theorem sum_w_x : ∑ i ∈ range 32, gauss_hermite.w.getD i 0 * gauss_hermite.x.getD i 0 = 0 := by
  simp only [Finset.sum_range_succ, Finset.sum_range_zero, gauss_hermite.w, gauss_hermite.x,
    List.getD_cons_zero, List.getD_cons_succ]
  norm_num

theorem sum_w : ∑ i ∈ range 32, gauss_hermite.w.getD i 0
    = 22155673136318949639145807814349689569 / 12500000000000000000000000000000000000 := by
  simp only [Finset.sum_range_succ, Finset.sum_range_zero, gauss_hermite.w,
    List.getD_cons_zero, List.getD_cons_succ]
  norm_num

/-- C6: `gauss_hermite(f)` is defined for every `f` and equals `Σ_{i=0}^{31} w_i·f(x_i)`
over the two tables, which both have exactly 32 entries; `f` enters only through its
values at the tabulated nodes. -/
theorem gauss_hermite_weighted_sum {R : Type} [Field R] (f g : R → R) :
    gauss_hermite.x.length = 32 ∧ gauss_hermite.w.length = 32 ∧
      gauss_hermite f = some (∑ i ∈ range 32,
        ((gauss_hermite.w.getD i 0 : ℚ) : R) * f ((gauss_hermite.x.getD i 0 : ℚ) : R)) ∧
      ((∀ t ∈ gauss_hermite.x, f ((t : ℚ) : R) = g ((t : ℚ) : R)) →
        gauss_hermite f = gauss_hermite g) := by
  refine ⟨x_length, w_length, gauss_hermite_eq_sum f, ?_⟩
  intro h
  rw [gauss_hermite_eq_sum f, gauss_hermite_eq_sum g]
  congr 1
  apply Finset.sum_congr rfl
  intro i hi
  have hi' : i < gauss_hermite.x.length := by
    rw [x_length]; exact Finset.mem_range.mp hi
  have hmem : gauss_hermite.x.getD i 0 ∈ gauss_hermite.x := by
    rw [List.getD_eq_getElem _ _ hi']
    exact List.getElem_mem hi'
  rw [h _ hmem]

/-! ### The nodes of `gauss_hermite` and the roots of `H_32` -/

theorem x_eq_scaled :
    gauss_hermite.x = gauss_hermite.x_scaled.map (fun p : ℤ => (p : ℚ) / 10 ^ 17) := by
  simp only [gauss_hermite.x, gauss_hermite.x_scaled, List.map_cons, List.map_nil]
  norm_num

theorem x_scaled_separated :
    gauss_hermite.x_scaled.Pairwise
      (fun a b => a + 200000000 < b ∨ b + 200000000 < a) := by
  decide!

theorem x_scaled_sign_change :
    ∀ p ∈ gauss_hermite.x_scaled,
      hermite_scaled (p - 100000000) (10 ^ 17) 32
        * hermite_scaled (p + 100000000) (10 ^ 17) 32 < 0 := by
  decide!

theorem hermite_scaled_loop_cast (p q : ℤ) (hq : (q : ℝ) ≠ 0) :
    ∀ (m k : ℕ) (a b : ℤ) (A B : ℝ), (a : ℝ) = (q : ℝ) ^ k * A →
      (b : ℝ) = (q : ℝ) ^ (k + 1) * B →
      ((hermite_scaled_loop p q m k a b : ℤ) : ℝ)
        = (q : ℝ) ^ (k + m) * hermite_loop ((p : ℝ) / q) m k A B := by
  intro m
  induction m with
  | zero =>
    intro k a b A B ha _
    simpa [hermite_scaled_loop, hermite_loop] using ha
  | succ m ih =>
    intro k a b A B ha hb
    rw [hermite_scaled_loop, hermite_loop, ih (k + 1) b _ B _ hb]
    · congr 1
      ring
    · push_cast
      rw [ha, hb]
      field_simp
      ring

theorem hermite_scaled_cast (p q : ℤ) (hq : (q : ℝ) ≠ 0) (n : ℕ) :
    ((hermite_scaled p q n : ℤ) : ℝ) = (q : ℝ) ^ n * hermite_H n ((p : ℝ) / q) := by
  have h := hermite_scaled_loop_cast p q hq n 0 1 (2 * p) 1 (2 * ((p : ℝ) / q))
    (by simp) (by push_cast; field_simp)
  simpa [hermite_scaled, hermite_H] using h

theorem hermite_loop_continuous :
    ∀ (m k : ℕ) (A B : ℝ → ℝ), Continuous A → Continuous B →
      Continuous (fun t => hermite_loop t m k (A t) (B t)) := by
  intro m
  induction m with
  | zero =>
    intro k A B hA _
    simpa [hermite_loop] using hA
  | succ m ih =>
    intro k A B hA hB
    simp only [hermite_loop]
    exact ih (k + 1) B (fun t => 2 * t * B t - 2 * ((k + 1 : ℕ) : ℝ) * A t) hB
      (by fun_prop)

theorem hermite_H_continuous (n : ℕ) : Continuous (fun t : ℝ => hermite_H n t) := by
  simp only [hermite_H]
  exact hermite_loop_continuous n 0 (fun _ => 1) (fun t => 2 * t) (by fun_prop) (by fun_prop)

theorem hermite_loop_poly :
    ∀ (m k : ℕ) (PA PB : Polynomial ℝ), PA.natDegree ≤ k → PB.natDegree ≤ k + 1 →
      ∃ P : Polynomial ℝ, P.natDegree ≤ k + m ∧
        ∀ t, P.eval t = hermite_loop t m k (PA.eval t) (PB.eval t) := by
  intro m
  induction m with
  | zero =>
    intro k PA PB hA _
    exact ⟨PA, by simpa using hA, fun t => by simp [hermite_loop]⟩
  | succ m ih =>
    intro k PA PB hA hB
    obtain ⟨P, hdeg, hev⟩ := ih (k + 1) PB
      (Polynomial.C 2 * Polynomial.X * PB - Polynomial.C (2 * ((k + 1 : ℕ) : ℝ)) * PA) hB
      (by
        refine (Polynomial.natDegree_sub_le _ _).trans (max_le ?_ ?_)
        · refine (Polynomial.natDegree_mul_le).trans ?_
          have h1 : (Polynomial.C (2 : ℝ) * Polynomial.X).natDegree ≤ 1 := by
            refine (Polynomial.natDegree_C_mul_le _ _).trans ?_
            exact Polynomial.natDegree_X_le
          omega
        · refine (Polynomial.natDegree_C_mul_le _ _).trans ?_
          omega)
    refine ⟨P, by omega, fun t => ?_⟩
    rw [hev t, hermite_loop]
    simp

theorem hermite_H_poly (n : ℕ) :
    ∃ P : Polynomial ℝ, P.natDegree ≤ n ∧ ∀ t, P.eval t = hermite_H n t := by
  obtain ⟨P, hdeg, hev⟩ := hermite_loop_poly n 0 1 (Polynomial.C 2 * Polynomial.X)
    (by simp) (by
      refine (Polynomial.natDegree_C_mul_le _ _).trans ?_
      exact Polynomial.natDegree_X_le)
  refine ⟨P, by simpa using hdeg, fun t => ?_⟩
  rw [hev t]
  simp [hermite_H]

theorem mem_x_iff (t : ℚ) :
    t ∈ gauss_hermite.x ↔ ∃ p ∈ gauss_hermite.x_scaled, (p : ℚ) / 10 ^ 17 = t := by
  rw [x_eq_scaled, List.mem_map]

theorem x_scaled_far (a b : ℤ) (ha : a ∈ gauss_hermite.x_scaled)
    (hb : b ∈ gauss_hermite.x_scaled) (hab : a ≠ b) :
    a + 200000000 < b ∨ b + 200000000 < a :=
  x_scaled_separated.forall (fun _ _ h => h.symm) ha hb hab

theorem x_scaled_nodup : gauss_hermite.x_scaled.Nodup := by
  refine List.Pairwise.imp ?_ x_scaled_separated
  intro a b h hab
  subst hab
  omega

theorem x_nodup : gauss_hermite.x.Nodup := by
  rw [x_eq_scaled]
  refine List.Nodup.map ?_ x_scaled_nodup
  intro a b h
  have h17 : (10 : ℚ) ^ 17 ≠ 0 := by norm_num
  have h' : (a : ℚ) = (b : ℚ) := by
    have := congrArg (fun z => z * (10 : ℚ) ^ 17) h
    simpa [div_mul_cancel₀, h17] using this
  exact_mod_cast h'

theorem node_shift_lo (p : ℤ) :
    (((p : ℚ) / 10 ^ 17 : ℚ) : ℝ) - 1e-9
      = ((p - 100000000 : ℤ) : ℝ) / ((10 ^ 17 : ℤ) : ℝ) := by
  push_cast
  norm_num
  ring

theorem node_shift_hi (p : ℤ) :
    (((p : ℚ) / 10 ^ 17 : ℚ) : ℝ) + 1e-9
      = ((p + 100000000 : ℤ) : ℝ) / ((10 ^ 17 : ℤ) : ℝ) := by
  push_cast
  norm_num
  ring

theorem hermite_sign_change_scaled (p : ℤ) (hp : p ∈ gauss_hermite.x_scaled) :
    hermite_H 32 ((((p : ℚ) / 10 ^ 17 : ℚ) : ℝ) - 1e-9)
      * hermite_H 32 ((((p : ℚ) / 10 ^ 17 : ℚ) : ℝ) + 1e-9) < 0 := by
  have hq : (((10 ^ 17 : ℤ)) : ℝ) ≠ 0 := by norm_num
  have hqpos : (0 : ℝ) < (((10 ^ 17 : ℤ)) : ℝ) ^ 32 := by positivity
  have hlo := hermite_scaled_cast (p - 100000000) (10 ^ 17) hq 32
  have hhi := hermite_scaled_cast (p + 100000000) (10 ^ 17) hq 32
  have hs : ((hermite_scaled (p - 100000000) (10 ^ 17) 32
      * hermite_scaled (p + 100000000) (10 ^ 17) 32 : ℤ) : ℝ) < 0 := by
    exact_mod_cast x_scaled_sign_change p hp
  rw [node_shift_lo, node_shift_hi]
  rw [Int.cast_mul, hlo, hhi] at hs
  by_contra hcon
  push_neg at hcon
  have : 0 ≤ (((10 ^ 17 : ℤ)) : ℝ) ^ 32 * hermite_H 32 (((p - 100000000 : ℤ) : ℝ) / ((10 ^ 17 : ℤ) : ℝ))
      * ((((10 ^ 17 : ℤ)) : ℝ) ^ 32 * hermite_H 32 (((p + 100000000 : ℤ) : ℝ) / ((10 ^ 17 : ℤ) : ℝ))) := by
    have h2 := mul_nonneg (mul_nonneg hqpos.le hqpos.le) hcon
    calc (0 : ℝ) ≤ _ := h2
      _ = _ := by ring
  linarith

theorem hermite_root_near_scaled (p : ℤ) (hp : p ∈ gauss_hermite.x_scaled) :
    ∃ r : ℝ, |r - (((p : ℚ) / 10 ^ 17 : ℚ) : ℝ)| ≤ 1e-9 ∧ hermite_H 32 r = 0 := by
  have hsign := hermite_sign_change_scaled p hp
  set t : ℝ := (((p : ℚ) / 10 ^ 17 : ℚ) : ℝ) with ht
  have hle : t - 1e-9 ≤ t + 1e-9 := by norm_num; linarith
  have hcont : ContinuousOn (fun s : ℝ => hermite_H 32 s) (Set.Icc (t - 1e-9) (t + 1e-9)) :=
    (hermite_H_continuous 32).continuousOn
  have hmem : ∃ r ∈ Set.Icc (t - 1e-9) (t + 1e-9), hermite_H 32 r = 0 := by
    rcases mul_neg_iff.mp hsign with ⟨h1, h2⟩ | ⟨h1, h2⟩
    · have := intermediate_value_Icc' hle hcont ⟨h2.le, h1.le⟩
      obtain ⟨r, hr, hr0⟩ := this
      exact ⟨r, hr, hr0⟩
    · have := intermediate_value_Icc hle hcont ⟨h1.le, h2.le⟩
      obtain ⟨r, hr, hr0⟩ := this
      exact ⟨r, hr, hr0⟩
  obtain ⟨r, ⟨hr1, hr2⟩, hr0⟩ := hmem
  refine ⟨r, ?_, hr0⟩
  rw [abs_le]
  norm_num at hr1 hr2 ⊢
  constructor <;> linarith

theorem hermite_roots_covered (r : ℝ) (hr : hermite_H 32 r = 0) :
    ∃ p ∈ gauss_hermite.x_scaled, |r - (((p : ℚ) / 10 ^ 17 : ℚ) : ℝ)| ≤ 1e-9 := by
  classical
  obtain ⟨P, hdeg, hev⟩ := hermite_H_poly 32
  -- a root near every node
  have hex : ∀ p : ℤ, ∃ s : ℝ, p ∈ gauss_hermite.x_scaled →
      |s - (((p : ℚ) / 10 ^ 17 : ℚ) : ℝ)| ≤ 1e-9 ∧ hermite_H 32 s = 0 := by
    intro p
    by_cases hp : p ∈ gauss_hermite.x_scaled
    · obtain ⟨s, hs⟩ := hermite_root_near_scaled p hp
      exact ⟨s, fun _ => hs⟩
    · exact ⟨0, fun h => (hp h).elim⟩
  choose g hg using hex
  -- the polynomial is not zero
  have hP : P ≠ 0 := by
    intro h0
    have hp0 : (-712581390983072700 : ℤ) ∈ gauss_hermite.x_scaled := by
      simp [gauss_hermite.x_scaled]
    have hsign := hermite_sign_change_scaled _ hp0
    rw [← hev, ← hev, h0] at hsign
    simp at hsign
  -- the chosen roots are pairwise distinct
  have hinj : Set.InjOn g (↑gauss_hermite.x_scaled.toFinset : Set ℤ) := by
    intro a ha b hb hab
    have ha' : a ∈ gauss_hermite.x_scaled := by simpa using ha
    have hb' : b ∈ gauss_hermite.x_scaled := by simpa using hb
    by_contra hne
    have h1 := abs_le.mp (hg a ha').1
    have h2 := abs_le.mp (hg b hb').1
    rw [hab] at h1
    have hfar := x_scaled_far a b ha' hb' hne
    have hfarR : (a : ℝ) + 200000000 < (b : ℝ) ∨ (b : ℝ) + 200000000 < (a : ℝ) := by
      rcases hfar with h | h
      · left; exact_mod_cast h
      · right; exact_mod_cast h
    push_cast at h1 h2
    norm_num at h1 h2
    rcases hfarR with h | h
    · linarith [h1.1, h1.2, h2.1, h2.2]
    · linarith [h1.1, h1.2, h2.1, h2.2]
  have hsub : gauss_hermite.x_scaled.toFinset.image g ⊆ P.roots.toFinset := by
    intro s hs
    obtain ⟨p, hp, rfl⟩ := Finset.mem_image.mp hs
    have hp' : p ∈ gauss_hermite.x_scaled := by simpa using hp
    rw [Multiset.mem_toFinset, Polynomial.mem_roots hP, Polynomial.IsRoot, hev]
    exact (hg p hp').2
  have hcard : (gauss_hermite.x_scaled.toFinset.image g).card = 32 := by
    rw [Finset.card_image_of_injOn hinj, List.toFinset_card_of_nodup x_scaled_nodup]
    rfl
  have hle : P.roots.toFinset.card ≤ (gauss_hermite.x_scaled.toFinset.image g).card := by
    rw [hcard]
    exact (Multiset.toFinset_card_le _).trans ((Polynomial.card_roots' P).trans hdeg)
  have heq := Finset.eq_of_subset_of_card_le hsub hle
  have hrmem : r ∈ P.roots.toFinset := by
    rw [Multiset.mem_toFinset, Polynomial.mem_roots hP, Polynomial.IsRoot, hev]
    exact hr
  rw [← heq] at hrmem
  obtain ⟨p, hp, rfl⟩ := Finset.mem_image.mp hrmem
  have hp' : p ∈ gauss_hermite.x_scaled := by simpa using hp
  exact ⟨p, hp', (hg p hp').1⟩

/-- C10: the 32 tabulated nodes are the roots of the physicists' Hermite polynomial
`H_32`: the nodes are pairwise distinct, `H_32` changes sign on
`[x_i − 1e-9, x_i + 1e-9]` for every node, so a real root lies within `1e-9` of it, and
every real root of `H_32` lies within `1e-9` of a node. -/
theorem gauss_hermite_nodes_are_hermite_roots :
    gauss_hermite.x.Nodup ∧ gauss_hermite.x.length = 32 ∧
      (∀ t ∈ gauss_hermite.x,
        hermite_H 32 (((t : ℚ) : ℝ) - 1e-9) * hermite_H 32 (((t : ℚ) : ℝ) + 1e-9) < 0 ∧
        ∃ r : ℝ, |r - ((t : ℚ) : ℝ)| ≤ 1e-9 ∧ hermite_H 32 r = 0) ∧
      (∀ r : ℝ, hermite_H 32 r = 0 →
        ∃ t ∈ gauss_hermite.x, |r - ((t : ℚ) : ℝ)| ≤ 1e-9) := by
  refine ⟨x_nodup, x_length, ?_, ?_⟩
  · intro t ht
    obtain ⟨p, hp, rfl⟩ := (mem_x_iff t).mp ht
    exact ⟨hermite_sign_change_scaled p hp, hermite_root_near_scaled p hp⟩
  · intro r hr
    obtain ⟨p, hp, hnear⟩ := hermite_roots_covered r hr
    exact ⟨(p : ℚ) / 10 ^ 17, (mem_x_iff _).mpr ⟨p, hp, rfl⟩, hnear⟩

end usdg

namespace usvg

/-! ### The Laplace-pair normal -/

section MvNormalLemmas
variable {n : ℕ}

theorem det_lower_triangular (M : Matrix (Fin n) (Fin n) ℝ)
    (htri : ∀ i j, i < j → M i j = 0) : M.det = ∏ i, M i i :=
  Matrix.det_of_lowerTriangular M (fun i j h => htri i j h)

theorem det_pos_of_lower (M : Matrix (Fin n) (Fin n) ℝ)
    (htri : ∀ i j, i < j → M i j = 0) (hpos : ∀ i, 0 < M i i) : 0 < M.det := by
  rw [det_lower_triangular M htri]
  exact Finset.prod_pos (fun i _ => hpos i)

theorem sum_log_diag (M : Matrix (Fin n) (Fin n) ℝ)
    (htri : ∀ i j, i < j → M i j = 0) (hpos : ∀ i, 0 < M i i) :
    ∑ i, Real.log (M i i) = Real.log M.det := by
  rw [det_lower_triangular M htri, Real.log_prod]
  intro i _
  exact (hpos i).ne'

theorem normSq_mulVec (M : Matrix (Fin n) (Fin n) ℝ) (y : Fin n → ℝ) :
    (M *ᵥ y) ⬝ᵥ (M *ᵥ y) = y ⬝ᵥ ((Mᵀ * M) *ᵥ y) := by
  rw [Matrix.dotProduct_mulVec, ← Matrix.mulVec_transpose, Matrix.mulVec_mulVec,
    Matrix.dotProduct_comm]

theorem mul_cancel_left_of_eq_one {X Y : Matrix (Fin n) (Fin n) ℝ} (h : X * Y = 1)
    (Z : Matrix (Fin n) (Fin n) ℝ) : X * (Y * Z) = Z := by
  rw [← Matrix.mul_assoc, h, Matrix.one_mul]

/-- With `K = L Lᵗ` and `C Cᵗ = I + Lᵗ W L`, the precision `K⁻¹ + W` is
`L⁻ᵗ (C Cᵗ) L⁻¹`. -/
theorem precision_eq (K W L C : Matrix (Fin n) (Fin n) ℝ) (hLdet : IsUnit L.det)
    (hK : L * Lᵀ = K) (hC : C * Cᵀ = 1 + Lᵀ * W * L) :
    K⁻¹ + W = (L⁻¹)ᵀ * (C * Cᵀ) * L⁻¹ := by
  have hLLi : L * L⁻¹ = 1 := Matrix.mul_nonsing_inv L hLdet
  have hLiL : L⁻¹ * L = 1 := Matrix.nonsing_inv_mul L hLdet
  have hLt : (L⁻¹)ᵀ * Lᵀ = 1 := by rw [← Matrix.transpose_mul, hLLi, Matrix.transpose_one]
  have hKinv : K⁻¹ = (L⁻¹)ᵀ * L⁻¹ := by
    rw [← hK, Matrix.mul_inv_rev, Matrix.transpose_nonsing_inv]
  rw [hC, hKinv, Matrix.mul_add, Matrix.add_mul, Matrix.mul_one]
  congr 1
  rw [Matrix.mul_assoc Lᵀ W L, mul_cancel_left_of_eq_one hLt, Matrix.mul_assoc, hLLi,
    Matrix.mul_one]

theorem precision_mul_covariance (K W L C : Matrix (Fin n) (Fin n) ℝ)
    (hLdet : IsUnit L.det) (hCdet : IsUnit C.det)
    (hK : L * Lᵀ = K) (hC : C * Cᵀ = 1 + Lᵀ * W * L) (m : Fin n → ℝ) :
    (K⁻¹ + W) * (MvNormalLaplace.mk m L C).covariance = 1 := by
  have hLLi : L * L⁻¹ = 1 := Matrix.mul_nonsing_inv L hLdet
  have hLiL : L⁻¹ * L = 1 := Matrix.nonsing_inv_mul L hLdet
  have hCCi : C * C⁻¹ = 1 := Matrix.mul_nonsing_inv C hCdet
  have hCiC : C⁻¹ * C = 1 := Matrix.nonsing_inv_mul C hCdet
  have hLt : (L⁻¹)ᵀ * Lᵀ = 1 := by rw [← Matrix.transpose_mul, hLLi, Matrix.transpose_one]
  have hCt : Cᵀ * (C⁻¹)ᵀ = 1 := by rw [← Matrix.transpose_mul, hCiC, Matrix.transpose_one]
  rw [precision_eq K W L C hLdet hK hC]
  simp only [MvNormalLaplace.covariance, Matrix.transpose_mul, Matrix.transpose_transpose,
    Matrix.mul_assoc]
  rw [mul_cancel_left_of_eq_one hLiL, mul_cancel_left_of_eq_one hCt,
    mul_cancel_left_of_eq_one hCCi, hLt]

end MvNormalLemmas

section MvNormalClaim
variable {n : ℕ}

theorem laplace_pair_quadratic (K W L C : Matrix (Fin n) (Fin n) ℝ) (hLdet : IsUnit L.det)
    (hK : L * Lᵀ = K) (hC : C * Cᵀ = 1 + Lᵀ * W * L) (m x : Fin n → ℝ) :
    (MvNormalLaplace.mk m L C).whiten x ⬝ᵥ (MvNormalLaplace.mk m L C).whiten x
      = (x - m) ⬝ᵥ ((K⁻¹ + W) *ᵥ (x - m)) := by
  simp only [MvNormalLaplace.whiten]
  rw [Matrix.mulVec_mulVec, normSq_mulVec, precision_eq K W L C hLdet hK hC]
  simp only [Matrix.transpose_mul, Matrix.transpose_transpose, Matrix.mul_assoc]

theorem dense_quadratic (P L' : Matrix (Fin n) (Fin n) ℝ)
    (hPdet : IsUnit P.det) (hL' : L' * L'ᵀ = P⁻¹) (m x : Fin n → ℝ) :
    (MvNormalDense.mk m L').whiten x ⬝ᵥ (MvNormalDense.mk m L').whiten x
      = (x - m) ⬝ᵥ (P *ᵥ (x - m)) := by
  simp only [MvNormalDense.whiten]
  rw [normSq_mulVec]
  have h : (L'⁻¹)ᵀ * L'⁻¹ = P := by
    rw [Matrix.transpose_nonsing_inv, ← Matrix.mul_inv_rev, hL',
      Matrix.nonsing_inv_nonsing_inv P hPdet]
  rw [h]

/-- C8: cross-consistency of the Laplace-pair normal.  For `K = L·Lᵗ` with `L` lower
triangular with positive diagonal, `C` the lower Cholesky factor of `I + Lᵗ·W·L`, and any
mean, the Laplace-pair distribution built from `(m, L, C)` has covariance
`L·C⁻ᵗ·C⁻¹·Lᵗ = (K⁻¹ + W)⁻¹`, its whitening inverts its unwhitening, and its log-density
at every point equals the log-density of the normal built from a lower Cholesky factor
`L'` of `(K⁻¹ + W)⁻¹`. -/
theorem laplace_pair_matches_direct (K W L C L' : Matrix (Fin n) (Fin n) ℝ)
    (m x z : Fin n → ℝ)
    (hLtri : ∀ i j, i < j → L i j = 0) (hLpos : ∀ i, 0 < L i i) (hK : L * Lᵀ = K)
    (hCtri : ∀ i j, i < j → C i j = 0) (hCpos : ∀ i, 0 < C i i)
    (hC : C * Cᵀ = 1 + Lᵀ * W * L)
    (hL'tri : ∀ i j, i < j → L' i j = 0) (hL'pos : ∀ i, 0 < L' i i)
    (hL' : L' * L'ᵀ = (K⁻¹ + W)⁻¹) :
    (MvNormalLaplace.mk m L C).covariance = L * (C⁻¹)ᵀ * C⁻¹ * Lᵀ ∧
      (MvNormalLaplace.mk m L C).covariance = (K⁻¹ + W)⁻¹ ∧
      (MvNormalLaplace.mk m L C).whiten ((MvNormalLaplace.mk m L C).unwhiten z) = z ∧
      (MvNormalLaplace.mk m L C).logpdf x = (MvNormalDense.mk m L').logpdf x := by
  have hLd := det_pos_of_lower L hLtri hLpos
  have hCd := det_pos_of_lower C hCtri hCpos
  have hL'd := det_pos_of_lower L' hL'tri hL'pos
  have hLdet : IsUnit L.det := isUnit_iff_ne_zero.mpr hLd.ne'
  have hCdet : IsUnit C.det := isUnit_iff_ne_zero.mpr hCd.ne'
  have hprod := precision_mul_covariance K W L C hLdet hCdet hK hC m
  have hPdet : IsUnit (K⁻¹ + W).det := Matrix.isUnit_det_of_right_inverse hprod
  have hcov : (MvNormalLaplace.mk m L C).covariance = (K⁻¹ + W)⁻¹ :=
    (Matrix.inv_eq_right_inv hprod).symm
  refine ⟨?_, hcov, ?_, ?_⟩
  · simp only [MvNormalLaplace.covariance, Matrix.transpose_mul, Matrix.transpose_transpose,
      Matrix.mul_assoc]
  · simp only [MvNormalLaplace.whiten, MvNormalLaplace.unwhiten, add_sub_cancel_left,
      Matrix.mulVec_mulVec]
    have hLiL : L⁻¹ * L = 1 := Matrix.nonsing_inv_mul L hLdet
    have hCiC : C⁻¹ * C = 1 := Matrix.nonsing_inv_mul C hCdet
    have hCt : Cᵀ * (C⁻¹)ᵀ = 1 := by
      rw [← Matrix.transpose_mul, hCiC, Matrix.transpose_one]
    rw [mul_cancel_left_of_eq_one hLiL, hCt, Matrix.one_mulVec]
  · -- the determinant of the direct factor
    have hdetcov : (MvNormalLaplace.mk m L C).covariance.det = (L.det / C.det) ^ 2 := by
      simp only [MvNormalLaplace.covariance, Matrix.det_mul, Matrix.det_transpose,
        Matrix.det_nonsing_inv, Ring.inverse_eq_inv']
      ring
    have hdetL' : L'.det ^ 2 = (L.det / C.det) ^ 2 := by
      rw [← hdetcov, hcov, ← hL', Matrix.det_mul, Matrix.det_transpose]
      ring
    have hdet : L'.det = L.det / C.det := by
      have hq : 0 < L.det / C.det := div_pos hLd hCd
      exact (sq_eq_sq₀ hL'd.le hq.le).mp hdetL'
    simp only [MvNormalLaplace.logpdf, MvNormalDense.logpdf]
    rw [laplace_pair_quadratic K W L C hLdet hK hC m x,
      dense_quadratic (K⁻¹ + W) L' hPdet hL' m x,
      sum_log_diag L hLtri hLpos, sum_log_diag C hCtri hCpos,
      sum_log_diag L' hL'tri hL'pos, hdet, Real.log_div hLd.ne' hCd.ne']

end MvNormalClaim

theorem example_K_inv : example_K⁻¹ = !![5 / 4, -1; -1, 1] := by
  apply Matrix.inv_eq_right_inv
  ext i j
  fin_cases i <;> fin_cases j <;>
    simp only [Matrix.mul_apply, Matrix.transpose_apply, Matrix.add_apply,
      Fin.sum_univ_two] <;>
    norm_num [example_K]

theorem example_precision_inv :
    example_L' * example_L'ᵀ = (example_K⁻¹ + example_W)⁻¹ := by
  symm
  apply Matrix.inv_eq_right_inv
  rw [example_K_inv]
  ext i j
  fin_cases i <;> fin_cases j <;>
    simp only [Matrix.mul_apply, Matrix.transpose_apply, Matrix.add_apply,
      Fin.sum_univ_two] <;>
    norm_num [example_W, example_L']

theorem laplace_pair_matches_direct_witness :
    (MvNormalLaplace.mk ![1, -1] example_L example_C).covariance
        = example_L * (example_C⁻¹)ᵀ * example_C⁻¹ * example_Lᵀ ∧
      (MvNormalLaplace.mk ![1, -1] example_L example_C).covariance
        = (example_K⁻¹ + example_W)⁻¹ ∧
      (MvNormalLaplace.mk ![1, -1] example_L example_C).whiten
          ((MvNormalLaplace.mk ![1, -1] example_L example_C).unwhiten ![1, 2]) = ![1, 2] ∧
      (MvNormalLaplace.mk ![1, -1] example_L example_C).logpdf ![0, 0]
        = (MvNormalDense.mk ![1, -1] example_L').logpdf ![0, 0] :=
  laplace_pair_matches_direct example_K example_W example_L example_C example_L'
    ![1, -1] ![0, 0] ![1, 2]
    (by intro i j h; fin_cases i <;> fin_cases j <;> simp [example_L] at h ⊢)
    (by intro i; fin_cases i <;> simp [example_L])
    (by
      ext i j
      fin_cases i <;> fin_cases j <;>
        simp only [Matrix.mul_apply, Matrix.transpose_apply, Matrix.add_apply,
          Fin.sum_univ_two] <;>
        norm_num [example_L, example_K])
    (by intro i j h; fin_cases i <;> fin_cases j <;> simp [example_C] at h ⊢)
    (by intro i; fin_cases i <;> simp [example_C])
    (by
      ext i j
      fin_cases i <;> fin_cases j <;>
        simp only [Matrix.mul_apply, Matrix.transpose_apply, Matrix.add_apply,
          Fin.sum_univ_two] <;>
        norm_num [example_L, example_C, example_W])
    (by intro i j h; fin_cases i <;> fin_cases j <;> simp [example_L'] at h ⊢)
    (by intro i; fin_cases i <;> simp [example_L'])
    example_precision_inv

/-! ### The calls made by `laplace_approximation` -/

section TracedLemmas
variable {R : Type} [LinearOrderedField R] {n : ℕ} {LU : Type}
variable (lib : Lib R n LU) (K_chol : Cholesky R n) (o : Oracle R n)

theorem body_traced_fst (i : ℕ) (s : LoopState R n LU) (c : Calls R n) :
    (body_traced lib K_chol o i s c).1 = body lib K_chol o i s := rfl

theorem body_traced_snd (i : ℕ) (s : LoopState R n LU) (c : Calls R n) :
    (body_traced lib K_chol o i s c).2
      = ⟨c.oracle ++ [s.f], c.lu ++ [1 + (o s.f).2 * K_chol.A]⟩ := rfl

theorem loop_out_length_ge (k i : ℕ) (s : LoopState R n LU) :
    s.out.length ≤ (loop lib K_chol o k i s).1.out.length := by
  obtain ⟨m, _, _, _, hout, _⟩ := loop_spec lib K_chol o k i s
  rw [hout]
  simp

theorem loop_traced_succ_of_lt (k i : ℕ) (s : LoopState R n LU) (c : Calls R n)
    (h : tested_norm lib K_chol o s.f < 1e-3) :
    loop_traced lib K_chol o (k + 1) i s c
      = (((body lib K_chol o i s).1, Exit.Converged),
          ⟨c.oracle ++ [s.f], c.lu ++ [1 + (o s.f).2 * K_chol.A]⟩) := by
  have h' : (body_traced lib K_chol o i s c).1.2 < 1e-3 := h
  simp only [loop_traced, h', if_true]
  rfl

theorem loop_traced_succ_of_not_lt (k i : ℕ) (s : LoopState R n LU) (c : Calls R n)
    (h : ¬ tested_norm lib K_chol o s.f < 1e-3) :
    loop_traced lib K_chol o (k + 1) i s c
      = loop_traced lib K_chol o k (i + 1) (body lib K_chol o i s).1
          ⟨c.oracle ++ [s.f], c.lu ++ [1 + (o s.f).2 * K_chol.A]⟩ := by
  have h' : ¬ (body_traced lib K_chol o i s c).1.2 < 1e-3 := h
  simp only [loop_traced, h', if_false]
  rfl

/-- Erasing the call record from `loop_traced` gives `loop`; the record grows by one
oracle call and one `lu` call per executed iteration, at the successive iterates. -/
theorem loop_traced_spec (k i : ℕ) (s : LoopState R n LU) (c : Calls R n) :
    (loop_traced lib K_chol o k i s c).1 = loop lib K_chol o k i s ∧
      (loop_traced lib K_chol o k i s c).2.oracle = c.oracle ++
        (List.range ((loop lib K_chol o k i s).1.out.length - s.out.length)).map
          (fun j => (spec_step lib K_chol.A o)^[j] s.f) ∧
      (loop_traced lib K_chol o k i s c).2.lu = c.lu ++
        (List.range ((loop lib K_chol o k i s).1.out.length - s.out.length)).map
          (fun j => 1 + (o ((spec_step lib K_chol.A o)^[j] s.f)).2 * K_chol.A) := by
  induction k generalizing i s c with
  | zero => simp [loop_traced, loop_zero]
  | succ k ih =>
    by_cases h : tested_norm lib K_chol o s.f < 1e-3
    · rw [loop_traced_succ_of_lt lib K_chol o k i s c h, loop_succ_of_lt lib K_chol o k i s h]
      simp [body_out, List.range_succ]
    · rw [loop_traced_succ_of_not_lt lib K_chol o k i s c h,
        loop_succ_of_not_lt lib K_chol o k i s h]
      have hge := loop_out_length_ge lib K_chol o k (i + 1) (body lib K_chol o i s).1
      rw [body_out, List.length_append, List.length_singleton] at hge
      obtain ⟨h1, h2, h3⟩ := ih (i + 1) (body lib K_chol o i s).1
        ⟨c.oracle ++ [s.f], c.lu ++ [1 + (o s.f).2 * K_chol.A]⟩
      have hm : (loop lib K_chol o k (i + 1) (body lib K_chol o i s).1).1.out.length
            - s.out.length
          = ((loop lib K_chol o k (i + 1) (body lib K_chol o i s).1).1.out.length
            - (body lib K_chol o i s).1.out.length) + 1 := by
        rw [body_out, List.length_append, List.length_singleton]
        omega
      refine ⟨h1, ?_, ?_⟩
      · rw [h2, hm, List.range_succ_eq_map, List.map_cons, List.map_map, body_f]
        simp only [List.append_assoc, List.singleton_append, Function.iterate_zero, id_eq]
        rfl
      · rw [h3, hm, List.range_succ_eq_map, List.map_cons, List.map_map, body_f]
        simp only [List.append_assoc, List.singleton_append, Function.iterate_zero, id_eq]
        rfl

theorem laplace_traced_fst (f0 : Fin n → R) (max_iter : ℕ) :
    (laplace_traced lib K_chol f0 o max_iter).1 = laplace_run lib K_chol f0 o max_iter := by
  by_cases h : K_chol._A.det = 0
  · simp [laplace_traced, laplace_run, invert, h]
  · simp [laplace_traced, laplace_run, invert, h, (loop_traced_spec lib K_chol o _ _ _ _).1]

theorem laplace_traced_of_singular (f0 : Fin n → R) (max_iter : ℕ)
    (h : K_chol._A.det = 0) :
    laplace_traced lib K_chol f0 o max_iter
      = (Except.error Error.singular_inversion, ⟨[], []⟩) := by
  simp [laplace_traced, invert, h]

/-- The run and its call record in terms of the number `m` of executed iterations. -/
theorem laplace_traced_spec (f0 : Fin n → R) (max_iter : ℕ) (h : K_chol._A.det ≠ 0) :
    ∃ (s : LoopState R n LU) (e : Exit) (c : Calls R n),
      laplace_traced lib K_chol f0 o max_iter = (Except.ok (s, e), c) ∧
      loop lib K_chol o max_iter 0 ⟨f0, DynamicMatrix.empty, lib.LU0, []⟩ = (s, e) ∧
      c.oracle = (List.range s.out.length).map
        (fun j => (spec_step lib K_chol.A o)^[j] f0) ∧
      c.lu = (List.range s.out.length).map
        (fun j => 1 + (o ((spec_step lib K_chol.A o)^[j] f0)).2 * K_chol.A) := by
  obtain ⟨h1, h2, h3⟩ := loop_traced_spec lib K_chol o max_iter 0
    ⟨f0, DynamicMatrix.empty, lib.LU0, []⟩ ⟨[], []⟩
  refine ⟨(loop lib K_chol o max_iter 0 ⟨f0, DynamicMatrix.empty, lib.LU0, []⟩).1,
    (loop lib K_chol o max_iter 0 ⟨f0, DynamicMatrix.empty, lib.LU0, []⟩).2,
    (loop_traced lib K_chol o max_iter 0 ⟨f0, DynamicMatrix.empty, lib.LU0, []⟩ ⟨[], []⟩).2,
    ?_, rfl, ?_, ?_⟩
  · simp only [laplace_traced, invert, h, if_false, h1]
  · simpa using h2
  · simpa using h3

end TracedLemmas

section TracedClaims
variable {R : Type} [LinearOrderedField R] {n : ℕ} {LU : Type}

/-- The value compared with `1e-3` in an iteration entered at `f`, in closed form: the
norm of `K·(W·(f − f_new))`, where `f_new` is the point the iteration stores. -/
theorem tested_norm_eq (lib : Lib R n LU) (K_chol : Cholesky R n) (o : Oracle R n)
    (f : Fin n → R) :
    tested_norm lib K_chol o f
      = lib.norm (K_chol.A *ᵥ ((o f).2 *ᵥ (f - spec_step lib K_chol.A o f))) := by
  have key : spec_step lib K_chol.A o f
      - K_chol.A *ᵥ (((o f).2 *ᵥ spec_step lib K_chol.A o f + (o f).1)
          - lib.solve (lib.lu (1 + (o f).2 * K_chol.A))
              (((o f).2 * K_chol.A) *ᵥ ((o f).2 *ᵥ f + (o f).1)))
      = K_chol.A *ᵥ ((o f).2 *ᵥ (f - spec_step lib K_chol.A o f)) := by
    have h1 : spec_step lib K_chol.A o f
        = K_chol.A *ᵥ (((o f).2 *ᵥ f + (o f).1)
          - lib.solve (lib.lu (1 + (o f).2 * K_chol.A))
              (((o f).2 * K_chol.A) *ᵥ ((o f).2 *ᵥ f + (o f).1))) := rfl
    nth_rewrite 1 [h1]
    simp only [Matrix.mulVec_sub, Matrix.mulVec_add]
    abel
  exact congrArg lib.norm key

theorem tested_norm_of_fixed (lib : Lib R n LU) (K_chol : Cholesky R n) (o : Oracle R n)
    (f : Fin n → R) (hfix : spec_step lib K_chol.A o f = f) :
    tested_norm lib K_chol o f = lib.norm 0 := by
  rw [tested_norm_eq, hfix, sub_self, Matrix.mulVec_zero, Matrix.mulVec_zero]

/-- How the loop was left, read off the final state. -/
theorem loop_exit_cases (lib : Lib R n LU) (K_chol : Cholesky R n) (o : Oracle R n)
    (k : ℕ) (f0 : Fin n → R) :
    ((loop lib K_chol o k 0 ⟨f0, DynamicMatrix.empty, lib.LU0, []⟩).1.out.length ≤ k) ∧
      ((loop lib K_chol o k 0 ⟨f0, DynamicMatrix.empty, lib.LU0, []⟩).2 = Exit.Converged →
        ∃ p, (loop lib K_chol o k 0 ⟨f0, DynamicMatrix.empty, lib.LU0, []⟩).1.out.getLast?
          = some p ∧ p.2 < 1e-3) ∧
      ((loop lib K_chol o k 0 ⟨f0, DynamicMatrix.empty, lib.LU0, []⟩).2
          = Exit.MaxIterExhausted →
        (loop lib K_chol o k 0 ⟨f0, DynamicMatrix.empty, lib.LU0, []⟩).1.out.length = k) := by
  obtain ⟨m, hm, _, _, hout, _, hconv, hexh, _, _⟩ :=
    loop_spec lib K_chol o k 0 ⟨f0, DynamicMatrix.empty, lib.LU0, []⟩
  simp only [List.nil_append, zero_add] at hout hconv hexh
  have hlen : (loop lib K_chol o k 0 ⟨f0, DynamicMatrix.empty, lib.LU0, []⟩).1.out.length
      = m := by rw [hout]; simp
  refine ⟨by omega, ?_, ?_⟩
  · intro hc
    obtain ⟨h1, h2⟩ := hconv.mp hc
    obtain ⟨m', rfl⟩ : ∃ m', m = m' + 1 := ⟨m - 1, by omega⟩
    refine ⟨(m', tested_norm lib K_chol o ((spec_step lib K_chol.A o)^[m'] f0)), ?_, ?_⟩
    · rw [hout, getLast?_map_range]
    · simpa using h2
  · intro he
    rw [hlen]
    exact (hexh.mp he).1

/-- The state the loop leaves after `m = out.length` iterations. -/
theorem loop_final_state (lib : Lib R n LU) (K_chol : Cholesky R n) (o : Oracle R n)
    (k : ℕ) (f0 : Fin n → R) (s : LoopState R n LU) (e : Exit)
    (h : loop lib K_chol o k 0 ⟨f0, DynamicMatrix.empty, lib.LU0, []⟩ = (s, e)) :
    s.f = (spec_step lib K_chol.A o)^[s.out.length] f0 ∧
      (1 ≤ k → 1 ≤ s.out.length) ∧
      (s.out.length = 0 → s = ⟨f0, DynamicMatrix.empty, lib.LU0, []⟩) ∧
      (∀ j, j + 1 < s.out.length →
        ¬ tested_norm lib K_chol o ((spec_step lib K_chol.A o)^[j] f0) < 1e-3) ∧
      (1 ≤ s.out.length →
        s.WK = DynamicMatrix.ofMatrix
            ((o ((spec_step lib K_chol.A o)^[s.out.length - 1] f0)).2 * K_chol.A) ∧
        s.Blu = lib.lu
            (1 + (o ((spec_step lib K_chol.A o)^[s.out.length - 1] f0)).2 * K_chol.A)) := by
  obtain ⟨m, _, h1, hf, hout, hbefore, _, _, h0, hlast⟩ :=
    loop_spec lib K_chol o k 0 ⟨f0, DynamicMatrix.empty, lib.LU0, []⟩
  rw [h] at hf hout h0 hlast
  simp only [List.nil_append] at hout hf hbefore h0 hlast
  have hlen : s.out.length = m := by rw [hout]; simp
  rw [hlen]
  exact ⟨hf, h1, h0, hbefore, hlast⟩

/-- C16: with `f_prev` the point before the update, `f_new` the point stored at line 79 and
`W` the oracle's negative Hessian at `f_prev`, the value printed and compared with `1e-3`
is `‖K·W·(f_prev − f_new)‖` (the expression `delta_f` is evaluated after `f` has been
overwritten), while the point stored into `f` is
`K·((W·f_prev + g) − solve(lu(I + W·K), W·K·(W·f_prev + g)))`. -/
theorem laplace_test_evaluated_after_update (lib : Lib R n LU) (K_chol : Cholesky R n)
    (o : Oracle R n) (k i : ℕ) (s : LoopState R n LU) :
    (body lib K_chol o i s).1.f =
        K_chol.A *ᵥ (((o s.f).2 *ᵥ s.f + (o s.f).1) -
          lib.solve (lib.lu (1 + (o s.f).2 * K_chol.A))
            (((o s.f).2 * K_chol.A) *ᵥ ((o s.f).2 *ᵥ s.f + (o s.f).1))) ∧
      (body lib K_chol o i s).2
        = lib.norm ((K_chol.A * (o s.f).2) *ᵥ (s.f - (body lib K_chol o i s).1.f)) ∧
      (body lib K_chol o i s).1.out = s.out ++
        [(i, lib.norm ((K_chol.A * (o s.f).2) *ᵥ (s.f - (body lib K_chol o i s).1.f)))] ∧
      loop lib K_chol o (k + 1) i s =
        (if lib.norm ((K_chol.A * (o s.f).2) *ᵥ (s.f - (body lib K_chol o i s).1.f)) < 1e-3
          then ((body lib K_chol o i s).1, Exit.Converged)
          else loop lib K_chol o k (i + 1) (body lib K_chol o i s).1) := by
  have hn : (body lib K_chol o i s).2
      = lib.norm ((K_chol.A * (o s.f).2) *ᵥ (s.f - (body lib K_chol o i s).1.f)) := by
    rw [body_norm, tested_norm_eq, body_f, Matrix.mulVec_mulVec]
  refine ⟨rfl, hn, ?_, ?_⟩
  · rw [body_out, ← body_norm lib K_chol o i s, hn]
  · rw [← hn]
    rfl

/-- C11: for every input the loop body runs at most `max_iter` times (`20` when the argument
is omitted); the oracle and `usvg::lu` are each called exactly once per executed iteration,
`lu` on the matrix `I + W·K` freshly built from that iteration's oracle output; and the loop
ends only by the norm test succeeding or by reaching `max_iter`. -/
theorem laplace_iteration_bound (lib : Lib R n LU) (K_chol : Cholesky R n)
    (f0 : Fin n → R) (o : Oracle R n) (max_iter : ℕ) :
    (laplace_traced lib K_chol f0 o max_iter).2.oracle.length ≤ max_iter ∧
      (laplace_traced lib K_chol f0 o max_iter).2.lu
        = (laplace_traced lib K_chol f0 o max_iter).2.oracle.map
            (fun p => 1 + (o p).2 * K_chol.A) ∧
      laplace_traced lib K_chol f0 o = laplace_traced lib K_chol f0 o 20 ∧
      (laplace_traced lib K_chol f0 o max_iter).1 = laplace_run lib K_chol f0 o max_iter ∧
      (∀ s e, laplace_run lib K_chol f0 o max_iter = Except.ok (s, e) →
        s.out.length = (laplace_traced lib K_chol f0 o max_iter).2.oracle.length ∧
        s.out.length ≤ max_iter ∧
        (e = Exit.Converged → ∃ p, s.out.getLast? = some p ∧ p.2 < 1e-3) ∧
        (e = Exit.MaxIterExhausted → s.out.length = max_iter)) := by
  by_cases hdet : K_chol._A.det = 0
  · rw [laplace_traced_of_singular lib K_chol o f0 max_iter hdet]
    refine ⟨by simp, by simp, rfl, ?_, ?_⟩
    · simp [laplace_run, invert, hdet]
    · intro s e h
      simp [laplace_run, invert, hdet] at h
  · obtain ⟨s, e, c, ht, hl, hco, hcl⟩ := laplace_traced_spec lib K_chol o f0 max_iter hdet
    obtain ⟨hle, hconv, hexh⟩ := loop_exit_cases lib K_chol o max_iter f0
    rw [hl] at hle hconv hexh
    have hrun := laplace_traced_fst lib K_chol o f0 max_iter
    rw [ht] at hrun ⊢
    simp only at hrun ⊢
    refine ⟨?_, ?_, trivial, hrun, ?_⟩
    · rw [hco]; simpa using hle
    · rw [hco, hcl, List.map_map]; rfl
    · intro s' e' h'
      rw [← hrun] at h'
      obtain ⟨rfl, rfl⟩ : s = s' ∧ e = e' := by simpa using h'
      refine ⟨by rw [hco]; simp, hle, hconv, hexh⟩

end TracedClaims

section TracedClaims2
variable {R : Type} [LinearOrderedField R] {n : ℕ} {LU : Type}

/-- A traced run whose first test succeeds: one oracle call, at the starting point. -/
theorem laplace_traced_first_stop (lib : Lib R n LU) (K_chol : Cholesky R n)
    (o : Oracle R n) (f0 : Fin n → R) (k : ℕ) (hdet : K_chol._A.det ≠ 0)
    (h : tested_norm lib K_chol o f0 < 1e-3) :
    laplace_traced lib K_chol f0 o (k + 1) = (Except.ok
      (⟨spec_step lib K_chol.A o f0, DynamicMatrix.ofMatrix ((o f0).2 * K_chol.A),
        lib.lu (1 + (o f0).2 * K_chol.A), [(0, tested_norm lib K_chol o f0)]⟩,
       Exit.Converged), ⟨[f0], [1 + (o f0).2 * K_chol.A]⟩) := by
  simp only [laplace_traced, invert, hdet, if_false,
    loop_traced_succ_of_lt lib K_chol o k 0 ⟨f0, DynamicMatrix.empty, lib.LU0, []⟩ ⟨[], []⟩ h]
  rfl

/-- A traced run whose first test fails and whose second test succeeds: two oracle calls,
at the starting point and at the first iterate. -/
theorem laplace_traced_second_stop (lib : Lib R n LU) (K_chol : Cholesky R n)
    (o : Oracle R n) (f0 : Fin n → R) (k : ℕ) (hdet : K_chol._A.det ≠ 0)
    (h0 : ¬ tested_norm lib K_chol o f0 < 1e-3)
    (h1 : tested_norm lib K_chol o (spec_step lib K_chol.A o f0) < 1e-3) :
    laplace_traced lib K_chol f0 o (k + 2) = (Except.ok
      (⟨spec_step lib K_chol.A o (spec_step lib K_chol.A o f0),
        DynamicMatrix.ofMatrix ((o (spec_step lib K_chol.A o f0)).2 * K_chol.A),
        lib.lu (1 + (o (spec_step lib K_chol.A o f0)).2 * K_chol.A),
        [(0, tested_norm lib K_chol o f0),
         (1, tested_norm lib K_chol o (spec_step lib K_chol.A o f0))]⟩,
       Exit.Converged),
      ⟨[f0, spec_step lib K_chol.A o f0],
       [1 + (o f0).2 * K_chol.A, 1 + (o (spec_step lib K_chol.A o f0)).2 * K_chol.A]⟩) := by
  simp only [laplace_traced, invert, hdet, if_false]
  rw [loop_traced_succ_of_not_lt lib K_chol o (k + 1) 0
      ⟨f0, DynamicMatrix.empty, lib.LU0, []⟩ ⟨[], []⟩ h0,
    loop_traced_succ_of_lt lib K_chol o k 1
      (body lib K_chol o 0 ⟨f0, DynamicMatrix.empty, lib.LU0, []⟩).1 _ h1]
  rfl

theorem det_ne_zero_of_traced_ok (lib : Lib R n LU) (K_chol : Cholesky R n)
    (o : Oracle R n) (f0 : Fin n → R) (max_iter : ℕ) (s : LoopState R n LU) (e : Exit)
    (c : Calls R n) (h : laplace_traced lib K_chol f0 o max_iter = (Except.ok (s, e), c)) :
    K_chol._A.det ≠ 0 := by
  intro hdet
  rw [laplace_traced_of_singular lib K_chol o f0 max_iter hdet] at h
  simp at h

/-- C13 (amended): the returned `WK` and LU object are those of the last executed
iteration, `WK = W(p)·K` and `lu(I + W(p)·K)` with `p` the input point of that iteration
(`f0` if one iteration ran, otherwise the penultimate iterate), and the returned `f` is the
image of `p` under the step.  The oracle is evaluated exactly at the iterates that precede
the returned one, the last of them `p`, and not again after the last update. -/
theorem laplace_returns_last_iteration_factors (lib : Lib R n LU) (K_chol : Cholesky R n)
    (f0 : Fin n → R) (o : Oracle R n) (max_iter : ℕ) (s : LoopState R n LU) (e : Exit)
    (c : Calls R n) (h : laplace_traced lib K_chol f0 o max_iter = (Except.ok (s, e), c)) :
    laplace_approximation lib K_chol f0 o max_iter = Except.ok (s.f, s.WK, s.Blu) ∧
      s.f = (spec_step lib K_chol.A o)^[s.out.length] f0 ∧
      c.oracle = (List.range s.out.length).map
        (fun j => (spec_step lib K_chol.A o)^[j] f0) ∧
      (1 ≤ max_iter → 1 ≤ s.out.length) ∧
      (1 ≤ s.out.length →
        c.oracle.getLast? = some ((spec_step lib K_chol.A o)^[s.out.length - 1] f0) ∧
        s.f = spec_step lib K_chol.A o
          ((spec_step lib K_chol.A o)^[s.out.length - 1] f0) ∧
        s.WK = DynamicMatrix.ofMatrix
          ((o ((spec_step lib K_chol.A o)^[s.out.length - 1] f0)).2 * K_chol.A) ∧
        s.Blu = lib.lu
          (1 + (o ((spec_step lib K_chol.A o)^[s.out.length - 1] f0)).2 * K_chol.A)) ∧
      (s.out.length = 1 → (spec_step lib K_chol.A o)^[s.out.length - 1] f0 = f0) := by
  have hdet := det_ne_zero_of_traced_ok lib K_chol o f0 max_iter s e c h
  obtain ⟨s', e', c', ht, hl, hco, _⟩ := laplace_traced_spec lib K_chol o f0 max_iter hdet
  rw [h] at ht
  obtain ⟨⟨rfl, rfl⟩, rfl⟩ : (s = s' ∧ e = e') ∧ c = c' := by simpa using ht
  obtain ⟨hf, h1, _, _, hlast⟩ := loop_final_state lib K_chol o max_iter f0 s e hl
  have hrun : laplace_run lib K_chol f0 o max_iter = Except.ok (s, e) := by
    rw [laplace_run_eq_ok lib K_chol o f0 max_iter hdet, hl]
  refine ⟨laplace_approximation_of_run lib K_chol o f0 max_iter s e hrun, hf, hco, h1, ?_, ?_⟩
  · intro hm
    obtain ⟨m', hm'⟩ : ∃ m', s.out.length = m' + 1 := ⟨s.out.length - 1, by omega⟩
    obtain ⟨hw, hb⟩ := hlast hm
    refine ⟨?_, ?_, hw, hb⟩
    · rw [hco, hm', getLast?_map_range]
      simp
    · rw [hf]
      nth_rewrite 1 [hm']
      rw [Function.iterate_succ_apply']
      simp [hm']
  · intro h1'
    rw [h1']
    rfl

/-- C17: with `max_iter = 0` (and the inversion of lines 56-57 not throwing)
`laplace_approximation` makes no oracle call and no `lu` call, prints nothing, and returns
the starting point `f0` with the empty `0 × 0` matrix and the default-constructed LU object;
in positive dimension the returned `WK` is therefore not `W·K` for any `n × n` matrix `W`. -/
theorem laplace_zero_iterations (lib : Lib R n LU) (K_chol : Cholesky R n)
    (f0 : Fin n → R) (o : Oracle R n) (hdet : K_chol._A.det ≠ 0) (hn : 0 < n) :
    laplace_traced lib K_chol f0 o 0 = (Except.ok
        (⟨f0, DynamicMatrix.empty, lib.LU0, []⟩, Exit.MaxIterExhausted), ⟨[], []⟩) ∧
      laplace_approximation lib K_chol f0 o 0
        = Except.ok (f0, DynamicMatrix.empty, lib.LU0) ∧
      (DynamicMatrix.empty : DynamicMatrix R).rows = 0 ∧
      (DynamicMatrix.empty : DynamicMatrix R).columns = 0 ∧
      ∀ W : Matrix (Fin n) (Fin n) R,
        (DynamicMatrix.empty : DynamicMatrix R) ≠ DynamicMatrix.ofMatrix (W * K_chol.A) := by
  refine ⟨?_, ?_, rfl, rfl, ?_⟩
  · simp only [laplace_traced, invert, hdet, if_false, loop_traced]
  · simp only [laplace_approximation, laplace_run, invert, hdet, if_false, loop]
  · intro W hW
    have hrows := congrArg DynamicMatrix.rows hW
    simp only [DynamicMatrix.empty, DynamicMatrix.ofMatrix] at hrows
    omega

end TracedClaims2

/-- C13 (counterexample): started at the fixed point `1` of the step for the prior `(1)`
and the log-likelihood `2 f − f^2 / 2`, the run makes a single oracle call, at the point
`1`, and returns the mode `1`: the oracle has been evaluated at the returned mode, and the
returned `WK` is `W(f)·K` for the returned `f`. -/
theorem laplace_oracle_called_at_returned_mode :
    (laplace_approximation exactLib1 unit_prior (fun _ => 1) quadratic_oracle 20).map
        Prod.fst = Except.ok (fun _ => 1) ∧
      (laplace_traced exactLib1 unit_prior (fun _ => 1) quadratic_oracle 20).2.oracle
        = [fun _ => 1] ∧
      (laplace_approximation exactLib1 unit_prior (fun _ => 1) quadratic_oracle 20).map
          (fun t => t.2.1)
        = Except.ok (DynamicMatrix.ofMatrix
            ((quadratic_oracle (fun _ => 1)).2 * unit_prior.A)) := by
  have hA : tested_norm exactLib1 unit_prior quadratic_oracle (fun _ => 1) < 1e-3 := by
    rw [tested_norm_quadratic]; norm_num
  have hrun := laplace_run_first_stop exactLib1 unit_prior quadratic_oracle (fun _ => 1) 19
    unit_prior_det hA
  have happ := laplace_approximation_of_run _ _ _ _ _ _ _ hrun
  have htr := laplace_traced_first_stop exactLib1 unit_prior quadratic_oracle (fun _ => 1) 19
    unit_prior_det hA
  refine ⟨?_, ?_, ?_⟩
  · rw [happ]
    simp only [Except.map, spec_step_quadratic]
  · rw [htr]
  · rw [happ]
    rfl

theorem laplace_returns_last_iteration_factors_witness :
    laplace_approximation exactLib1 unit_prior (fun _ => 0) quadratic_oracle 20
        = Except.ok
          (spec_step exactLib1 unit_prior.A quadratic_oracle
            (spec_step exactLib1 unit_prior.A quadratic_oracle (fun _ => 0)),
           DynamicMatrix.ofMatrix ((quadratic_oracle
              (spec_step exactLib1 unit_prior.A quadratic_oracle (fun _ => 0))).2
                * unit_prior.A),
           exactLib1.lu (1 + (quadratic_oracle
              (spec_step exactLib1 unit_prior.A quadratic_oracle (fun _ => 0))).2
                * unit_prior.A)) :=
  (laplace_returns_last_iteration_factors exactLib1 unit_prior (fun _ => 0)
    quadratic_oracle 20
    ⟨spec_step exactLib1 unit_prior.A quadratic_oracle
        (spec_step exactLib1 unit_prior.A quadratic_oracle (fun _ => 0)),
      DynamicMatrix.ofMatrix ((quadratic_oracle
        (spec_step exactLib1 unit_prior.A quadratic_oracle (fun _ => 0))).2 * unit_prior.A),
      exactLib1.lu (1 + (quadratic_oracle
        (spec_step exactLib1 unit_prior.A quadratic_oracle (fun _ => 0))).2 * unit_prior.A),
      [(0, tested_norm exactLib1 unit_prior quadratic_oracle (fun _ => 0)),
       (1, tested_norm exactLib1 unit_prior quadratic_oracle
          (spec_step exactLib1 unit_prior.A quadratic_oracle (fun _ => 0)))]⟩
    Exit.Converged
    ⟨[fun _ => 0, spec_step exactLib1 unit_prior.A quadratic_oracle (fun _ => 0)],
     [1 + (quadratic_oracle (fun _ => 0)).2 * unit_prior.A,
      1 + (quadratic_oracle
        (spec_step exactLib1 unit_prior.A quadratic_oracle (fun _ => 0))).2 * unit_prior.A]⟩
    (laplace_traced_second_stop exactLib1 unit_prior quadratic_oracle (fun _ => 0) 18
      unit_prior_det (by rw [tested_norm_quadratic]; norm_num)
      (by rw [tested_norm_quadratic, spec_step_quadratic]; norm_num))).1

theorem laplace_zero_iterations_witness :
    laplace_approximation exactLib1 unit_prior (fun _ => 0) quadratic_oracle 0
      = Except.ok (fun _ => 0, DynamicMatrix.empty, exactLib1.LU0) :=
  (laplace_zero_iterations exactLib1 unit_prior (fun _ => 0) quadratic_oracle
    unit_prior_det (by norm_num)).2.1

section FixedPoints
variable {R : Type} [LinearOrderedField R] {n : ℕ} {LU : Type}

/-- A traced run with `max_iter = 1` whose only test fails. -/
theorem laplace_traced_one_exhausted (lib : Lib R n LU) (K_chol : Cholesky R n)
    (o : Oracle R n) (f0 : Fin n → R) (hdet : K_chol._A.det ≠ 0)
    (h : ¬ tested_norm lib K_chol o f0 < 1e-3) :
    laplace_traced lib K_chol f0 o 1 = (Except.ok
      (⟨spec_step lib K_chol.A o f0, DynamicMatrix.ofMatrix ((o f0).2 * K_chol.A),
        lib.lu (1 + (o f0).2 * K_chol.A), [(0, tested_norm lib K_chol o f0)]⟩,
       Exit.MaxIterExhausted), ⟨[f0], [1 + (o f0).2 * K_chol.A]⟩) := by
  simp only [laplace_traced, invert, hdet, if_false]
  rw [loop_traced_succ_of_not_lt lib K_chol o 0 0
      ⟨f0, DynamicMatrix.empty, lib.LU0, []⟩ ⟨[], []⟩ h]
  rfl

theorem laplace_approximation_of_traced (lib : Lib R n LU) (K_chol : Cholesky R n)
    (o : Oracle R n) (f0 : Fin n → R) (max_iter : ℕ) (s : LoopState R n LU) (e : Exit)
    (c : Calls R n) (h : laplace_traced lib K_chol f0 o max_iter = (Except.ok (s, e), c)) :
    laplace_approximation lib K_chol f0 o max_iter = Except.ok (s.f, s.WK, s.Blu) := by
  have hrun := laplace_traced_fst lib K_chol o f0 max_iter
  rw [h] at hrun
  exact laplace_approximation_of_run lib K_chol o f0 max_iter s e hrun.symm

/-- With exact solves, a point is fixed by the step exactly when the gradient there is
`K⁻¹·f`. -/
theorem spec_step_fixed_iff (lib : Lib R n LU) (K : Matrix (Fin n) (Fin n) R)
    (o : Oracle R n) (f : Fin n → R) (hK : IsUnit K.det)
    (hB : IsUnit (1 + (o f).2 * K).det)
    (hsolve : ∀ v, lib.solve (lib.lu (1 + (o f).2 * K)) v = (1 + (o f).2 * K)⁻¹ *ᵥ v) :
    spec_step lib K o f = f ↔ (o f).1 = K⁻¹ *ᵥ f := by
  obtain ⟨hu, hstep⟩ := spec_step_eq_newton lib o K f hK hB hsolve
  rw [hstep]
  constructor
  · intro h
    have h2 := congrArg (fun v => (K⁻¹ + (o f).2) *ᵥ v) h
    simp only [Matrix.mulVec_mulVec, Matrix.mul_nonsing_inv _ hu, Matrix.one_mulVec,
      Matrix.add_mulVec] at h2
    have h3 : (o f).2 *ᵥ f + (o f).1 = (o f).2 *ᵥ f + K⁻¹ *ᵥ f := by
      rw [h2]; abel
    exact add_left_cancel h3
  · intro h
    have h2 : (o f).2 *ᵥ f + K⁻¹ *ᵥ f = (K⁻¹ + (o f).2) *ᵥ f := by
      rw [Matrix.add_mulVec, add_comm]
    rw [h, h2, Matrix.mulVec_mulVec, Matrix.nonsing_inv_mul _ hu, Matrix.one_mulVec]

/-- C14: for invertible `K`, with `I + W·K` invertible and exact solve, one iteration
maps `f0` to itself if and only if the oracle's gradient at `f0` is `K⁻¹·f0`; started at
such a point with `max_iter ≥ 1`, the function makes a single oracle call (at `f0`),
prints norm `0`, leaves the loop by the test and returns `f0`. -/
theorem laplace_fixed_point_iff_stationary (lib : Lib R n LU) (K_chol : Cholesky R n)
    (f0 : Fin n → R) (o : Oracle R n) (max_iter : ℕ)
    (hK : IsUnit K_chol.A.det) (hB : IsUnit (1 + (o f0).2 * K_chol.A).det)
    (hsolve : ∀ v, lib.solve (lib.lu (1 + (o f0).2 * K_chol.A)) v
      = (1 + (o f0).2 * K_chol.A)⁻¹ *ᵥ v)
    (hnorm : lib.norm 0 = 0) (hdet : K_chol._A.det ≠ 0) (hmax : 1 ≤ max_iter) :
    ((body lib K_chol o 0 ⟨f0, DynamicMatrix.empty, lib.LU0, []⟩).1.f = f0
        ↔ (o f0).1 = K_chol.A⁻¹ *ᵥ f0) ∧
      ((o f0).1 = K_chol.A⁻¹ *ᵥ f0 →
        laplace_traced lib K_chol f0 o max_iter = (Except.ok
          (⟨f0, DynamicMatrix.ofMatrix ((o f0).2 * K_chol.A),
            lib.lu (1 + (o f0).2 * K_chol.A), [(0, 0)]⟩, Exit.Converged),
          ⟨[f0], [1 + (o f0).2 * K_chol.A]⟩) ∧
        laplace_approximation lib K_chol f0 o max_iter = Except.ok
          (f0, DynamicMatrix.ofMatrix ((o f0).2 * K_chol.A),
            lib.lu (1 + (o f0).2 * K_chol.A))) := by
  have hiff := spec_step_fixed_iff lib K_chol.A o f0 hK hB hsolve
  refine ⟨by rw [body_f]; exact hiff, ?_⟩
  intro hg
  have hfix := hiff.mpr hg
  have ht : tested_norm lib K_chol o f0 = 0 := by
    rw [tested_norm_of_fixed lib K_chol o f0 hfix, hnorm]
  obtain ⟨k, rfl⟩ : ∃ k, max_iter = k + 1 := ⟨max_iter - 1, by omega⟩
  have htr := laplace_traced_first_stop lib K_chol o f0 k hdet (by rw [ht]; norm_num)
  rw [hfix, ht] at htr
  exact ⟨htr, laplace_approximation_of_traced lib K_chol o f0 (k + 1) _ _ _ htr⟩

/-- C15: for a quadratic log-likelihood (constant negative Hessian `W`, gradient
`c − W·f`), with `K` and `I + W·K` invertible and exact solve, for every starting point and
every `max_iter ≥ 1` the function returns `(K⁻¹ + W)⁻¹·c`; it runs one or two iterations
and makes one oracle call per iteration, so at most two. -/
theorem laplace_quadratic_exact (lib : Lib R n LU) (K_chol : Cholesky R n)
    (W : Matrix (Fin n) (Fin n) R) (c f0 : Fin n → R) (max_iter : ℕ)
    (hK : IsUnit K_chol.A.det) (hB : IsUnit (1 + W * K_chol.A).det)
    (hsolve : ∀ v, lib.solve (lib.lu (1 + W * K_chol.A)) v = (1 + W * K_chol.A)⁻¹ *ᵥ v)
    (hnorm : lib.norm 0 = 0) (hdet : K_chol._A.det ≠ 0) (hmax : 1 ≤ max_iter) :
    ∃ (s : LoopState R n LU) (e : Exit) (calls : Calls R n),
      laplace_traced lib K_chol f0 (fun f => (c - W *ᵥ f, W)) max_iter
        = (Except.ok (s, e), calls) ∧
      laplace_approximation lib K_chol f0 (fun f => (c - W *ᵥ f, W)) max_iter
        = Except.ok ((K_chol.A⁻¹ + W)⁻¹ *ᵥ c, s.WK, s.Blu) ∧
      s.f = (K_chol.A⁻¹ + W)⁻¹ *ᵥ c ∧
      1 ≤ s.out.length ∧ s.out.length ≤ 2 ∧
      calls.oracle.length = s.out.length ∧ calls.oracle.length ≤ 2 := by
  have hstep : ∀ f, spec_step lib K_chol.A (fun f => (c - W *ᵥ f, W)) f
      = (K_chol.A⁻¹ + W)⁻¹ *ᵥ c := by
    intro f
    have h := (spec_step_eq_newton lib (fun f => (c - W *ᵥ f, W)) K_chol.A f hK hB hsolve).2
    rw [h]
    simp
  have hfixed : tested_norm lib K_chol (fun f => (c - W *ᵥ f, W))
      ((K_chol.A⁻¹ + W)⁻¹ *ᵥ c) < 1e-3 := by
    rw [tested_norm_of_fixed lib K_chol _ _ (hstep _), hnorm]
    norm_num
  obtain ⟨k, rfl⟩ : ∃ k, max_iter = k + 1 := ⟨max_iter - 1, by omega⟩
  by_cases h0 : tested_norm lib K_chol (fun f => (c - W *ᵥ f, W)) f0 < 1e-3
  · have htr := laplace_traced_first_stop lib K_chol _ f0 k hdet h0
    have happ := laplace_approximation_of_traced lib K_chol _ f0 (k + 1) _ _ _ htr
    simp only [hstep] at htr happ
    exact ⟨_, _, _, htr, happ, rfl, by simp, by simp, by simp, by simp⟩
  · cases k with
    | zero =>
      have htr := laplace_traced_one_exhausted lib K_chol _ f0 hdet h0
      have happ := laplace_approximation_of_traced lib K_chol _ f0 1 _ _ _ htr
      simp only [hstep] at htr happ
      exact ⟨_, _, _, htr, happ, rfl, by simp, by simp, by simp, by simp⟩
    | succ k =>
      have htr := laplace_traced_second_stop lib K_chol _ f0 k hdet h0
        (by rw [hstep]; exact hfixed)
      have happ := laplace_approximation_of_traced lib K_chol _ f0 (k + 2) _ _ _ htr
      simp only [hstep] at htr happ
      exact ⟨_, _, _, htr, happ, rfl, by simp, by simp, by simp, by simp⟩

end FixedPoints

theorem exactLib1_norm_zero : exactLib1.norm 0 = 0 := by
  simp [exactLib1, exactLib]

theorem exactLib2_norm_zero : exactLib2.norm 0 = 0 := by
  simp [exactLib2, exactLib]

theorem laplace_fixed_point_iff_stationary_witness :
    laplace_approximation exactLib1 unit_prior (fun _ => 1) quadratic_oracle 20
      = Except.ok (fun _ => 1,
          DynamicMatrix.ofMatrix ((quadratic_oracle (fun _ => 1)).2 * unit_prior.A),
          exactLib1.lu (1 + (quadratic_oracle (fun _ => 1)).2 * unit_prior.A)) :=
  ((laplace_fixed_point_iff_stationary exactLib1 unit_prior (fun _ => 1) quadratic_oracle 20
    (by simp [unit_prior])
    (by simp [unit_prior, quadratic_oracle, Matrix.det_fin_one])
    (fun v => exactLib_solve _ _ v)
    exactLib1_norm_zero unit_prior_det (by norm_num)).2
    (by
      show (fun _ => (2 : ℚ) - 1) = (1 : Matrix (Fin 1) (Fin 1) ℚ)⁻¹ *ᵥ (fun _ => 1)
      rw [inv_one, Matrix.one_mulVec]
      funext _
      norm_num)).2

theorem laplace_quadratic_exact_witness :
    ∃ (s : LoopState ℚ 2 (Matrix (Fin 2) (Fin 2) ℚ)) (e : Exit) (calls : Calls ℚ 2),
      laplace_traced exactLib2 prior2 (fun _ => 0)
          (fun f => ((fun _ => 1) - !![1, 1; 1, 3] *ᵥ f, !![1, 1; 1, 3])) 20
        = (Except.ok (s, e), calls) ∧
      laplace_approximation exactLib2 prior2 (fun _ => 0)
          (fun f => ((fun _ => 1) - !![1, 1; 1, 3] *ᵥ f, !![1, 1; 1, 3])) 20
        = Except.ok ((prior2.A⁻¹ + !![1, 1; 1, 3])⁻¹ *ᵥ (fun _ => 1), s.WK, s.Blu) ∧
      s.f = (prior2.A⁻¹ + !![1, 1; 1, 3])⁻¹ *ᵥ (fun _ => 1) ∧
      1 ≤ s.out.length ∧ s.out.length ≤ 2 ∧
      calls.oracle.length = s.out.length ∧ calls.oracle.length ≤ 2 :=
  laplace_quadratic_exact exactLib2 prior2 !![1, 1; 1, 3] (fun _ => 1) (fun _ => 0) 20
    (by simp [prior2, Matrix.det_fin_two]; norm_num)
    (by simp [prior2, Matrix.det_fin_two]; norm_num)
    (fun v => exactLib_solve _ _ v)
    exactLib2_norm_zero
    (by simp [prior2, Matrix.det_fin_two]; norm_num)
    (by norm_num)

end usvg

namespace usdg
open Finset

/-! ### Moments of the table -/

theorem sum_w_x2 :
    ∑ i ∈ range 32, gauss_hermite.w.getD i 0 * gauss_hermite.x.getD i 0 ^ 2
      = 11077836568159467958156171528436143825568638698943973625884397709001
        / 12500000000000000000000000000000000000000000000000000000000000000000 := by
  simp only [Finset.sum_range_succ, Finset.sum_range_zero, gauss_hermite.w, gauss_hermite.x,
    List.getD_cons_zero, List.getD_cons_succ]
  norm_num

theorem sum_w_x3 :
    ∑ i ∈ range 32, gauss_hermite.w.getD i 0 * gauss_hermite.x.getD i 0 ^ 3 = 0 := by
  simp only [Finset.sum_range_succ, Finset.sum_range_zero, gauss_hermite.w, gauss_hermite.x,
    List.getD_cons_zero, List.getD_cons_succ]
  norm_num

theorem gauss_hermite_cubic {R : Type} [Field R] [CharZero R] (a0 a1 a2 a3 : R) :
    gauss_hermite (fun t => a0 + a1 * t + a2 * t ^ 2 + a3 * t ^ 3) = some
      (a0 * ((∑ i ∈ range 32, gauss_hermite.w.getD i 0 : ℚ) : R)
        + a1 * ((∑ i ∈ range 32,
            gauss_hermite.w.getD i 0 * gauss_hermite.x.getD i 0 : ℚ) : R)
        + a2 * ((∑ i ∈ range 32,
            gauss_hermite.w.getD i 0 * gauss_hermite.x.getD i 0 ^ 2 : ℚ) : R)
        + a3 * ((∑ i ∈ range 32,
            gauss_hermite.w.getD i 0 * gauss_hermite.x.getD i 0 ^ 3 : ℚ) : R)) := by
  rw [gauss_hermite_eq_sum, Rat.cast_sum, Rat.cast_sum, Rat.cast_sum, Rat.cast_sum,
    Finset.mul_sum, Finset.mul_sum, Finset.mul_sum, Finset.mul_sum,
    ← Finset.sum_add_distrib, ← Finset.sum_add_distrib, ← Finset.sum_add_distrib]
  congr 1
  apply Finset.sum_congr rfl
  intro i _
  push_cast
  ring

theorem sqrt_pi_bounds :
    (1.7724538509 : ℝ) ≤ Real.sqrt Real.pi ∧ Real.sqrt Real.pi ≤ (1.7724538510 : ℝ) := by
  have hlo := Real.pi_gt_d20
  have hhi := Real.pi_lt_d20
  constructor
  · rw [Real.le_sqrt' (by norm_num)]
    norm_num at hlo ⊢
    linarith
  · rw [Real.sqrt_le_left (by norm_num)]
    norm_num at hhi ⊢
    linarith

theorem sum_w_close_sqrt_pi :
    |((∑ i ∈ range 32, gauss_hermite.w.getD i 0 : ℚ) : ℝ) - Real.sqrt Real.pi|
      ≤ 1e-9 * Real.sqrt Real.pi := by
  obtain ⟨h1, h2⟩ := sqrt_pi_bounds
  rw [sum_w, abs_le]
  push_cast
  constructor <;> norm_num at h1 h2 ⊢ <;> linarith

theorem sum_w_x2_close_half_sqrt_pi :
    |((∑ i ∈ range 32,
        gauss_hermite.w.getD i 0 * gauss_hermite.x.getD i 0 ^ 2 : ℚ) : ℝ)
        - Real.sqrt Real.pi / 2|
      ≤ 1e-9 * (Real.sqrt Real.pi / 2) := by
  obtain ⟨h1, h2⟩ := sqrt_pi_bounds
  rw [sum_w_x2, abs_le]
  push_cast
  constructor <;> norm_num at h1 h2 ⊢ <;> linarith

/-- The rule on a cubic: the odd terms vanish and the result is within relative error
`1e-9` of `√π·(a0 + a2/2)`, the exact integral against `e^{-x²}`. -/
theorem gauss_hermite_cubic_close (a0 a1 a2 a3 : ℝ) :
    ∃ u : ℝ, gauss_hermite (fun t => a0 + a1 * t + a2 * t ^ 2 + a3 * t ^ 3) = some u ∧
      u = a0 * ((∑ i ∈ range 32, gauss_hermite.w.getD i 0 : ℚ) : ℝ)
        + a2 * ((∑ i ∈ range 32,
            gauss_hermite.w.getD i 0 * gauss_hermite.x.getD i 0 ^ 2 : ℚ) : ℝ) ∧
      |u - Real.sqrt Real.pi * (a0 + a2 / 2)|
        ≤ 1e-9 * Real.sqrt Real.pi * (|a0| + |a2| / 2) := by
  refine ⟨_, gauss_hermite_cubic a0 a1 a2 a3, ?_, ?_⟩
  · rw [sum_w_x, sum_w_x3]
    simp
  · rw [sum_w_x, sum_w_x3]
    have h0 := sum_w_close_sqrt_pi
    have h2 := sum_w_x2_close_half_sqrt_pi
    set S0 : ℝ := ((∑ i ∈ range 32, gauss_hermite.w.getD i 0 : ℚ) : ℝ)
    set S2 : ℝ := ((∑ i ∈ range 32,
      gauss_hermite.w.getD i 0 * gauss_hermite.x.getD i 0 ^ 2 : ℚ) : ℝ)
    have key : a0 * S0 + a1 * ((0 : ℚ) : ℝ) + a2 * S2 + a3 * ((0 : ℚ) : ℝ)
        - Real.sqrt Real.pi * (a0 + a2 / 2)
        = a0 * (S0 - Real.sqrt Real.pi) + a2 * (S2 - Real.sqrt Real.pi / 2) := by
      push_cast
      ring
    rw [key]
    calc |a0 * (S0 - Real.sqrt Real.pi) + a2 * (S2 - Real.sqrt Real.pi / 2)|
        ≤ |a0 * (S0 - Real.sqrt Real.pi)| + |a2 * (S2 - Real.sqrt Real.pi / 2)| :=
          abs_add _ _
      _ = |a0| * |S0 - Real.sqrt Real.pi| + |a2| * |S2 - Real.sqrt Real.pi / 2| := by
          rw [abs_mul, abs_mul]
      _ ≤ |a0| * (1e-9 * Real.sqrt Real.pi) + |a2| * (1e-9 * (Real.sqrt Real.pi / 2)) :=
          add_le_add (mul_le_mul_of_nonneg_left h0 (abs_nonneg _))
            (mul_le_mul_of_nonneg_left h2 (abs_nonneg _))
      _ = 1e-9 * Real.sqrt Real.pi * (|a0| + |a2| / 2) := by ring

/-- C12: for all real `μ`, `σ` and `f(x) = (μ + σ·√2·x)²`, `gauss_hermite(f)/√π` equals
`μ² + σ²` to within relative error `1e-9`: the table satisfies
`|Σ w_i − √π| ≤ 1e-9·√π` and `|Σ w_i·x_i² − √π/2| ≤ 1e-9·√π/2`, while `Σ w_i·x_i = 0`
and `Σ w_i·x_i³ = 0`, so the rule is exact up to this rounding on every polynomial of
degree at most 3. -/
theorem gauss_hermite_second_moment (μ σ : ℝ) :
    (∃ v : ℝ, gauss_hermite (fun x => (μ + σ * Real.sqrt 2 * x) ^ 2) = some v ∧
        |v / Real.sqrt Real.pi - (μ ^ 2 + σ ^ 2)| ≤ 1e-9 * (μ ^ 2 + σ ^ 2)) ∧
      |((∑ i ∈ range 32, gauss_hermite.w.getD i 0 : ℚ) : ℝ) - Real.sqrt Real.pi|
        ≤ 1e-9 * Real.sqrt Real.pi ∧
      |((∑ i ∈ range 32,
          gauss_hermite.w.getD i 0 * gauss_hermite.x.getD i 0 ^ 2 : ℚ) : ℝ)
          - Real.sqrt Real.pi / 2|
        ≤ 1e-9 * (Real.sqrt Real.pi / 2) ∧
      ∑ i ∈ range 32, gauss_hermite.w.getD i 0 * gauss_hermite.x.getD i 0 = 0 ∧
      ∑ i ∈ range 32, gauss_hermite.w.getD i 0 * gauss_hermite.x.getD i 0 ^ 3 = 0 ∧
      (∀ a0 a1 a2 a3 : ℝ, ∃ u : ℝ,
        gauss_hermite (fun t => a0 + a1 * t + a2 * t ^ 2 + a3 * t ^ 3) = some u ∧
        |u - Real.sqrt Real.pi * (a0 + a2 / 2)|
          ≤ 1e-9 * Real.sqrt Real.pi * (|a0| + |a2| / 2)) := by
  refine ⟨?_, sum_w_close_sqrt_pi, sum_w_x2_close_half_sqrt_pi, sum_w_x, sum_w_x3, ?_⟩
  · have hfun : (fun x : ℝ => (μ + σ * Real.sqrt 2 * x) ^ 2)
        = fun t => μ ^ 2 + (2 * μ * σ * Real.sqrt 2) * t + (2 * σ ^ 2) * t ^ 2 + 0 * t ^ 3 := by
      funext x
      have h2 : Real.sqrt 2 ^ 2 = 2 := Real.sq_sqrt (by norm_num)
      linear_combination (σ ^ 2 * x ^ 2) * h2
    obtain ⟨u, hu, _, hclose⟩ :=
      gauss_hermite_cubic_close (μ ^ 2) (2 * μ * σ * Real.sqrt 2) (2 * σ ^ 2) 0
    refine ⟨u, by rw [hfun]; exact hu, ?_⟩
    have hr : 0 < Real.sqrt Real.pi := Real.sqrt_pos.mpr Real.pi_pos
    have hab : |μ ^ 2| + |2 * σ ^ 2| / 2 = μ ^ 2 + σ ^ 2 := by
      rw [abs_of_nonneg (sq_nonneg μ), abs_of_nonneg (by positivity)]
      ring
    have hsum : μ ^ 2 + 2 * σ ^ 2 / 2 = μ ^ 2 + σ ^ 2 := by ring
    rw [hab, hsum] at hclose
    have key : u / Real.sqrt Real.pi - (μ ^ 2 + σ ^ 2)
        = (u - Real.sqrt Real.pi * (μ ^ 2 + σ ^ 2)) / Real.sqrt Real.pi := by
      field_simp
    rw [key, abs_div, abs_of_pos hr, div_le_iff₀ hr]
    calc |u - Real.sqrt Real.pi * (μ ^ 2 + σ ^ 2)|
        ≤ 1e-9 * Real.sqrt Real.pi * (μ ^ 2 + σ ^ 2) := hclose
      _ = 1e-9 * (μ ^ 2 + σ ^ 2) * Real.sqrt Real.pi := by ring
  · intro a0 a1 a2 a3
    obtain ⟨u, hu, _, hclose⟩ := gauss_hermite_cubic_close a0 a1 a2 a3
    exact ⟨u, hu, hclose⟩

/-! ### Symmetry and positivity of the table -/

theorem x_increasing :
    ∀ i < 32, ∀ j < 32, i < j → gauss_hermite.x.getD i 0 < gauss_hermite.x.getD j 0 := by
  decide!

theorem x_antisymmetric :
    ∀ i < 32, gauss_hermite.x.getD (31 - i) 0 = -gauss_hermite.x.getD i 0 := by
  decide!

theorem w_positive : ∀ i < 32, 0 < gauss_hermite.w.getD i 0 := by
  decide!

theorem w_symmetric :
    ∀ i < 32, gauss_hermite.w.getD (31 - i) 0 = gauss_hermite.w.getD i 0 := by
  decide!

theorem gauss_hermite_odd {R : Type} [Field R] [CharZero R] (f : R → R)
    (hodd : ∀ t, f (-t) = -f t) : gauss_hermite f = some 0 := by
  rw [gauss_hermite_eq_sum]
  congr 1
  have hrefl := Finset.sum_range_reflect
    (fun i => ((gauss_hermite.w.getD i 0 : ℚ) : R) * f ((gauss_hermite.x.getD i 0 : ℚ) : R)) 32
  have hneg : ∑ j ∈ range 32,
      ((gauss_hermite.w.getD (32 - 1 - j) 0 : ℚ) : R)
        * f ((gauss_hermite.x.getD (32 - 1 - j) 0 : ℚ) : R)
      = -∑ j ∈ range 32,
        ((gauss_hermite.w.getD j 0 : ℚ) : R) * f ((gauss_hermite.x.getD j 0 : ℚ) : R) := by
    rw [← Finset.sum_neg_distrib]
    apply Finset.sum_congr rfl
    intro j hj
    have hj' : j < 32 := Finset.mem_range.mp hj
    have h1 : (32 : ℕ) - 1 - j = 31 - j := rfl
    rw [h1, w_symmetric j hj', x_antisymmetric j hj', Rat.cast_neg, hodd]
    ring
  rw [hneg] at hrefl
  have h2 : (2 : R) * ∑ j ∈ range 32,
      ((gauss_hermite.w.getD j 0 : ℚ) : R) * f ((gauss_hermite.x.getD j 0 : ℚ) : R) = 0 := by
    linear_combination -hrefl
  rcases mul_eq_zero.mp h2 with h | h
  · exact absurd h two_ne_zero
  · exact h

theorem gauss_hermite_mono {R : Type} [LinearOrderedField R] (f g : R → R)
    (hfg : ∀ t ∈ gauss_hermite.x, f ((t : ℚ) : R) ≤ g ((t : ℚ) : R)) :
    ∃ a b : R, gauss_hermite f = some a ∧ gauss_hermite g = some b ∧ a ≤ b := by
  refine ⟨_, _, gauss_hermite_eq_sum f, gauss_hermite_eq_sum g, ?_⟩
  apply Finset.sum_le_sum
  intro i hi
  have hi' : i < 32 := Finset.mem_range.mp hi
  have hlen : i < gauss_hermite.x.length := by rw [x_length]; exact hi'
  have hmem : gauss_hermite.x.getD i 0 ∈ gauss_hermite.x := by
    rw [List.getD_eq_getElem _ _ hlen]
    exact List.getElem_mem hlen
  have hw : (0 : R) ≤ ((gauss_hermite.w.getD i 0 : ℚ) : R) := by
    exact_mod_cast (w_positive i hi').le
  exact mul_le_mul_of_nonneg_left (hfg _ hmem) hw

/-! ### Rounding to double -/

theorem bit_length_zero (fuel : ℕ) : bit_length fuel 0 = 0 := by
  cases fuel <;> simp [bit_length]

theorem bit_length_step (k m L : ℕ) (hL : 1 ≤ L)
    (hlo : 2 ^ (L - 1) ≤ m / 2 ^ k) (hhi : m / 2 ^ k < 2 ^ L) :
    1 ≤ L + k ∧ 2 ^ (L + k - 1) ≤ m ∧ m < 2 ^ (L + k) := by
  have hpos : 0 < 2 ^ k := Nat.pow_pos (by norm_num)
  refine ⟨by omega, ?_, ?_⟩
  · have h1 : L + k - 1 = (L - 1) + k := by omega
    rw [h1, pow_add]
    exact (Nat.le_div_iff_mul_le hpos).mp hlo
  · rw [pow_add]
    exact (Nat.div_lt_iff_lt_mul hpos).mp hhi

theorem bit_length_spec (fuel n : ℕ) (hf : n ≤ fuel) (hn : 0 < n) :
    1 ≤ bit_length fuel n ∧ 2 ^ (bit_length fuel n - 1) ≤ n ∧ n < 2 ^ bit_length fuel n := by
  induction fuel generalizing n with
  | zero => omega
  | succ fuel ih =>
    have hne : n ≠ 0 := by omega
    have hdiv : ∀ k, 1 ≤ k → 2 ^ k ≤ n → n / 2 ^ k ≤ fuel ∧ 0 < n / 2 ^ k := by
      intro k hk hle
      have hpos : 0 < 2 ^ k := Nat.pow_pos (by norm_num)
      have h2 : 2 ≤ 2 ^ k := by
        calc 2 = 2 ^ 1 := by norm_num
          _ ≤ 2 ^ k := Nat.pow_le_pow_right (by norm_num) hk
      refine ⟨?_, Nat.div_pos hle hpos⟩
      have : n / 2 ^ k < n := Nat.div_lt_self hn h2
      omega
    simp only [bit_length, hne, if_false]
    split_ifs with h64 h16 h4
    · obtain ⟨hf', hn'⟩ := hdiv 64 (by norm_num) h64
      obtain ⟨h1, hlo, hhi⟩ := ih (n / 2 ^ 64) hf' hn'
      exact bit_length_step 64 n _ h1 hlo hhi
    · obtain ⟨hf', hn'⟩ := hdiv 16 (by norm_num) h16
      obtain ⟨h1, hlo, hhi⟩ := ih (n / 2 ^ 16) hf' hn'
      exact bit_length_step 16 n _ h1 hlo hhi
    · obtain ⟨hf', hn'⟩ := hdiv 4 (by norm_num) h4
      obtain ⟨h1, hlo, hhi⟩ := ih (n / 2 ^ 4) hf' hn'
      exact bit_length_step 4 n _ h1 hlo hhi
    · by_cases h2 : n / 2 = 0
      · rw [h2, bit_length_zero]
        have h1 : n = 1 := by omega
        subst h1
        simp
      · obtain ⟨h1, hlo, hhi⟩ := ih (n / 2) (by omega) (by omega)
        have hlo' : 2 ^ (bit_length fuel (n / 2) - 1) ≤ n / 2 ^ 1 := by simpa using hlo
        have hhi' : n / 2 ^ 1 < 2 ^ bit_length fuel (n / 2) := by simpa using hhi
        exact bit_length_step 1 n _ h1 hlo' hhi'

theorem two_pow_eq (e : ℤ) : two_pow e = (2 : ℚ) ^ e := by
  unfold two_pow
  split_ifs with h
  · have he : (2 : ℚ) ^ e = (2 : ℚ) ^ ((e.toNat : ℕ) : ℤ) := by
      rw [Int.toNat_of_nonneg h]
    rw [he, zpow_natCast]
    simp only [Nat.cast_pow, Nat.cast_ofNat]
  · have hneg : 0 ≤ -e := by omega
    have he : (2 : ℚ) ^ e = (2 : ℚ) ^ ((0 : ℤ) - (((-e).toNat : ℕ) : ℤ)) := by
      rw [Int.toNat_of_nonneg hneg]
      congr 1
      ring
    rw [he, zpow_sub₀ two_ne_zero, zpow_zero, zpow_natCast]
    simp only [Nat.cast_pow, Nat.cast_ofNat]

theorem binade_spec (q : ℚ) (hq : q ≠ 0) :
    (2 : ℚ) ^ binade q ≤ |q| ∧ |q| < (2 : ℚ) ^ (binade q + 1) := by
  have hn : 0 < q.num.natAbs := Int.natAbs_pos.mpr (Rat.num_ne_zero.mpr hq)
  have hd : 0 < q.den := q.den_pos
  obtain ⟨ha1, halo, hahi⟩ := bit_length_spec q.num.natAbs q.num.natAbs le_rfl hn
  obtain ⟨hb1, hblo, hbhi⟩ := bit_length_spec q.den q.den le_rfl hd
  set a := bit_length q.num.natAbs q.num.natAbs
  set b := bit_length q.den q.den
  have habs : |q| = (q.num.natAbs : ℚ) / (q.den : ℚ) := by
    have h := Rat.num_div_den q
    conv_lhs => rw [← h]
    rw [abs_div, Nat.abs_cast, Nat.cast_natAbs, Int.cast_abs]
  have hdq : (0 : ℚ) < (q.den : ℚ) := by exact_mod_cast hd
  have halo' : (2 : ℚ) ^ ((a : ℤ) - 1) ≤ (q.num.natAbs : ℚ) := by
    have : ((2 ^ (a - 1) : ℕ) : ℚ) ≤ (q.num.natAbs : ℚ) := by exact_mod_cast halo
    have he : ((a : ℤ) - 1) = ((a - 1 : ℕ) : ℤ) := by omega
    rw [he, zpow_natCast]
    simpa using this
  have hahi' : (q.num.natAbs : ℚ) < (2 : ℚ) ^ (a : ℤ) := by
    have : (q.num.natAbs : ℚ) < ((2 ^ a : ℕ) : ℚ) := by exact_mod_cast hahi
    rw [zpow_natCast]
    simpa using this
  have hblo' : (2 : ℚ) ^ ((b : ℤ) - 1) ≤ (q.den : ℚ) := by
    have : ((2 ^ (b - 1) : ℕ) : ℚ) ≤ (q.den : ℚ) := by exact_mod_cast hblo
    have he : ((b : ℤ) - 1) = ((b - 1 : ℕ) : ℤ) := by omega
    rw [he, zpow_natCast]
    simpa using this
  have hbhi' : (q.den : ℚ) < (2 : ℚ) ^ (b : ℤ) := by
    have : (q.den : ℚ) < ((2 ^ b : ℕ) : ℚ) := by exact_mod_cast hbhi
    rw [zpow_natCast]
    simpa using this
  have h2 : (0 : ℚ) < 2 := by norm_num
  have hupper : |q| < (2 : ℚ) ^ ((a : ℤ) - (b : ℤ) + 1) := by
    rw [habs, div_lt_iff₀ hdq]
    have hsplit : (2 : ℚ) ^ ((a : ℤ) - (b : ℤ) + 1) * (2 : ℚ) ^ ((b : ℤ) - 1)
        = (2 : ℚ) ^ (a : ℤ) := by
      rw [← zpow_add₀ h2.ne']
      congr 1
      ring
    calc (q.num.natAbs : ℚ) < (2 : ℚ) ^ (a : ℤ) := hahi'
      _ = (2 : ℚ) ^ ((a : ℤ) - (b : ℤ) + 1) * (2 : ℚ) ^ ((b : ℤ) - 1) := hsplit.symm
      _ ≤ (2 : ℚ) ^ ((a : ℤ) - (b : ℤ) + 1) * (q.den : ℚ) :=
        mul_le_mul_of_nonneg_left hblo' (zpow_pos h2 _).le
  have hlower : (2 : ℚ) ^ ((a : ℤ) - (b : ℤ) - 1) ≤ |q| := by
    rw [habs, le_div_iff₀ hdq]
    have hsplit : (2 : ℚ) ^ ((a : ℤ) - (b : ℤ) - 1) * (2 : ℚ) ^ (b : ℤ)
        = (2 : ℚ) ^ ((a : ℤ) - 1) := by
      rw [← zpow_add₀ h2.ne']
      congr 1
      ring
    calc (2 : ℚ) ^ ((a : ℤ) - (b : ℤ) - 1) * (q.den : ℚ)
        ≤ (2 : ℚ) ^ ((a : ℤ) - (b : ℤ) - 1) * (2 : ℚ) ^ (b : ℤ) :=
          mul_le_mul_of_nonneg_left hbhi'.le (zpow_pos h2 _).le
      _ = (2 : ℚ) ^ ((a : ℤ) - 1) := hsplit
      _ ≤ (q.num.natAbs : ℚ) := halo'
  unfold binade
  rw [two_pow_eq]
  by_cases hc : (2 : ℚ) ^ ((a : ℤ) - (b : ℤ)) ≤ |q|
  · rw [if_pos hc]
    exact ⟨hc, hupper⟩
  · rw [if_neg hc]
    refine ⟨hlower, ?_⟩
    have : (a : ℤ) - (b : ℤ) - 1 + 1 = (a : ℤ) - (b : ℤ) := by ring
    rw [this]
    exact lt_of_not_le hc

theorem round_half_even_cases (m : ℚ) :
    round_half_even m = ⌊m⌋ ∨ round_half_even m = ⌊m⌋ + 1 := by
  unfold round_half_even
  split_ifs <;> simp

theorem round_half_even_error (m : ℚ) : |(round_half_even m : ℚ) - m| ≤ 1 / 2 := by
  have h0 : 0 ≤ m - ⌊m⌋ := by linarith [Int.floor_le m]
  have h1 : m - ⌊m⌋ < 1 := by linarith [Int.lt_floor_add_one m]
  unfold round_half_even
  rw [abs_le]
  split_ifs with ha hb hc
  · constructor <;> linarith
  · push_cast; constructor <;> linarith
  · constructor <;> linarith
  · push_cast; constructor <;> linarith

theorem round_half_even_ge (m : ℚ) (k : ℤ) (h : (k : ℚ) ≤ m) : k ≤ round_half_even m := by
  have hk : k ≤ ⌊m⌋ := Int.le_floor.mpr h
  rcases round_half_even_cases m with h1 | h1 <;> omega

theorem round_half_even_le (m : ℚ) (k : ℤ) (h : m ≤ (k : ℚ)) : round_half_even m ≤ k := by
  by_cases hfl : ((⌊m⌋ : ℤ) : ℚ) = m
  · have hz : m - ⌊m⌋ = 0 := by linarith
    have hr : round_half_even m = ⌊m⌋ := by
      unfold round_half_even
      rw [if_pos (by rw [hz]; norm_num)]
    rw [hr]
    exact_mod_cast (hfl ▸ h : ((⌊m⌋ : ℤ) : ℚ) ≤ k)
  · have hlt : ((⌊m⌋ : ℤ) : ℚ) < m := lt_of_le_of_ne (Int.floor_le m) hfl
    have hk : ⌊m⌋ < k := by
      have : ((⌊m⌋ : ℤ) : ℚ) < (k : ℚ) := lt_of_lt_of_le hlt h
      exact_mod_cast this
    rcases round_half_even_cases m with h1 | h1 <;> omega

theorem round_half_even_mono {m m' : ℚ} (h : m ≤ m') :
    round_half_even m ≤ round_half_even m' := by
  have hfl : ⌊m⌋ ≤ ⌊m'⌋ := Int.floor_mono h
  rcases lt_or_eq_of_le hfl with hlt | heq
  · have h1 : round_half_even m ≤ ⌊m⌋ + 1 := by
      rcases round_half_even_cases m with h1 | h1 <;> omega
    have h2 : ⌊m'⌋ ≤ round_half_even m' := by
      rcases round_half_even_cases m' with h1 | h1 <;> omega
    omega
  · have hfrac : m - ⌊m⌋ ≤ m' - ⌊m'⌋ := by rw [← heq]; linarith
    unfold round_half_even
    rw [← heq]
    rw [← heq] at hfrac
    split_ifs <;> first | omega | (exfalso; linarith)

theorem binade_neg (q : ℚ) : binade (-q) = binade q := by
  unfold binade
  simp only [Rat.neg_num, Rat.neg_den, Int.natAbs_neg, abs_neg]

theorem exponent_neg (q : ℚ) : exponent (-q) = exponent q := by
  unfold exponent
  rw [binade_neg]

theorem round_nearest_neg (q : ℚ) : round_nearest (-q) = -round_nearest q := by
  unfold round_nearest
  rcases lt_trichotomy q 0 with h | h | h
  · have h1 : -q ≠ 0 := by linarith [h]
    have h2 : 0 < -q := by linarith
    have h3 : q ≠ 0 := h.ne
    have h4 : ¬ 0 < q := by linarith
    rw [if_neg h1, if_pos h2, if_neg h3, if_neg h4, exponent_neg, neg_neg]
  · subst h
    simp
  · have h1 : -q ≠ 0 := by linarith [h]
    have h2 : ¬ 0 < -q := by linarith
    have h3 : q ≠ 0 := h.ne'
    rw [if_neg h1, if_neg h2, if_neg h3, if_pos h, exponent_neg, neg_neg]

theorem round_nearest_zero : round_nearest 0 = 0 := by
  simp [round_nearest]

/-- The rounding of a positive value is within half a spacing of it, does not pass the
upper end of its binade, and does not pass the lower end of it in the normal range. -/
theorem round_nearest_pos_spec (q : ℚ) (hq : 0 < q) :
    0 ≤ round_nearest q ∧ round_nearest q ≤ (2 : ℚ) ^ (exponent q + 1) ∧
      |round_nearest q - q| ≤ (2 : ℚ) ^ (exponent q - 53) ∧
      (exponent q = binade q → (2 : ℚ) ^ exponent q ≤ round_nearest q) := by
  obtain ⟨hlo, hhi⟩ := binade_spec q hq.ne'
  rw [abs_of_pos hq] at hlo hhi
  have h2 : (0 : ℚ) < 2 := by norm_num
  have h12 : (1 : ℚ) < 2 := by norm_num
  have hE : binade q ≤ exponent q := le_max_left _ _
  have hhi' : q ≤ (2 : ℚ) ^ (exponent q + 1) :=
    le_trans hhi.le ((zpow_le_zpow_iff_right₀ h12).mpr (by omega))
  have hs : (0 : ℚ) < (2 : ℚ) ^ (exponent q - 52) := zpow_pos h2 _
  have hround : round_nearest q
      = round_half_even (q / 2 ^ (exponent q - 52)) * 2 ^ (exponent q - 52) := by
    unfold round_nearest
    rw [if_neg hq.ne', if_pos hq, two_pow_eq]
  set s : ℚ := (2 : ℚ) ^ (exponent q - 52) with hsdef
  have hs52 : (2 : ℚ) ^ (52 : ℕ) * s = (2 : ℚ) ^ exponent q := by
    rw [hsdef, ← zpow_natCast, ← zpow_add₀ h2.ne']
    congr 1
    push_cast
    ring
  have hs53 : (2 : ℚ) ^ (53 : ℕ) * s = (2 : ℚ) ^ (exponent q + 1) := by
    rw [hsdef, ← zpow_natCast, ← zpow_add₀ h2.ne']
    congr 1
    push_cast
    ring
  have hshalf : s / 2 = (2 : ℚ) ^ (exponent q - 53) := by
    rw [hsdef, show exponent q - 53 = exponent q - 52 - 1 by ring, zpow_sub_one₀ h2.ne',
      div_eq_mul_inv]
  have hc0 : ((0 : ℤ) : ℚ) ≤ q / s := by
    rw [Int.cast_zero]
    exact (div_pos hq hs).le
  have hc52 : (((2 : ℤ) ^ (52 : ℕ) : ℤ) : ℚ) = (2 : ℚ) ^ (52 : ℕ) := by
    simp only [Int.cast_pow, Int.cast_ofNat]
  have hc53 : (((2 : ℤ) ^ (53 : ℕ) : ℤ) : ℚ) = (2 : ℚ) ^ (53 : ℕ) := by
    simp only [Int.cast_pow, Int.cast_ofNat]
  have hmhi : q / s ≤ (((2 : ℤ) ^ (53 : ℕ) : ℤ) : ℚ) := by
    rw [div_le_iff₀ hs, hc53, hs53]
    exact hhi'
  have hr0 := round_half_even_ge _ _ hc0
  have hrhi := round_half_even_le _ _ hmhi
  have herr := round_half_even_error (q / s)
  rw [hround]
  refine ⟨?_, ?_, ?_, ?_⟩
  · have : ((0 : ℤ) : ℚ) ≤ (round_half_even (q / s) : ℚ) := Int.cast_le.mpr hr0
    rw [Int.cast_zero] at this
    exact mul_nonneg this hs.le
  · rw [← hs53]
    have : (round_half_even (q / s) : ℚ) ≤ (((2 : ℤ) ^ (53 : ℕ) : ℤ) : ℚ) :=
      Int.cast_le.mpr hrhi
    rw [hc53] at this
    exact mul_le_mul_of_nonneg_right this hs.le
  · have hq' : q = q / s * s := by field_simp
    have hfac : (round_half_even (q / s) : ℚ) * s - q
        = ((round_half_even (q / s) : ℚ) - q / s) * s := by
      nth_rewrite 2 [hq']
      ring
    rw [hfac, abs_mul, abs_of_pos hs, ← hshalf]
    calc |(round_half_even (q / s) : ℚ) - q / s| * s ≤ 1 / 2 * s :=
          mul_le_mul_of_nonneg_right herr hs.le
      _ = s / 2 := by ring
  · intro heq
    have hmlo : (((2 : ℤ) ^ (52 : ℕ) : ℤ) : ℚ) ≤ q / s := by
      rw [le_div_iff₀ hs, hc52, hs52, heq]
      exact hlo
    have hrlo := round_half_even_ge _ _ hmlo
    rw [← hs52]
    have : (((2 : ℤ) ^ (52 : ℕ) : ℤ) : ℚ) ≤ (round_half_even (q / s) : ℚ) :=
      Int.cast_le.mpr hrlo
    rw [hc52] at this
    exact mul_le_mul_of_nonneg_right this hs.le

/-- The standard model of rounding with gradual underflow: the error of one rounding is at
most `2^-53` of the magnitude of the value, or of `2^-1022` for a subnormal value. -/
theorem round_nearest_error (q : ℚ) :
    |round_nearest q - q| ≤ 2 ^ (-53 : ℤ) * (|q| + 2 ^ (-1022 : ℤ)) := by
  have h2 : (0 : ℚ) < 2 := by norm_num
  have hpos : ∀ p : ℚ, 0 < p →
      |round_nearest p - p| ≤ 2 ^ (-53 : ℤ) * (|p| + 2 ^ (-1022 : ℤ)) := by
    intro p hp
    obtain ⟨_, _, herr, _⟩ := round_nearest_pos_spec p hp
    obtain ⟨hlo, _⟩ := binade_spec p hp.ne'
    have hsplit : (2 : ℚ) ^ (exponent p - 53) = 2 ^ (-53 : ℤ) * 2 ^ exponent p := by
      rw [← zpow_add₀ h2.ne']
      congr 1
      ring
    have hu : (0 : ℚ) ≤ 2 ^ (-53 : ℤ) := (zpow_pos h2 _).le
    have hexp : (2 : ℚ) ^ exponent p ≤ |p| + 2 ^ (-1022 : ℤ) := by
      unfold exponent
      rcases le_total (binade p) (-1022) with h | h
      · rw [max_eq_right h]
        linarith [abs_nonneg p]
      · rw [max_eq_left h]
        linarith [(zpow_pos h2 (-1022 : ℤ)).le]
    calc |round_nearest p - p| ≤ (2 : ℚ) ^ (exponent p - 53) := herr
      _ = 2 ^ (-53 : ℤ) * 2 ^ exponent p := hsplit
      _ ≤ 2 ^ (-53 : ℤ) * (|p| + 2 ^ (-1022 : ℤ)) := mul_le_mul_of_nonneg_left hexp hu
  rcases lt_trichotomy q 0 with h | h | h
  · have := hpos (-q) (by linarith)
    rw [round_nearest_neg, abs_neg] at this
    have h3 : |round_nearest q - q| = |-round_nearest q - -q| := by
      rw [← abs_neg]
      congr 1
      ring
    rw [h3]
    exact this
  · subst h
    rw [round_nearest_zero]
    simp only [sub_zero, abs_zero, zero_add]
    exact mul_nonneg (zpow_pos h2 _).le (zpow_pos h2 _).le
  · exact hpos q h

theorem round_nearest_nonneg (q : ℚ) (hq : 0 ≤ q) : 0 ≤ round_nearest q := by
  rcases lt_or_eq_of_le hq with h | h
  · exact (round_nearest_pos_spec q h).1
  · rw [← h, round_nearest_zero]

theorem round_nearest_mono_pos {a b : ℚ} (ha : 0 < a) (hab : a ≤ b) :
    round_nearest a ≤ round_nearest b := by
  have hb : 0 < b := lt_of_lt_of_le ha hab
  have h2 : (1 : ℚ) < 2 := by norm_num
  obtain ⟨halo, hahi⟩ := binade_spec a ha.ne'
  obtain ⟨hblo, hbhi⟩ := binade_spec b hb.ne'
  rw [abs_of_pos ha] at halo hahi
  rw [abs_of_pos hb] at hblo hbhi
  have hlt : (2 : ℚ) ^ binade a < (2 : ℚ) ^ (binade b + 1) :=
    lt_of_le_of_lt halo (lt_of_le_of_lt hab hbhi)
  have he : binade a < binade b + 1 := (zpow_lt_zpow_iff_right₀ h2).mp hlt
  have hE : exponent a ≤ exponent b := by
    unfold exponent
    exact max_le_max (by omega) le_rfl
  rcases lt_or_eq_of_le hE with hlt' | heq
  · have heb : exponent b = binade b := by
      unfold exponent at hlt' ⊢
      rcases le_total (binade b) (-1022) with h | h
      · rw [max_eq_right h] at hlt'
        have := le_max_right (binade a) (-1022)
        omega
      · exact max_eq_left h
    obtain ⟨_, hra, _, _⟩ := round_nearest_pos_spec a ha
    obtain ⟨_, _, _, hrb⟩ := round_nearest_pos_spec b hb
    have hmid : (2 : ℚ) ^ (exponent a + 1) ≤ (2 : ℚ) ^ exponent b :=
      (zpow_le_zpow_iff_right₀ h2).mpr (by omega)
    exact le_trans hra (le_trans hmid (hrb heb))
  · unfold round_nearest
    rw [if_neg ha.ne', if_pos ha, if_neg hb.ne', if_pos hb, heq, two_pow_eq]
    have hs : (0 : ℚ) < (2 : ℚ) ^ (exponent b - 52) := zpow_pos (by norm_num) _
    have hm : a / 2 ^ (exponent b - 52) ≤ b / 2 ^ (exponent b - 52) :=
      div_le_div_of_nonneg_right hab hs.le
    have := round_half_even_mono hm
    exact mul_le_mul_of_nonneg_right (Int.cast_le.mpr this) hs.le

/-- Rounding preserves order. -/
theorem round_nearest_mono {a b : ℚ} (hab : a ≤ b) : round_nearest a ≤ round_nearest b := by
  rcases lt_trichotomy a 0 with ha | ha | ha
  · rcases lt_or_le b 0 with hb | hb
    · have := round_nearest_mono_pos (a := -b) (b := -a) (by linarith) (by linarith)
      rw [round_nearest_neg, round_nearest_neg] at this
      linarith
    · have h1 : round_nearest a ≤ 0 := by
        have := round_nearest_nonneg (-a) (by linarith)
        rw [round_nearest_neg] at this
        linarith
      exact le_trans h1 (round_nearest_nonneg b hb)
  · subst ha
    rw [round_nearest_zero]
    exact round_nearest_nonneg b hab
  · exact round_nearest_mono_pos ha hab

theorem round_double_eq_some {q v : ℚ} (h : round_double q = some v) :
    v = round_nearest q := by
  unfold round_double at h
  split_ifs at h
  exact (Option.some.inj h).symm

theorem round_double_neg (q : ℚ) : round_double (-q) = (round_double q).map (fun v => -v) := by
  unfold round_double
  rw [round_nearest_neg, abs_neg]
  split_ifs <;> rfl

theorem SumTree.leaves_length_pos (tree : SumTree) : 1 ≤ tree.leaves.length := by
  induction tree with
  | leaf i => simp [SumTree.leaves]
  | add l r ihl ihr =>
    simp only [SumTree.leaves, List.length_append]
    omega

theorem abs_sum_map_le (l : List ℕ) (g : ℕ → ℚ) :
    |(l.map g).sum| ≤ (l.map fun i => |g i|).sum := by
  induction l with
  | nil => simp
  | cons a l ih =>
    simp only [List.map_cons, List.sum_cons]
    exact le_trans (abs_add _ _) (add_le_add le_rfl ih)

theorem sum_map_abs_nonneg (l : List ℕ) (g : ℕ → ℚ) : 0 ≤ (l.map fun i => |g i|).sum := by
  induction l with
  | nil => simp
  | cons a l ih =>
    simp only [List.map_cons, List.sum_cons]
    exact add_nonneg (abs_nonneg _) ih

theorem SumTree.eval_add_eq_some {fl : ℚ → Option ℚ} {t : ℕ → Option ℚ} {l r : SumTree}
    {v : ℚ} (h : (SumTree.add l r).eval fl t = some v) :
    ∃ a b, l.eval fl t = some a ∧ r.eval fl t = some b ∧ fl (a + b) = some v := by
  simp only [SumTree.eval] at h
  cases hl : l.eval fl t with
  | none => rw [hl] at h; simp at h
  | some a =>
    cases hr : r.eval fl t with
    | none => rw [hl, hr] at h; simp at h
    | some b =>
      rw [hl, hr] at h
      exact ⟨a, b, rfl, rfl, h⟩

/-- The error of a sum added in any order, every addition with relative error at most `u`
(of the magnitude of the sum, or of `c` for a small sum): the result differs from the exact
sum of the terms by at most `((1 + u)^n - 1) * (Σ |t_i| + (n - 1) * c)` for `n` terms. -/
theorem SumTree.eval_error (fl : ℚ → Option ℚ) (u c : ℚ) (hu : 0 ≤ u) (hc : 0 ≤ c)
    (hfl : ∀ q v, fl q = some v → |v - q| ≤ u * (|q| + c))
    (t : ℕ → Option ℚ) (tree : SumTree) (v : ℚ) (h : tree.eval fl t = some v) :
    |v - (tree.leaves.map fun i => (t i).getD 0).sum|
      ≤ ((1 + u) ^ tree.leaves.length - 1)
        * ((tree.leaves.map fun i => |(t i).getD 0|).sum + ((tree.leaves.length : ℚ) - 1) * c) := by
  induction tree generalizing v with
  | leaf i =>
    simp only [SumTree.eval] at h
    simp only [SumTree.leaves, List.map_cons, List.map_nil, List.sum_cons, List.sum_nil,
      List.length_singleton, h, Option.getD_some, add_zero, sub_self, abs_zero, pow_one,
      Nat.cast_one, zero_mul]
    have : 0 ≤ |v| := abs_nonneg v
    nlinarith
  | add l r ihl ihr =>
    obtain ⟨a, b, hl, hr, hv⟩ := SumTree.eval_add_eq_some h
    have hA := ihl a hl
    have hB := ihr b hr
    have hV := hfl _ _ hv
    have hnl := SumTree.leaves_length_pos l
    have hnr := SumTree.leaves_length_pos r
    simp only [SumTree.leaves, List.map_append, List.sum_append, List.length_append,
      Nat.cast_add, pow_add]
    set Sl := (l.leaves.map fun i => (t i).getD 0).sum
    set Sr := (r.leaves.map fun i => (t i).getD 0).sum
    set Al := (l.leaves.map fun i => |(t i).getD 0|).sum
    set Ar := (r.leaves.map fun i => |(t i).getD 0|).sum
    set Pl := (1 + u) ^ l.leaves.length
    set Pr := (1 + u) ^ r.leaves.length
    set nl : ℚ := (l.leaves.length : ℚ)
    set nr : ℚ := (r.leaves.length : ℚ)
    have hSl : |Sl| ≤ Al := abs_sum_map_le _ _
    have hSr : |Sr| ≤ Ar := abs_sum_map_le _ _
    have hAl : 0 ≤ Al := sum_map_abs_nonneg _ _
    have hAr : 0 ≤ Ar := sum_map_abs_nonneg _ _
    have h1u : 1 ≤ 1 + u := by linarith
    have hPl : 1 + u ≤ Pl := le_self_pow₀ h1u (by omega)
    have hPr : 1 + u ≤ Pr := le_self_pow₀ h1u (by omega)
    have hnl1 : 0 ≤ nl - 1 := by
      have : (1 : ℚ) ≤ nl := Nat.one_le_cast.mpr hnl
      linarith
    have hnr1 : 0 ≤ nr - 1 := by
      have : (1 : ℚ) ≤ nr := Nat.one_le_cast.mpr hnr
      linarith
    set Xl := Al + (nl - 1) * c
    set Xr := Ar + (nr - 1) * c
    have hXl : 0 ≤ Xl := add_nonneg hAl (mul_nonneg hnl1 hc)
    have hXr : 0 ≤ Xr := add_nonneg hAr (mul_nonneg hnr1 hc)
    have hAXl : Al ≤ Xl := le_add_of_nonneg_right (mul_nonneg hnl1 hc)
    have hAXr : Ar ≤ Xr := le_add_of_nonneg_right (mul_nonneg hnr1 hc)
    have hX : Al + Ar + (nl + nr - 1) * c = Xl + Xr + c := by ring
    rw [hX]
    have ha : |a| ≤ Pl * Xl := by
      have h1 : |a| ≤ |a - Sl| + |Sl| := by
        have := abs_add (a - Sl) Sl
        rwa [sub_add_cancel] at this
      linarith
    have hb : |b| ≤ Pr * Xr := by
      have h1 : |b| ≤ |b - Sr| + |Sr| := by
        have := abs_add (b - Sr) Sr
        rwa [sub_add_cancel] at this
      linarith
    have hab : |a + b| ≤ Pl * Xl + Pr * Xr := le_trans (abs_add a b) (add_le_add ha hb)
    have hsplit : |v - (Sl + Sr)| ≤ |v - (a + b)| + |a - Sl| + |b - Sr| := by
      have h1 : v - (Sl + Sr) = (v - (a + b)) + (a - Sl) + (b - Sr) := by ring
      rw [h1]
      exact le_trans (abs_add _ _) (add_le_add (abs_add _ _) le_rfl)
    have hstep : |v - (Sl + Sr)|
        ≤ ((1 + u) * Pl - 1) * Xl + ((1 + u) * Pr - 1) * Xr + u * c := by
      have h2 : u * (|a + b| + c) ≤ u * (Pl * Xl + Pr * Xr + c) :=
        mul_le_mul_of_nonneg_left (by linarith) hu
      linarith
    have hPl0 : 0 ≤ Pl := by linarith
    have hPr0 : 0 ≤ Pr := by linarith
    have h3 : (1 + u) * Pl ≤ Pl * Pr := by
      rw [mul_comm Pl Pr]
      exact mul_le_mul_of_nonneg_right hPr hPl0
    have h4 : (1 + u) * Pr ≤ Pl * Pr := mul_le_mul_of_nonneg_right hPl hPr0
    have h5 : 1 + u ≤ Pl * Pr := le_trans hPl (by nlinarith)
    have h6 : ((1 + u) * Pl - 1) * Xl ≤ (Pl * Pr - 1) * Xl :=
      mul_le_mul_of_nonneg_right (by linarith) hXl
    have h7 : ((1 + u) * Pr - 1) * Xr ≤ (Pl * Pr - 1) * Xr :=
      mul_le_mul_of_nonneg_right (by linarith) hXr
    have h8 : u * c ≤ (Pl * Pr - 1) * c := mul_le_mul_of_nonneg_right (by linarith) hc
    calc |v - (Sl + Sr)|
        ≤ ((1 + u) * Pl - 1) * Xl + ((1 + u) * Pr - 1) * Xr + u * c := hstep
      _ ≤ (Pl * Pr - 1) * Xl + (Pl * Pr - 1) * Xr + (Pl * Pr - 1) * c := by linarith
      _ = (Pl * Pr - 1) * (Xl + Xr + c) := by ring

/-- Summation in a given order preserves order, term by term, when the rounding does. -/
theorem SumTree.eval_mono (fl : ℚ → Option ℚ)
    (hmono : ∀ p q v w, p ≤ q → fl p = some v → fl q = some w → v ≤ w)
    (s t : ℕ → Option ℚ) (tree : SumTree)
    (hst : ∀ i ∈ tree.leaves, ∀ a b, s i = some a → t i = some b → a ≤ b)
    (v w : ℚ) (hv : tree.eval fl s = some v) (hw : tree.eval fl t = some w) : v ≤ w := by
  induction tree generalizing v w with
  | leaf i =>
    simp only [SumTree.eval] at hv hw
    exact hst i (by simp [SumTree.leaves]) v w hv hw
  | add l r ihl ihr =>
    obtain ⟨a, b, hl, hr, hv'⟩ := SumTree.eval_add_eq_some hv
    obtain ⟨a', b', hl', hr', hw'⟩ := SumTree.eval_add_eq_some hw
    have h1 := ihl (fun i hi => hst i (by simp [SumTree.leaves, hi])) a a' hl hl'
    have h2 := ihr (fun i hi => hst i (by simp [SumTree.leaves, hi])) b b' hr hr'
    exact hmono _ _ v w (add_le_add h1 h2) hv' hw'

theorem round_double_error (q v : ℚ) (h : round_double q = some v) :
    |v - q| ≤ 2 ^ (-53 : ℤ) * (|q| + 2 ^ (-1022 : ℤ)) := by
  rw [round_double_eq_some h]
  exact round_nearest_error q

theorem round_double_mono (p q v w : ℚ) (hpq : p ≤ q) (hv : round_double p = some v)
    (hw : round_double q = some w) : v ≤ w := by
  rw [round_double_eq_some hv, round_double_eq_some hw]
  exact round_nearest_mono hpq

theorem x_double_length : gauss_hermite.x_double.length = 32 := by
  simp [gauss_hermite.x_double, x_length]

theorem w_double_length : gauss_hermite.w_double.length = 32 := by
  simp [gauss_hermite.w_double, w_length]

theorem x_double_increasing :
    ∀ i < 32, ∀ j < 32, i < j →
      gauss_hermite.x_double.getD i 0 < gauss_hermite.x_double.getD j 0 := by
  decide!

theorem x_double_antisymmetric :
    ∀ i < 32, gauss_hermite.x_double.getD (31 - i) 0 = -gauss_hermite.x_double.getD i 0 := by
  decide!

theorem w_double_positive : ∀ i < 32, 0 < gauss_hermite.w_double.getD i 0 := by
  decide!

theorem w_double_symmetric :
    ∀ i < 32, gauss_hermite.w_double.getD (31 - i) 0 = gauss_hermite.w_double.getD i 0 := by
  decide!

theorem getD_zipWith_of_lt {α β γ : Type} (g : α → β → γ) (a : List α) (b : List β)
    (da : α) (db : β) (dc : γ) (i : ℕ) (ha : i < a.length) (hb : i < b.length) :
    (List.zipWith g a b).getD i dc = g (a.getD i da) (b.getD i db) := by
  induction a generalizing b i with
  | nil => simp at ha
  | cons s a ih =>
    cases b with
    | nil => simp at hb
    | cons t b =>
      cases i with
      | zero => simp
      | succ i =>
        simpa using ih b i (by simpa using ha) (by simpa using hb)

/-- The `i`-th product added by `gauss_hermite`: `f(x_i) * w_i`, rounded. -/
theorem gauss_hermite_terms_getD (f : ℚ → Option ℚ) (i : ℕ) (hi : i < 32) :
    (gauss_hermite_terms f).getD i none
      = (f (gauss_hermite.x_double.getD i 0)).bind fun y =>
          round_double (y * gauss_hermite.w_double.getD i 0) := by
  unfold gauss_hermite_terms
  rw [getD_zipWith_of_lt _ _ _ none 0 none i
      (by rw [List.length_map, x_double_length]; exact hi)
      (by rw [w_double_length]; exact hi),
    getD_map_of_lt f gauss_hermite.x_double 0 none i (by rw [x_double_length]; exact hi)]

theorem list_range_map_sum (g : ℕ → ℚ) (n : ℕ) :
    ((List.range n).map g).sum = ∑ i ∈ range n, g i := by
  induction n with
  | zero => simp
  | succ n ih =>
    rw [List.range_succ, List.map_append, List.sum_append, ih, Finset.sum_range_succ]
    simp

theorem leaves_map_sum (order : SumTree) (h : order.leaves.Perm (List.range 32))
    (g : ℕ → ℚ) : (order.leaves.map g).sum = ((List.range 32).map g).sum :=
  (h.map g).sum_eq

theorem leaves_length (order : SumTree) (h : order.leaves.Perm (List.range 32)) :
    order.leaves.length = 32 := by
  rw [h.length_eq, List.length_range]

theorem unrolled_order_leaves : unrolled_order.leaves = List.range 32 := by
  decide

theorem round_double_error_nat (q v : ℚ) (h : round_double q = some v) :
    |v - q| ≤ 1 / 2 ^ 53 * (|q| + 1 / 2 ^ 1022) := by
  have h53 : (2 : ℚ) ^ (-53 : ℤ) = 1 / 2 ^ 53 := by
    rw [← zero_sub, zpow_sub₀ two_ne_zero, zpow_zero, zpow_ofNat]
  have h1022 : (2 : ℚ) ^ (-1022 : ℤ) = 1 / 2 ^ 1022 := by
    rw [← zero_sub, zpow_sub₀ two_ne_zero, zpow_zero, zpow_ofNat]
  have := round_double_error q v h
  rwa [h53, h1022] at this

theorem sum_error_factor : ((1 : ℚ) + 1 / 2 ^ 53) ^ 32 - 1 ≤ 1 / 2 ^ 47 := by
  norm_num

/-- The error of `gauss_hermite` on doubles, for every order of the 32 additions: the
result differs from the exact sum of the 32 rounded products by at most `2^-47` of the sum
of their magnitudes (and of `2^-1017`). -/
theorem gauss_hermite_double_error (order : SumTree)
    (hperm : order.leaves.Perm (List.range 32)) (f : ℚ → Option ℚ) (v : ℚ)
    (h : gauss_hermite_double order f = some v) :
    |v - ((List.range 32).map fun i => ((gauss_hermite_terms f).getD i none).getD 0).sum|
      ≤ 1 / 2 ^ 47
        * (((List.range 32).map fun i => |((gauss_hermite_terms f).getD i none).getD 0|).sum
          + 1 / 2 ^ 1017) := by
  have herr := SumTree.eval_error round_double (1 / 2 ^ 53) (1 / 2 ^ 1022) (by positivity)
    (by positivity) round_double_error_nat
    (fun i => (gauss_hermite_terms f).getD i none) order v h
  rw [leaves_length order hperm,
    leaves_map_sum order hperm (fun i => ((gauss_hermite_terms f).getD i none).getD 0),
    leaves_map_sum order hperm (fun i => |((gauss_hermite_terms f).getD i none).getD 0|)]
    at herr
  have hA := sum_map_abs_nonneg (List.range 32)
    (fun i => ((gauss_hermite_terms f).getD i none).getD 0)
  have hc : (((32 : ℕ) : ℚ) - 1) * (1 / 2 ^ 1022) ≤ 1 / 2 ^ 1017 := by norm_num
  refine le_trans herr ?_
  apply mul_le_mul sum_error_factor (by linarith) (by positivity) (by positivity)

/-! ### The test of the linear integrand on doubles -/

theorem sqrt2_double_nearest :
    (sqrt2_double - 1 / 2 ^ 53) ^ 2 < 2 ∧ 2 < (sqrt2_double + 1 / 2 ^ 53) ^ 2 := by
  unfold sqrt2_double
  norm_num

theorem sqrt_pi_double_nearest :
    (sqrt_pi_double - 1 / 2 ^ 53) ^ 2 < pi_double ∧
      pi_double < (sqrt_pi_double + 1 / 2 ^ 53) ^ 2 := by
  unfold sqrt_pi_double pi_double
  norm_num

theorem pi_double_nearest :
    |(pi_double : ℝ) - Real.pi| < 1 / 2 ^ 52 := by
  have hlo := Real.pi_gt_d20
  have hhi := Real.pi_lt_d20
  unfold pi_double
  rw [abs_lt]
  constructor <;> norm_num at hlo hhi ⊢ <;> linarith

theorem test_constants_are_doubles :
    round_nearest sqrt2_double = sqrt2_double ∧ round_nearest pi_double = pi_double ∧
      round_nearest sqrt_pi_double = sqrt_pi_double := by
  decide!

theorem gauss_hermite_terms_length (f : ℚ → Option ℚ) : (gauss_hermite_terms f).length = 32 := by
  simp [gauss_hermite_terms, x_double_length, w_double_length]

/-- For an odd `f` the rounded products of `gauss_hermite` come in pairs of opposite sign. -/
theorem gauss_hermite_terms_odd (f : ℚ → Option ℚ)
    (hodd : ∀ t, f (-t) = (f t).map fun y => -y) (i : ℕ) (hi : i < 32) :
    (gauss_hermite_terms f).getD (31 - i) none
      = ((gauss_hermite_terms f).getD i none).map fun y => -y := by
  rw [gauss_hermite_terms_getD f (31 - i) (by omega), gauss_hermite_terms_getD f i hi,
    x_double_antisymmetric i hi, w_double_symmetric i hi, hodd]
  cases f (gauss_hermite.x_double.getD i 0) with
  | none => rfl
  | some y =>
    simp only [Option.map_some', Option.some_bind]
    rw [neg_mul, round_double_neg]

theorem gauss_hermite_terms_odd_sum (f : ℚ → Option ℚ)
    (hodd : ∀ t, f (-t) = (f t).map fun y => -y) :
    ((List.range 32).map fun i => ((gauss_hermite_terms f).getD i none).getD 0).sum = 0 := by
  rw [list_range_map_sum]
  have hrefl := Finset.sum_range_reflect
    (fun i => ((gauss_hermite_terms f).getD i none).getD 0) 32
  have hneg : ∑ j ∈ range 32, ((gauss_hermite_terms f).getD (32 - 1 - j) none).getD 0
      = -∑ j ∈ range 32, ((gauss_hermite_terms f).getD j none).getD 0 := by
    rw [← Finset.sum_neg_distrib]
    apply Finset.sum_congr rfl
    intro j hj
    have hj' : j < 32 := Finset.mem_range.mp hj
    have h1 : (32 : ℕ) - 1 - j = 31 - j := rfl
    rw [h1, gauss_hermite_terms_odd f hodd j hj']
    cases (gauss_hermite_terms f).getD j none with
    | none => simp
    | some y => simp
  rw [hneg] at hrefl
  linarith

/-- On doubles `gauss_hermite` preserves order: the products are rounded monotonically, as
the weights are positive, and so is every addition. -/
theorem gauss_hermite_double_mono (order : SumTree) (f g : ℚ → Option ℚ)
    (hfg : ∀ t ∈ gauss_hermite.x_double, ∀ y z, f t = some y → g t = some z → y ≤ z)
    (a b : ℚ) (ha : gauss_hermite_double order f = some a)
    (hb : gauss_hermite_double order g = some b) : a ≤ b := by
  refine SumTree.eval_mono round_double round_double_mono _ _ order ?_ a b ha hb
  intro i _ p q hp hq
  by_cases hi : i < 32
  · rw [gauss_hermite_terms_getD f i hi] at hp
    rw [gauss_hermite_terms_getD g i hi] at hq
    have hlen : i < gauss_hermite.x_double.length := by rw [x_double_length]; exact hi
    have hmem : gauss_hermite.x_double.getD i 0 ∈ gauss_hermite.x_double := by
      rw [List.getD_eq_getElem _ _ hlen]
      exact List.getElem_mem hlen
    cases hy : f (gauss_hermite.x_double.getD i 0) with
    | none => rw [hy] at hp; simp at hp
    | some y =>
      cases hz : g (gauss_hermite.x_double.getD i 0) with
      | none => rw [hz] at hq; simp at hq
      | some z =>
        rw [hy, Option.some_bind] at hp
        rw [hz, Option.some_bind] at hq
        have hyz := hfg _ hmem y z hy hz
        exact round_double_mono _ _ p q
          (mul_le_mul_of_nonneg_right hyz (w_double_positive i hi).le) hp hq
  · have hnone : (gauss_hermite_terms f).getD i none = none := by
      rw [List.getD_eq_default]
      rw [gauss_hermite_terms_length]
      omega
    rw [hnone] at hp
    simp at hp

/-- C18 (counterexample): on doubles `gauss_hermite` of the odd function `f(x) = x` is not
zero: it is `1659968299334341 / 2^106` (about `2.05e-17`) when the 32 products are added
left to right, and `3027768291982005 / 2^106` in the unrolled order. -/
theorem gauss_hermite_odd_residue :
    gauss_hermite_double (sequential_order 31) (fun x => some x)
        = some (1659968299334341 / 2 ^ 106) ∧
      gauss_hermite_double unrolled_order (fun x => some x)
        = some (3027768291982005 / 2 ^ 106) := by
  decide!

/-- C18 (amended): the nodes are strictly increasing and antisymmetric (`x_{31−i} = −x_i`),
the weights are strictly positive and symmetric (`w_{31−i} = w_i`), as decimals and as the
doubles stored.  Hence, in exact arithmetic, `gauss_hermite(f) = 0` for every odd `f` and
`gauss_hermite(f) ≤ gauss_hermite(g)` whenever `f ≤ g` at every node.  On doubles, in
whatever order the 32 products are added: for an odd `f` the rounded products cancel in
pairs (`t_{31−i} = −t_i`) and a finite result is at most `2⁻⁴⁷·(Σ |t_i| + 2⁻¹⁰¹⁷)` in
magnitude; and finite results satisfy `gauss_hermite(f) ≤ gauss_hermite(g)` whenever
`f ≤ g` at every node. -/
theorem gauss_hermite_symmetry_and_order {R : Type} [LinearOrderedField R] (f g : R → R) :
    ((∀ i < 32, ∀ j < 32, i < j →
        gauss_hermite.x.getD i 0 < gauss_hermite.x.getD j 0) ∧
      (∀ i < 32, gauss_hermite.x.getD (31 - i) 0 = -gauss_hermite.x.getD i 0) ∧
      (∀ i < 32, 0 < gauss_hermite.w.getD i 0) ∧
      (∀ i < 32, gauss_hermite.w.getD (31 - i) 0 = gauss_hermite.w.getD i 0)) ∧
    ((∀ i < 32, ∀ j < 32, i < j →
        gauss_hermite.x_double.getD i 0 < gauss_hermite.x_double.getD j 0) ∧
      (∀ i < 32, gauss_hermite.x_double.getD (31 - i) 0 = -gauss_hermite.x_double.getD i 0) ∧
      (∀ i < 32, 0 < gauss_hermite.w_double.getD i 0) ∧
      (∀ i < 32, gauss_hermite.w_double.getD (31 - i) 0 = gauss_hermite.w_double.getD i 0)) ∧
    (((∀ t, f (-t) = -f t) → gauss_hermite f = some 0) ∧
      ((∀ t ∈ gauss_hermite.x, f ((t : ℚ) : R) ≤ g ((t : ℚ) : R)) →
        ∃ a b : R, gauss_hermite f = some a ∧ gauss_hermite g = some b ∧ a ≤ b)) ∧
    (∀ (order : SumTree) (h : ℚ → Option ℚ), order.leaves.Perm (List.range 32) →
      (∀ t, h (-t) = (h t).map fun y => -y) →
        (∀ i < 32, (gauss_hermite_terms h).getD (31 - i) none
          = ((gauss_hermite_terms h).getD i none).map fun y => -y) ∧
        ∀ v, gauss_hermite_double order h = some v →
          |v| ≤ 1 / 2 ^ 47
            * (((List.range 32).map fun i =>
                |((gauss_hermite_terms h).getD i none).getD 0|).sum + 1 / 2 ^ 1017)) ∧
    (∀ (order : SumTree) (h k : ℚ → Option ℚ),
      (∀ t ∈ gauss_hermite.x_double, ∀ y z, h t = some y → k t = some z → y ≤ z) →
        ∀ a b, gauss_hermite_double order h = some a →
          gauss_hermite_double order k = some b → a ≤ b) := by
  refine ⟨⟨x_increasing, x_antisymmetric, w_positive, w_symmetric⟩,
    ⟨x_double_increasing, x_double_antisymmetric, w_double_positive, w_double_symmetric⟩,
    ⟨gauss_hermite_odd f, gauss_hermite_mono f g⟩, ?_, ?_⟩
  · intro order h hperm hodd
    refine ⟨gauss_hermite_terms_odd h hodd, ?_⟩
    intro v hv
    have herr := gauss_hermite_double_error order hperm h v hv
    rwa [gauss_hermite_terms_odd_sum h hodd, sub_zero] at herr
  · intro order h k hhk a b ha hb
    exact gauss_hermite_double_mono order h k hhk a b ha hb

theorem gauss_hermite_symmetry_and_order_witness :
    (∀ i < 32, (gauss_hermite_terms (fun x => some x)).getD (31 - i) none
        = ((gauss_hermite_terms (fun x => some x)).getD i none).map fun y => -y) ∧
      ∀ v, gauss_hermite_double unrolled_order (fun x => some x) = some v →
        |v| ≤ 1 / 2 ^ 47
          * (((List.range 32).map fun i =>
              |((gauss_hermite_terms (fun x => some x)).getD i none).getD 0|).sum
            + 1 / 2 ^ 1017) :=
  (@gauss_hermite_symmetry_and_order ℚ _ id id).2.2.2.1 unrolled_order (fun x => some x)
    (by rw [unrolled_order_leaves]) (fun _ => rfl)

end usdg
